import Mathlib

/-!
# Verification of the `jsonextended` flatten/unflatten dictionary algebra

A shallow embedding of `jsonextended/edict.py` (the path-flatten engine, the
path-unflatten engine, merge, the filter family, `split_lists` and `diff`),
together with proofs and refutations of the specified properties.

Python values are modelled by the `JValue` tree below; Python dicts are
association lists in insertion order with unique keys (the Python invariant),
numbers are rationals (ints and floats share one numeric tower, as in
Python's `==`), and functions that can raise return `Except PyErr`.
All embeddings are specialised to `key_as_tuple=True` (tuple keys), the mode
every claim under consideration uses.
-/

set_option maxRecDepth 40000

namespace JsonExt

/-- A Python dictionary key as used by the library: a string or an integer
(the keys the spec calls "hashable, orderable ... in practice a string or
integer"). -/
inductive Key where
  | ks : String → Key
  | ki : Int → Key
deriving DecidableEq, Repr

/-- A Python value as seen by `edict.py`: a number (`int`/`float`, as one
numeric tower, since Python `==` identifies `1` and `1.0`), a string, a
dict (association list in insertion order) or a list. -/
inductive JValue where
  | vnum : ℚ → JValue
  | vstr : String → JValue
  | dict : List (Key × JValue) → JValue
  | list : List JValue → JValue

abbrev Path := List Key
abbrev Entries := List (Key × JValue)
abbrev FlatMap := List (Path × JValue)

open JValue

mutual

/-- Structural (syntactic) equality test for `JValue`; dict entries must agree
in order as well as content.  (Python's order-insensitive `==` is `pyEq`
below; this one only provides `DecidableEq`.) -/
def jbeq : JValue → JValue → Bool
  | .vnum a, .vnum b => a == b
  | .vstr a, .vstr b => a == b
  | .dict a, .dict b => jbeqEntries a b
  | .list a, .list b => jbeqList a b
  | _, _ => false

/-- Structural equality on entry lists. -/
def jbeqEntries : Entries → Entries → Bool
  | [], [] => true
  | (k₁, v₁) :: xs, (k₂, v₂) :: ys => k₁ == k₂ && jbeq v₁ v₂ && jbeqEntries xs ys
  | _, _ => false

/-- Structural equality on value lists. -/
def jbeqList : List JValue → List JValue → Bool
  | [], [] => true
  | x :: xs, y :: ys => jbeq x y && jbeqList xs ys
  | _, _ => false

end

mutual

theorem jbeq_iff_eq : ∀ a b : JValue, jbeq a b = true ↔ a = b
  | .vnum _, .vnum _ => by simp [jbeq]
  | .vstr _, .vstr _ => by simp [jbeq]
  | .dict a, .dict b => by simp [jbeq, jbeqEntries_iff_eq a b]
  | .list a, .list b => by simp [jbeq, jbeqList_iff_eq a b]
  | .vnum _, .vstr _ | .vnum _, .dict _ | .vnum _, .list _
  | .vstr _, .vnum _ | .vstr _, .dict _ | .vstr _, .list _
  | .dict _, .vnum _ | .dict _, .vstr _ | .dict _, .list _
  | .list _, .vnum _ | .list _, .vstr _ | .list _, .dict _ => by simp [jbeq]

theorem jbeqEntries_iff_eq : ∀ xs ys : Entries, jbeqEntries xs ys = true ↔ xs = ys
  | [], [] => by simp [jbeqEntries]
  | (k₁, v₁) :: xs, (k₂, v₂) :: ys => by
    simp [jbeqEntries, jbeq_iff_eq v₁ v₂, jbeqEntries_iff_eq xs ys, and_assoc]
  | [], _ :: _ => by simp [jbeqEntries]
  | _ :: _, [] => by simp [jbeqEntries]

theorem jbeqList_iff_eq : ∀ xs ys : List JValue, jbeqList xs ys = true ↔ xs = ys
  | [], [] => by simp [jbeqList]
  | x :: xs, y :: ys => by simp [jbeqList, jbeq_iff_eq x y, jbeqList_iff_eq xs ys]
  | [], _ :: _ => by simp [jbeqList]
  | _ :: _, [] => by simp [jbeqList]

end

instance : DecidableEq JValue := fun a b =>
  decidable_of_iff (jbeq a b = true) (jbeq_iff_eq a b)

/-- `is_dict_like` from `edict.py`: the value exposes `keys`/`items`. -/
def is_dict_like : JValue → Bool
  | .dict _ => true
  | _ => false

/-- `is_iter_non_string` from `edict.py`: a list or tuple (tuples are not
modelled separately). -/
def is_iter_non_string : JValue → Bool
  | .list _ => true
  | _ => false

/-- `is_list_of_dict_like` from `edict.py`: a non-empty list whose every
element is dict-like.  (On a dict the Python code iterates the keys, which
are never dict-like, and an empty anything fails the length test.) -/
def is_list_of_dict_like : JValue → Bool
  | .list l => !l.isEmpty && l.all is_dict_like
  | _ => false

/-- Python dict lookup `d[k]` / `k in d` on an association list: the first
occurrence wins (occurrences are unique in any list produced by dict
operations). -/
def lookupE (k : Key) : Entries → Option JValue
  | [] => none
  | (k', v) :: rest => if k' = k then some v else lookupE k rest

/-- Python dict assignment `d[k] = v`: replace the value in place if the key
exists (keeping its position, as CPython dicts do), else append. -/
def upsert (k : Key) (v : JValue) : Entries → Entries
  | [] => [(k, v)]
  | (k', v') :: rest => if k' = k then (k, v) :: rest else (k', v') :: upsert k v rest

mutual

/-- Python `==`, modelled structurally except on dicts, which compare as
unordered mappings (same length, and every key of the left maps to an equal
value on the right).  Numbers compare numerically, so `1 == 1.0` holds. -/
def pyEq : JValue → JValue → Bool
  | .vnum a, .vnum b => a == b
  | .vstr a, .vstr b => a == b
  | .dict a, .dict b => a.length == b.length && pyEqEntries a b
  | .list a, .list b => pyEqList a b
  | _, _ => false

/-- Every entry of the first dict maps, under the second dict's lookup, to a
`pyEq`-equal value. -/
def pyEqEntries : Entries → Entries → Bool
  | [], _ => true
  | (k, v) :: rest, b =>
      (match lookupE k b with
       | some w => pyEq v w
       | none => false) && pyEqEntries rest b

/-- Pointwise `pyEq` on lists of equal length. -/
def pyEqList : List JValue → List JValue → Bool
  | [], [] => true
  | _ :: _, [] => false
  | [], _ :: _ => false
  | x :: xs, y :: ys => pyEq x y && pyEqList xs ys

end

example : pyEq (.dict [(.ks "a", .vnum 1), (.ks "b", .vnum 2)])
               (.dict [(.ks "b", .vnum 2), (.ks "a", .vnum 1)]) = true := by decide

example : pyEq (.dict [(.ks "a", .vnum 1)]) (.dict [(.ks "a", .vnum 2)]) = false := by decide

/-! ## Rendering values as CPython `repr`/`str` does

The library's error messages interpolate `str(value)` and `str(tuple)`;
the conflict-reporting claims are about those messages, so the rendering is
embedded.  Integers render in decimal; strings render bare under `str` and
single-quoted inside containers (Python quote-escaping subtleties are not
modelled; no rendered witness below contains a quote character). -/

/-- A single-quote character, written via its code point. -/
def sq : String := String.singleton (Char.ofNat 39)

/-- `repr` of a number: integers in decimal; non-integral rationals (which
stand in for floats) as numerator/denominator — no claim below renders one. -/
def reprNum (q : ℚ) : String :=
  if q.den = 1 then toString q.num else toString q.num ++ "/" ++ toString q.den

/-- `repr` of a key (inside containers and tuples). -/
def reprKey : Key → String
  | .ks s => sq ++ s ++ sq
  | .ki n => toString n

/-- `str` of a key (as used for dotted error paths). -/
def strKey : Key → String
  | .ks s => s
  | .ki n => toString n

/-- Comma-separated join. -/
def joinComma : List String → String
  | [] => ""
  | [s] => s
  | s :: rest => s ++ ", " ++ joinComma rest

/-- Python `repr` of a tuple of keys, e.g. `('a', 'b')`, `('a',)`, `()`. -/
def reprTuple (p : Path) : String :=
  match p with
  | [k] => "(" ++ reprKey k ++ ",)"
  | _ => "(" ++ joinComma (p.map reprKey) ++ ")"

mutual

/-- Python `repr` of a value. -/
def pyRepr : JValue → String
  | .vnum q => reprNum q
  | .vstr s => sq ++ s ++ sq
  | .dict es => "\x7b" ++ joinComma (pyReprEntries es) ++ "\x7d"
  | .list xs => "[" ++ joinComma (pyReprList xs) ++ "]"

/-- `repr` of each `key: value` entry of a dict. -/
def pyReprEntries : Entries → List String
  | [] => []
  | (k, v) :: rest => (reprKey k ++ ": " ++ pyRepr v) :: pyReprEntries rest

/-- `repr` of each element of a list. -/
def pyReprList : List JValue → List String
  | [] => []
  | x :: rest => pyRepr x :: pyReprList rest

end

/-- Python `str` of a value: like `repr` except bare strings. -/
def pyStr : JValue → String
  | .vstr s => s
  | v => pyRepr v

/-- The Python exceptions the embedded functions can raise. -/
inductive PyErr where
  | typeError : String → PyErr
  | valueError : String → PyErr
  | keyError : String → PyErr
  | indexError : String → PyErr
deriving DecidableEq, Repr

instance {ε α : Type} [DecidableEq ε] [DecidableEq α] : DecidableEq (Except ε α) := fun x y =>
  match x, y with
  | .ok a, .ok b =>
      if h : a = b then isTrue (by rw [h]) else isFalse (by intro hh; cases hh; exact h rfl)
  | .error a, .error b =>
      if h : a = b then isTrue (by rw [h]) else isFalse (by intro hh; cases hh; exact h rfl)
  | .ok _, .error _ => isFalse (by intro h; cases h)
  | .error _, .ok _ => isFalse (by intro h; cases h)

/-! ## `flatten` (edict.py, tuple-key mode)

`flatten(d, key_as_tuple=True, sep='.', list_of_dicts=lod, all_iters=ai)`.
A sequence rewritten for descent becomes the synthetic dict
`{'<pre><index>': element, ...}` (source: the dict comprehensions over
`enumerate(value)`). -/

/-- The synthetic mapping `{'{pre}{i}': v}` built from a sequence, starting
at index `i`. -/
def wrapSeqFrom (pre : String) (i : ℕ) : List JValue → Entries
  | [] => []
  | v :: rest => (Key.ks (pre ++ toString i), v) :: wrapSeqFrom pre (i + 1) rest

/-- The synthetic mapping for a whole sequence (indices from 0). -/
def wrapSeq (pre : String) (l : List JValue) : Entries := wrapSeqFrom pre 0 l

/-- `dict(items)`: build a dict from a pair list, later duplicates
overwriting in place.  (On the duplicate-free lists `flatten` produces this
is the identity.) -/
def pyDict {α : Type} [DecidableEq α] (items : List (α × JValue)) : List (α × JValue) :=
  items.foldl (fun acc p => upsertG acc p.1 p.2) []
where
  upsertG (l : List (α × JValue)) (k : α) (v : JValue) : List (α × JValue) :=
    match l with
    | [] => [(k, v)]
    | (k', v') :: rest => if k' = k then (k, v) :: rest else (k', v') :: upsertG rest k v

mutual

/-- The body of `flatten` on a dict: `[item for k, v in d.items() for item
in expand((k,), v)]` (tuple-key mode), with each sub-path prefixed by the
entry key. -/
def flattenDict (lod ai : Option String) : Entries → FlatMap
  | [] => []
  | (k, v) :: rest => expand lod ai k v ++ flattenDict lod ai rest

/-- `expand(key, value)` from `flatten`: descend into dict-like values; if a
sequence mode applies, rewrite the sequence as a synthetic indexed mapping
and descend; otherwise emit the single `(path, value)` pair. -/
def expand (lod ai : Option String) (k : Key) (value : JValue) : FlatMap :=
  match value with
  | .dict es => (flattenDict lod ai es).map (fun p => (k :: p.1, p.2))
  | .list xs =>
      if ai.isSome then
        (flattenWrapped lod ai (ai.getD "") 0 xs).map (fun p => (k :: p.1, p.2))
      else if (!xs.isEmpty && xs.all is_dict_like) && lod.isSome then
        (flattenWrapped lod ai (lod.getD "") 0 xs).map (fun p => (k :: p.1, p.2))
      else [([k], value)]
  | _ => [([k], value)]

/-- `flattenDict` applied to the synthetic mapping of a sequence, fused for
structural recursion; `flattenWrapped lod ai pre i xs =
flattenDict lod ai (wrapSeqFrom pre i xs)` (proved below). -/
def flattenWrapped (lod ai : Option String) (pre : String) (i : ℕ) : List JValue → FlatMap
  | [] => []
  | v :: rest => expand lod ai (Key.ks (pre ++ toString i)) v ++ flattenWrapped lod ai pre (i + 1) rest

end

theorem flattenWrapped_eq_flattenDict (lod ai : Option String) (pre : String) :
    ∀ (i : ℕ) (xs : List JValue),
      flattenWrapped lod ai pre i xs = flattenDict lod ai (wrapSeqFrom pre i xs)
  | _, [] => rfl
  | i, v :: rest => by
      rw [flattenWrapped, wrapSeqFrom, flattenDict, flattenWrapped_eq_flattenDict lod ai pre (i + 1) rest]

/-- `flatten(d, key_as_tuple=True, sep='.', list_of_dicts=lod, all_iters=ai)`
from `edict.py`: root acceptance checks, then the recursive expansion, then
`dict(items)`. -/
def flatten (d : JValue) (lod ai : Option String) : Except PyErr FlatMap :=
  match d, lod, ai with
  | .list xs, lod, some pre => .ok (pyDict (flattenDict lod (some pre) (wrapSeq pre xs)))
  | .list xs, some pre, none =>
      if !xs.isEmpty && xs.all is_dict_like then
        .ok (pyDict (flattenDict (some pre) none (wrapSeq pre xs)))
      else .error (.typeError ("d is not dict like: " ++ pyStr (.list xs)))
  | .dict es, lod, ai => .ok (pyDict (flattenDict lod ai es))
  | d, _, _ => .error (.typeError ("d is not dict like: " ++ pyStr d))

-- `flatten` doctest: {1: {"a": "A"}, 2: {"b": "B"}} → {(1,'a'):'A', (2,'b'):'B'}
example :
    flatten (.dict [(.ki 1, .dict [(.ks "a", .vstr "A")]), (.ki 2, .dict [(.ks "b", .vstr "B")])]) none none
      = .ok [([.ki 1, .ks "a"], .vstr "A"), ([.ki 2, .ks "b"], .vstr "B")] := by decide

-- `flatten` doctest: [{'a':1},{'b':[1, 2]}] with list_of_dicts='__list__'
example :
    flatten (.list [.dict [(.ks "a", .vnum 1)], .dict [(.ks "b", .list [.vnum 1, .vnum 2])]])
        (some "__list__") none
      = .ok [([.ks "__list__0", .ks "a"], .vnum 1),
             ([.ks "__list__1", .ks "b"], .list [.vnum 1, .vnum 2])] := by decide

-- `flatten` doctest: [{'a':1},{'b':[1, 2]}] with all_iters='__iter__'
example :
    flatten (.list [.dict [(.ks "a", .vnum 1)], .dict [(.ks "b", .list [.vnum 1, .vnum 2])]])
        none (some "__iter__")
      = .ok [([.ks "__iter__0", .ks "a"], .vnum 1),
             ([.ks "__iter__1", .ks "b", .ks "__iter__0"], .vnum 1),
             ([.ks "__iter__1", .ks "b", .ks "__iter__1"], .vnum 2)] := by decide

/-! ## Python container primitives used by `merge` and the `unflatten` walk

`merge`'s inner `single_merge` runs `for key in b`, `key in a`, `a[key]`,
`b[key]`, `a[key] = ...` on values that need not be dicts, so the Python
semantics of `in`, indexing and item assignment are embedded for every
`JValue` shape. -/

/-- The Python value a key denotes (dict keys iterate as their values). -/
def keyToVal : Key → JValue
  | .ks s => .vstr s
  | .ki n => .vnum n

/-- Whether a value is hashable (usable in a dict-membership test). -/
def hashable : JValue → Bool
  | .vnum _ => true
  | .vstr _ => true
  | _ => false

/-- The `Key` under which a value would be stored as a dict key, when the
model can represent it (non-integral numeric keys cannot arise in any
execution considered here). -/
def valToKey : JValue → Option Key
  | .vnum q => if q.den = 1 then some (.ki q.num) else none
  | .vstr s => some (.ks s)
  | _ => none

/-- Python `kv in a`: dict key test (by `==`, so `1.0` finds key `1`),
list membership by `==`, substring test on strings, `TypeError` otherwise. -/
def pyContainsV (a kv : JValue) : Except PyErr Bool :=
  match a with
  | .dict es =>
      if hashable kv then .ok (es.any (fun p => pyEq (keyToVal p.1) kv))
      else .error (.typeError "unhashable type")
  | .list xs => .ok (xs.any (fun x => pyEq x kv))
  | .vstr s =>
      match kv with
      | .vstr sub => .ok (decide (sub.data <:+: s.data))
      | _ => .error (.typeError "in string requires string as left operand")
  | .vnum _ => .error (.typeError "argument of type int is not iterable")

/-- Python `a[kv]` for a value-shaped key: dict lookup by `==`, list/string
indexing with negative-index normalisation, errors as CPython raises them. -/
def pyGetItemV (a kv : JValue) : Except PyErr JValue :=
  match a with
  | .dict es =>
      if hashable kv then
        match es.find? (fun p => pyEq (keyToVal p.1) kv) with
        | some p => .ok p.2
        | none => .error (.keyError (pyRepr kv))
      else .error (.typeError "unhashable type")
  | .list xs =>
      match kv with
      | .vnum q =>
          if q.den = 1 then
            let i := if q.num < 0 then q.num + xs.length else q.num
            if h : 0 ≤ i ∧ i.toNat < xs.length then .ok (xs.get ⟨i.toNat, h.2⟩)
            else .error (.indexError "list index out of range")
          else .error (.typeError "list indices must be integers")
      | _ => .error (.typeError "list indices must be integers")
  | .vstr s =>
      match kv with
      | .vnum q =>
          if q.den = 1 then
            let i := if q.num < 0 then q.num + s.length else q.num
            if h : 0 ≤ i ∧ i.toNat < s.data.length then
              .ok (.vstr (String.singleton (s.data.get ⟨i.toNat, h.2⟩)))
            else .error (.indexError "string index out of range")
          else .error (.typeError "string indices must be integers")
      | _ => .error (.typeError "string indices must be integers")
  | .vnum _ => .error (.typeError "int object is not subscriptable")

/-- Python `a[kv] = v`: dict upsert (position kept), in-range list element
assignment, errors otherwise. -/
def pySetItemV (a kv v : JValue) : Except PyErr JValue :=
  match a with
  | .dict es =>
      if hashable kv then
        match valToKey kv with
        | some k => .ok (.dict (upsert k v es))
        | none => .error (.typeError "unrepresentable key")
      else .error (.typeError "unhashable type")
  | .list xs =>
      match kv with
      | .vnum q =>
          if q.den = 1 then
            let i := if q.num < 0 then q.num + xs.length else q.num
            if 0 ≤ i ∧ i.toNat < xs.length then .ok (.list (xs.set i.toNat v))
            else .error (.indexError "list assignment index out of range")
          else .error (.typeError "list indices must be integers")
      | _ => .error (.typeError "list indices must be integers")
  | .vstr _ => .error (.typeError "str object does not support item assignment")
  | .vnum _ => .error (.typeError "int object does not support item assignment")

/-- The elements of a list value (only applied under a list guard). -/
def jitems : JValue → List JValue
  | .list xs => xs
  | _ => []

/-- Dotted-path join for `merge`'s conflict message. -/
def joinDot : List String → String
  | [] => ""
  | [s] => s
  | s :: rest => s ++ "." ++ joinDot rest

/-- `merge`'s conflict message: `'different data already exists at {path}:
old: {old}, new: {new}'` with the dotted path `'.'.join(error_path +
[str(key)])`. -/
def mergeConflictMsg (ep : List String) (kv : JValue) (old new : JValue) : String :=
  "different data already exists at " ++ joinDot (ep ++ [pyStr kv]) ++
    ": old: " ++ pyStr old ++ ", new: " ++ pyStr new

/-! ## `merge` (edict.py)

`single_merge(a, b)` iterates `for key in b` — so the shape of `b` drives
the behaviour: a dict iterates its keys, a list iterates its *elements*
(which are then used as keys into both `a` and `b`), a string iterates its
characters (for which `b[key]` always raises), and anything else is not
iterable.  The three iteration shapes are split into mutually recursive
functions so the recursion is visibly decreasing. -/

mutual

/-- `single_merge(a, b, overwrite, error_path)` from `merge` in `edict.py`
(the `append` flag is closed over, here passed explicitly). -/
def single_merge (ow ap : Bool) (ep : List String) (a b : JValue) : Except PyErr JValue :=
  match b with
  | .dict bs => mergeEntries ow ap ep a bs
  | .list xs => mergeListElems ow ap ep a xs xs
  | .vstr s =>
      -- each character key reaches an evaluation of `b[key]` (string indexed
      -- by a string), which raises; an empty string simply ends the loop
      match s.data with
      | [] => .ok a
      | c :: _ => do
          let inA ← pyContainsV a (.vstr (String.singleton c))
          if inA then do
            let _ ← pyGetItemV a (.vstr (String.singleton c))
            .error (.typeError "string indices must be integers")
          else
            .error (.typeError "string indices must be integers")
  | .vnum _ => .error (.typeError "int object is not iterable")
termination_by (sizeOf b, 0)
decreasing_by
  all_goals simp_wf
  all_goals apply Prod.Lex.left
  all_goals try simp
  all_goals try omega

/-- The `for key in b` loop of `single_merge` when `b` is a dict. -/
def mergeEntries (ow ap : Bool) (ep : List String) (a : JValue) :
    Entries → Except PyErr JValue
  | [] => .ok a
  | (bk, bv) :: rest => do
      let kv := keyToVal bk
      let c ← pyContainsV a kv
      let a' ←
        if c then do
          let av ← pyGetItemV a kv
          if is_dict_like av && is_dict_like bv then do
            let m ← single_merge ow ap (ep ++ [pyStr kv]) av bv
            pySetItemV a kv m
          else if is_iter_non_string av && is_iter_non_string bv && ap then
            pySetItemV a kv (.list (jitems av ++ jitems bv))
          else if pyEq av bv then pure a
          else if ow then pySetItemV a kv bv
          else .error (.valueError (mergeConflictMsg ep kv av bv))
        else
          pySetItemV a kv bv
      mergeEntries ow ap ep a' rest
termination_by bs => (sizeOf bs, 1)
decreasing_by
  all_goals simp_wf
  all_goals apply Prod.Lex.left
  all_goals try simp
  all_goals try omega

/-- The `for key in b` loop of `single_merge` when `b` is a list: the
elements act as keys; `b[key]` re-indexes the full list. -/
def mergeListElems (ow ap : Bool) (ep : List String) (a : JValue)
    (bfull : List JValue) : List JValue → Except PyErr JValue
  | [] => .ok a
  | kv :: rest => do
      let c ← pyContainsV a kv
      let a' ←
        if c then do
          let av ← pyGetItemV a kv
          match kv with
          | .vnum q =>
              if q.den = 1 then
                let i := if q.num < 0 then q.num + bfull.length else q.num
                if h : 0 ≤ i ∧ i.toNat < bfull.length then
                  let bv := bfull.get ⟨i.toNat, h.2⟩
                  if is_dict_like av && is_dict_like bv then do
                    let m ← single_merge ow ap (ep ++ [pyStr kv]) av bv
                    pySetItemV a kv m
                  else if is_iter_non_string av && is_iter_non_string bv && ap then
                    pySetItemV a kv (.list (jitems av ++ jitems bv))
                  else if pyEq av bv then pure a
                  else if ow then pySetItemV a kv bv
                  else .error (.valueError (mergeConflictMsg ep kv av bv))
                else .error (.indexError "list index out of range")
              else .error (.typeError "list indices must be integers")
          | _ => .error (.typeError "list indices must be integers")
        else
          match kv with
          | .vnum q =>
              if q.den = 1 then
                let i := if q.num < 0 then q.num + bfull.length else q.num
                if h : 0 ≤ i ∧ i.toNat < bfull.length then
                  pySetItemV a kv (bfull.get ⟨i.toNat, h.2⟩)
                else .error (.indexError "list index out of range")
              else .error (.typeError "list indices must be integers")
          | _ => .error (.typeError "list indices must be integers")
      mergeListElems ow ap ep a' bfull rest
termination_by keys => (sizeOf bfull, sizeOf keys + 1)
decreasing_by
  all_goals simp_wf
  all_goals first
    | (apply Prod.Lex.left
       exact List.sizeOf_lt_of_mem (List.get_mem _ _ _))
    | (apply Prod.Lex.right
       simp
       try omega)

end

unseal single_merge mergeEntries mergeListElems

/-- `merge(dicts, overwrite=ow, append=ap)` from `edict.py`: deep-copy the
first dict (a no-op on immutable values) and fold `single_merge` over the
rest. -/
def merge (dicts : List JValue) (ow ap : Bool) : Except PyErr JValue :=
  match dicts with
  | [] => .error (.indexError "list index out of range")
  | d0 :: rest => rest.foldlM (fun acc b => single_merge ow ap [] acc b) d0

-- `merge` doctests
example :
    merge [.dict [(.ki 1, .dict [(.ks "a", .vstr "A")]), (.ki 2, .dict [(.ks "b", .vstr "B")])],
           .dict [(.ki 1, .dict [(.ks "a", .vstr "A")]), (.ki 2, .dict [(.ks "c", .vstr "C")])]]
      false false
    = .ok (.dict [(.ki 1, .dict [(.ks "a", .vstr "A")]),
                  (.ki 2, .dict [(.ks "b", .vstr "B"), (.ks "c", .vstr "C")])]) := by decide

example :
    merge [.dict [(.ki 1, .dict [(.ks "a", .list [.vstr "A"])])],
           .dict [(.ki 1, .dict [(.ks "a", .list [.vstr "D"])])]]
      false true
    = .ok (.dict [(.ki 1, .dict [(.ks "a", .list [.vstr "A", .vstr "D"])])]) := by decide

example :
    merge [.dict [(.ki 1, .dict [(.ks "a", .vstr "A")]), (.ki 2, .dict [(.ks "b", .vstr "B")])],
           .dict [(.ki 1, .dict [(.ks "a", .vstr "X")]), (.ki 2, .dict [(.ks "c", .vstr "C")])]]
      false false
    = .error (.valueError "different data already exists at 1.a: old: A, new: X") := by decide

example : merge [.dict [], .dict []] false false = .ok (.dict []) := by decide

example : merge [.dict [], .dict [(.ks "a", .vnum 1)], .dict [(.ks "a", .vnum 1)],
                 .dict [(.ks "b", .vnum 2)]] false false
    = .ok (.dict [(.ks "a", .vnum 1), (.ks "b", .vnum 2)]) := by decide

/-! ## `unflatten` (edict.py, tuple-key mode)

For each `(parts, value)` pair the source walks `result` along
`parts[:-1]`, creating empty dicts at missing keys (`if part not in d:
d[part] = {}; d = d[part]` — which on non-dict nodes runs the generic
Python `in`/indexing semantics above), then places `value` at `parts[-1]`,
raising the two "child conflict" `KeyError`s of the source.  In-place
mutation of the aliased sub-node becomes rebuild-on-return. -/

/-- Python string `<=`: lexicographic comparison by code point. -/
def charsLe : List Char → List Char → Bool
  | [], _ => true
  | _ :: _, [] => false
  | a :: as, b :: bs =>
      if a.toNat < b.toNat then true
      else if b.toNat < a.toNat then false
      else charsLe as bs

/-- The two strings of a conflict message, `sorted([...])` (lexicographic,
as Python sorts strings). -/
def sortPair (a b : String) : String × String :=
  if charsLe a.data b.data then (a, b) else (b, a)

/-- `"child conflict for path: {0}; {1} and {2}".format(path, *sorted([str(x), str(y)]))` -/
def childConflictMsg (p : Path) (x y : JValue) : String :=
  (fun s => "child conflict for path: " ++ reprTuple p ++ "; " ++ s.1 ++ " and " ++ s.2)
    (sortPair (pyStr x) (pyStr y))

/-- Place one `(parts, value)` pair: the walk over `parts[:-1]` (with `acc`
the already-walked prefix, for error messages) and the final-key step. -/
def placeWalk (cur : JValue) (acc : Path) (remaining : Path) (value : JValue) :
    Except PyErr JValue :=
  match remaining with
  | [] => .ok cur   -- unreachable: the empty tuple key was popped before the loop
  | [last] =>
      -- after the walk: `if not is_dict_like(d)` → conflict rule A (path `parts[:-1]`);
      -- `elif parts[-1] in d` → attempt `merge`, conflict rule B (path `parts`) on failure
      match cur with
      | .dict es =>
          match lookupE last es with
          | some existing =>
              match merge [existing, value] false false with
              | .ok m => .ok (.dict (upsert last m es))
              | .error _ => .error (.keyError (childConflictMsg (acc ++ [last]) value existing))
          | none => .ok (.dict (upsert last value es))
      | _ => .error (.keyError (childConflictMsg acc cur (.dict [(last, value)])))
  | part :: rest => do
      let c ← pyContainsV cur (keyToVal part)
      let cur' ← if c then pure cur else pySetItemV cur (keyToVal part) (.dict [])
      let child ← pyGetItemV cur' (keyToVal part)
      let newChild ← placeWalk child (acc ++ [part]) rest value
      pySetItemV cur' (keyToVal part) newChild

/-- Flat-map lookup (`key in d` / `d.pop(key)` support). -/
def lookupF (p : Path) : FlatMap → Option JValue
  | [] => none
  | (q, v) :: rest => if q = p then some v else lookupF p rest

/-- The `for key, value in d.items()` loop of `unflatten`. -/
def processPairs (init : JValue) (l : FlatMap) : Except PyErr JValue :=
  l.foldlM (fun res p => placeWalk res [] p.1 p.2) init

/-- `_startswith(k, prefix)` from `edict.py`: `False` for keys without a
`startswith` attribute (integers). -/
def _startswith (k : Key) (pre : String) : Bool :=
  match k with
  | .ks s => pre.data.isPrefixOf s.data
  | .ki _ => false

/-- `str.replace` on character lists: replace non-overlapping occurrences
left to right (the core `String.replace` is not kernel-reducible). -/
def replaceChars (pat rep : List Char) : List Char → List Char
  | [] => []
  | c :: rest =>
      if pat ≠ [] ∧ pat.isPrefixOf (c :: rest) then
        rep ++ replaceChars pat rep ((c :: rest).drop pat.length)
      else c :: replaceChars pat rep rest
termination_by l => l.length
decreasing_by
  all_goals simp_wf
  all_goals
    first
      | (rename_i h
         have hp : 0 < pat.length :=
           Nat.pos_of_ne_zero (fun hh => h.1 (List.eq_nil_of_length_eq_zero hh))
         simp [List.length_drop]
         omega)
      | simp

unseal replaceChars

/-- Python `s.replace(old, new)`. -/
def pyReplace (s old new : String) : String := ⟨replaceChars old.data new.data s.data⟩

/-- `int(s)` on a non-negative digit string (kernel-reducible substitute for
the core `String.toNat?`): `none` when any character is not a digit or the
string is empty, which is when `int()` raises `ValueError`. -/
def digitsToNat? (l : List Char) : Option Nat :=
  if !l.isEmpty && l.all Char.isDigit then
    some (l.foldl (fun acc c => acc * 10 + (c.toNat - 48)) 0)
  else none

/-- `int(x.replace(prefix, ''))` on a synthetic key: parse the digits left
after removing every occurrence of the prefix (`ValueError` if the rest is
not a digit string, as `int()` raises). -/
def parseSyntheticIdx (pre : String) (k : Key) : Except PyErr Int :=
  match k with
  | .ks s =>
      (match digitsToNat? (pyReplace s pre "").data with
       | some n => .ok (n : Int)
       | none => .error (.valueError ("invalid literal for int: " ++ pyReplace s pre "")))
  | .ki _ => .error (.typeError "int object has no attribute replace")

/-- Attach its parsed synthetic index to each entry value. -/
def parseAllIdx (pre : String) : Entries → Except PyErr (List (Int × JValue))
  | [] => .ok []
  | (k, v) :: rest => do
      let n ← parseSyntheticIdx pre k
      let rest' ← parseAllIdx pre rest
      .ok ((n, v) :: rest')

/-- Stable insertion of one indexed value into a sorted list. -/
def insertIdx (x : Int × JValue) : List (Int × JValue) → List (Int × JValue)
  | [] => [x]
  | y :: ys => if y.1 ≤ x.1 then y :: insertIdx x ys else x :: y :: ys

/-- Stable sort by parsed index (Python's `sorted` with an `int` key). -/
def sortIdx (l : List (Int × JValue)) : List (Int × JValue) :=
  l.foldl (fun acc x => insertIdx x acc) []

mutual

/-- `_recreate_lists(d, prefix)` from `edict.py`: a dict whose keys all
start with the prefix becomes a list ordered by the numeric suffix; any
other dict recurses into its values; leaves are unchanged.  (The source
recurses into the element values inside the sorted comprehension; here the
recursion runs before the sort, which is the same function since the sort
is stable, keyed only on the untouched keys, and all effects are errors
that both orders surface on the same dicts.) -/
def _recreate_lists (v : JValue) (pre : String) : Except PyErr JValue :=
  match v with
  | .dict es =>
      if es.all (fun p => _startswith p.1 pre) then do
        let processed ← recreateVals es pre
        let keyed ← parseAllIdx pre processed
        .ok (.list ((sortIdx keyed).map Prod.snd))
      else do
        let es' ← recreateVals es pre
        .ok (.dict es')
  | _ => .ok v

/-- Recurse `_recreate_lists` into every entry value. -/
def recreateVals : Entries → String → Except PyErr Entries
  | [], _ => .ok []
  | (k, v) :: rest, pre => do
      let v' ← _recreate_lists v pre
      let rest' ← recreateVals rest pre
      .ok ((k, v') :: rest')

end

/-- `unflatten(d, key_as_tuple=True, delim='.', list_of_dicts=lod)` from
`edict.py`: empty input returns itself (the empty dict); the value at the
empty tuple key, if any, seeds `result`; each remaining pair is placed by
the walk; finally `_recreate_lists` runs when `lod` is set.  The
`isinstance(key, tuple)` guard is vacuous here (keys are tuples by type),
and `copy.deepcopy` is the identity on immutable values. -/
def unflatten (d : FlatMap) (lod : Option String) : Except PyErr JValue :=
  match d with
  | [] => .ok (.dict [])
  | _ => do
      let result0 := match lookupF [] d with | some v => v | none => .dict []
      let rest := d.filter (fun p => !(decide (p.1 = [])))
      let r ← processPairs result0 rest
      match lod with
      | some pre => _recreate_lists r pre
      | none => .ok r

-- `unflatten` doctest: {('a','b'):1,('a','c'):2} → {'a': {'b': 1, 'c': 2}}
example :
    unflatten [([.ks "a", .ks "b"], .vnum 1), ([.ks "a", .ks "c"], .vnum 2)] none
      = .ok (.dict [(.ks "a", .dict [(.ks "b", .vnum 1), (.ks "c", .vnum 2)])]) := by decide

-- `unflatten` doctest: {('a','__list__1','a'):1, ('a','__list__0','b'):2}
-- with list_of_dicts='__list__' → {'a': [{'b': 2}, {'a': 1}]}
example :
    unflatten [([.ks "a", .ks "__list__1", .ks "a"], .vnum 1),
               ([.ks "a", .ks "__list__0", .ks "b"], .vnum 2)] (some "__list__")
      = .ok (.dict [(.ks "a", .list [.dict [(.ks "b", .vnum 2)], .dict [(.ks "a", .vnum 1)]])]) := by
  decide

-- `unflatten` doctest: {('a','b','c'):1,('a','b'):2} raises
-- KeyError: "child conflict for path: ('a', 'b'); 2 and {'c': 1}"
example :
    unflatten [([.ks "a", .ks "b", .ks "c"], .vnum 1), ([.ks "a", .ks "b"], .vnum 2)] none
      = .error (.keyError ("child conflict for path: (" ++ sq ++ "a" ++ sq ++ ", " ++ sq ++ "b" ++ sq
          ++ "); 2 and \x7b" ++ sq ++ "c" ++ sq ++ ": 1\x7d")) := by decide

/-! ## `flattennd` / `flatten2d` / `split_lists` (edict.py) -/

/-- Dict assignment on a path-keyed flat mapping. -/
def upsertF (p : Path) (v : JValue) : FlatMap → FlatMap
  | [] => [(p, v)]
  | (q, w) :: rest => if q = p then (p, v) :: rest else (q, w) :: upsertF p v rest

/-- `d.pop(p)`'s effect on a path-keyed flat mapping. -/
def removeF (p : Path) : FlatMap → FlatMap
  | [] => []
  | (q, v) :: rest => if q = p then rest else (q, v) :: removeF p rest

/-- The entries of a dict value (only applied under a dict guard). -/
def jentries : JValue → Entries
  | .dict es => es
  | _ => []

/-- `flattennd(d, levels, key_as_tuple=True, list_of_dicts=lod)` from
`edict.py`: flatten fully, then for each flat pair rebuild the last
`levels` path segments into a nested value (`unflatten` of a singleton) and
merge it in under the truncated path. -/
def flattennd (d : JValue) (levels : ℕ) (lod : Option String) :
    Except PyErr FlatMap := do
  let flattened ← flatten d lod none
  if levels = 0 then pure flattened
  else
    flattened.foldlM
      (fun new_d p => do
        let key := p.1
        let new_key := key.take (key.length - levels)
        let new_levels := key.drop (key.length - levels)
        let val_dict ← unflatten [(new_levels, p.2)] lod
        match lookupF new_key new_d with
        | none => pure (upsertF new_key val_dict new_d)
        | some existing => do
            let m ← merge [existing, val_dict] false false
            pure (upsertF new_key m new_d))
      []

/-- `flatten2d(d) = flattennd(d, 1)`. -/
def flatten2d (d : JValue) (lod : Option String) : Except PyErr FlatMap :=
  flattennd d 1 lod

-- `flattennd` doctests on {1:{2:{3:{'b':'B','c':'C'},4:'D'}}}
example :
    flattennd (.dict [(.ki 1, .dict [(.ki 2, .dict [(.ki 3, .dict [(.ks "b", .vstr "B"), (.ks "c", .vstr "C")]), (.ki 4, .vstr "D")])])]) 0 none
      = .ok [([.ki 1, .ki 2, .ki 3, .ks "b"], .vstr "B"),
             ([.ki 1, .ki 2, .ki 3, .ks "c"], .vstr "C"),
             ([.ki 1, .ki 2, .ki 4], .vstr "D")] := by decide

example :
    flattennd (.dict [(.ki 1, .dict [(.ki 2, .dict [(.ki 3, .dict [(.ks "b", .vstr "B"), (.ks "c", .vstr "C")]), (.ki 4, .vstr "D")])])]) 1 none
      = .ok [([.ki 1, .ki 2, .ki 3], .dict [(.ks "b", .vstr "B"), (.ks "c", .vstr "C")]),
             ([.ki 1, .ki 2], .dict [(.ki 4, .vstr "D")])] := by decide

example :
    flattennd (.dict [(.ki 1, .dict [(.ki 2, .dict [(.ki 3, .dict [(.ks "b", .vstr "B"), (.ks "c", .vstr "C")]), (.ki 4, .vstr "D")])])]) 3 none
      = .ok [([.ki 1], .dict [(.ki 2, .dict [(.ki 3, .dict [(.ks "b", .vstr "B"), (.ks "c", .vstr "C")])])]),
             ([], .dict [(.ki 1, .dict [(.ki 2, .dict [(.ki 4, .vstr "D")])])])] := by decide

/-- `'"{0}" data at the following path is not a list {1}'.format(subkey, key)` -/
def notListMsg (subkey : Key) (key : Path) : String :=
  "\"" ++ strKey subkey ++ "\" data at the following path is not a list " ++ reprTuple key

/-- `'lists at the following path do not have the same size {0}'.format(key)` -/
def sizeMismatchMsg (key : Path) : String :=
  "lists at the following path do not have the same size " ++ reprTuple key

/-- `'split data key: {0}, already exists at this level for {1}'.format(new_name, key)` -/
def splitDataKeyMsg (new_name : String) (key : Path) : String :=
  "split data key: " ++ new_name ++ ", already exists at this level for " ++ reprTuple key

/-- `for item, val in zip(combine_d, subvalue): item[subkey] = val` — items
beyond the zip keep their old value. -/
def zipSetInto (k : Key) : List JValue → List JValue → List JValue
  | items, [] => items
  | [], _ => []
  | item :: items, v :: vs => .dict (upsert k v (jentries item)) :: zipSetInto k items vs

/-- The state of `split_lists`' inner loop. -/
structure SplitSt where
  combine_d : List JValue
  sub_d : Entries
  len : Option ℕ
  new_d : FlatMap
  deriving DecidableEq

/-- One step of `split_lists`' inner `for subkey, subvalue in value.items()`
loop at branch `key`. -/
def splitStep (split_keys : List Key) (new_name : String) (check_length : Bool)
    (key : Path) (st : SplitSt) (p : Key × JValue) : Except PyErr SplitSt := do
  let (subkey, subvalue) := p
  let st' ←
    if subkey ∈ split_keys then
      match subvalue with
      | .list xs => do
          if check_length then
            match st.len with
            | some L => if xs.length ≠ L then .error (.valueError (sizeMismatchMsg key)) else pure ()
            | none => pure ()
          else pure ()
          let combine_d :=
            match st.len with
            | none => xs.map (fun v => JValue.dict [(subkey, v)])
            | some _ => zipSetInto subkey st.combine_d xs
          pure { st with combine_d := combine_d, len := some xs.length }
      | _ => .error (.valueError (notListMsg subkey key))
    else
      pure { st with sub_d := upsert subkey subvalue st.sub_d }
  -- `try: new_d[key] = merge([sub_d, {new_name: combine_d}]) except ValueError: raise ...`
  match merge [.dict st'.sub_d, .dict [(.ks new_name, .list st'.combine_d)]] false false with
  | .ok m => pure { st' with new_d := upsertF key m st'.new_d }
  | .error (.valueError _) => .error (.valueError (splitDataKeyMsg new_name key))
  | .error e => .error e

/-- `split_lists(d, split_keys, new_name='split', check_length=True)` from
`edict.py`. -/
def split_lists (d : JValue) (split_keys : List Key) (new_name : String)
    (check_length : Bool) : Except PyErr JValue := do
  let flattened ← flatten2d d none
  let new_d ← flattened.foldlM
    (fun new_d p => do
      let (key, value) := p
      if split_keys.all (fun k => (lookupE k (jentries value)).isSome) then do
        let st ← (jentries value).foldlM
          (splitStep split_keys new_name check_length key)
          { combine_d := [], sub_d := [], len := none, new_d := new_d }
        pure st.new_d
      else pure (upsertF key value new_d))
    []
  unflatten new_d none

-- `split_lists` doctest: {'path_key':{'x':[1,2],'y':[3,4],'a':1}} →
-- {'path_key': {'a': 1, 'split': [{'x': 1, 'y': 3}, {'x': 2, 'y': 4}]}}
example :
    split_lists (.dict [(.ks "path_key", .dict [(.ks "x", .list [.vnum 1, .vnum 2]),
        (.ks "y", .list [.vnum 3, .vnum 4]), (.ks "a", .vnum 1)])]) [.ks "x", .ks "y"] "split" true
      = .ok (.dict [(.ks "path_key", .dict [(.ks "a", .vnum 1),
          (.ks "split", .list [.dict [(.ks "x", .vnum 1), (.ks "y", .vnum 3)],
                               .dict [(.ks "x", .vnum 2), (.ks "y", .vnum 4)]])])]) := by decide

-- `split_lists` doctest: split on a non-list key raises
example :
    split_lists (.dict [(.ks "path_key", .dict [(.ks "x", .list [.vnum 1, .vnum 2]),
        (.ks "y", .list [.vnum 3, .vnum 4]), (.ks "a", .vnum 1)])]) [.ks "x", .ks "a"] "split" true
      = .error (.valueError ("\"a\" data at the following path is not a list ("
          ++ sq ++ "path_key" ++ sq ++ ",)")) := by decide

-- `split_lists` doctest: {'path_key':{'x':[1,7],'y':[3,4,5]}} raises the
-- length-mismatch error
example :
    split_lists (.dict [(.ks "path_key", .dict [(.ks "x", .list [.vnum 1, .vnum 7]),
        (.ks "y", .list [.vnum 3, .vnum 4, .vnum 5])])]) [.ks "x", .ks "y"] "split" true
      = .error (.valueError ("lists at the following path do not have the same size ("
          ++ sq ++ "path_key" ++ sq ++ ",)")) := by decide

/-! ## `diff` (edict.py)

Both trees are flattened with `all_iters=iter_prefix`; each new-tree path is
classified (insertion / equal-skip / change), remaining old-tree paths are
deletions, and each outcome list is sorted inside `try: ... except: pass` —
Python's sort raises `TypeError` when it compares paths whose keys have
mixed types, leaving that list unsorted.  Value comparison (`!=`) is total
on the modelled JSON values, so the `uncomparable` bucket (fed by `except`
around `!=`) is empty here; `numpy.allclose` under `np_allclose=True` is an
abstract parameter returning `none` where numpy would raise. -/

/-- Python comparison of two keys: cross-type comparison raises. -/
def cmpKey : Key → Key → Except PyErr Ordering
  | .ki a, .ki b => .ok (compare a b)
  | .ks a, .ks b =>
      .ok (if charsLe a.data b.data then (if charsLe b.data a.data then .eq else .lt) else .gt)
  | _, _ => .error (.typeError "comparison not supported between str and int")

/-- Python comparison of two key tuples: elementwise, shorter-first on ties. -/
def cmpPath : Path → Path → Except PyErr Ordering
  | [], [] => .ok .eq
  | [], _ :: _ => .ok .lt
  | _ :: _, [] => .ok .gt
  | a :: as, b :: bs => do
      match ← cmpKey a b with
      | .eq => cmpPath as bs
      | o => pure o

/-- Whether every pair of entries is comparable (the condition under which
Python's sort of the pair list cannot raise; entry values are only compared
on path ties, which cannot happen between unique paths). -/
def pathsComparable {α : Type} (l : List (Path × α)) : Bool :=
  l.all (fun x => l.all (fun y =>
    match cmpPath x.1 y.1 with
    | .ok _ => true
    | .error _ => false))

/-- Stable insertion by path order. -/
def insertByPath {α : Type} (x : Path × α) : List (Path × α) → List (Path × α)
  | [] => [x]
  | y :: ys =>
      match cmpPath y.1 x.1 with
      | .ok .gt => x :: y :: ys
      | _ => y :: insertByPath x ys

/-- Stable insertion sort by path order. -/
def sortByPath {α : Type} (l : List (Path × α)) : List (Path × α) :=
  l.foldl (fun acc x => insertByPath x acc) []

/-- `try: outcome[key] = sorted(outcome[key]) except: pass` — sorted when
all entries are comparable, untouched otherwise. -/
def trySortPairs {α : Type} (l : List (Path × α)) : List (Path × α) :=
  if pathsComparable l then sortByPath l else l

/-- The outcome of `diff` (an absent output key is an empty list here). -/
structure DiffOutcome where
  insertions : List (Path × JValue)
  deletions : List (Path × JValue)
  changes : List (Path × (JValue × JValue))
  uncomparable : List (Path × (JValue × JValue))
deriving DecidableEq

/-- The `np_allclose` skip test of `diff`'s loop: `numpy.allclose` under
`try/except` (abstract; `none` for a raised comparison). -/
def diffSkip (npA : Option (JValue → JValue → Option Bool)) (v o : JValue) : Bool :=
  match npA with
  | some f => (match f v o with | some true => true | _ => false)
  | none => false

/-- The classification loop of `diff`, folding over the new tree's flat
pairs while popping matched paths from the old tree's flat mapping. -/
def diffLoop (npAllclose : Option (JValue → JValue → Option Bool)) :
    List (Path × JValue) → FlatMap →
    (List (Path × JValue) × List (Path × (JValue × JValue)) × FlatMap)
  | [], d2 => ([], [], d2)
  | (path, val) :: rest, d2 =>
      match lookupF path d2 with
      | none =>
          let (ins, chg, rem) := diffLoop npAllclose rest d2
          ((path, val) :: ins, chg, rem)
      | some other_val =>
          let d2' := removeF path d2
          if diffSkip npAllclose val other_val then diffLoop npAllclose rest d2'
          else if pyEq val other_val then diffLoop npAllclose rest d2'
          else
            let (ins, chg, rem) := diffLoop npAllclose rest d2'
            (ins, (path, (val, other_val)) :: chg, rem)

/-- `diff(new_dict, old_dict, iter_prefix='__iter__', np_allclose)` from
`edict.py`. -/
def diff (new_dict old_dict : JValue) (iter_pre : String)
    (npAllclose : Option (JValue → JValue → Option Bool)) :
    Except PyErr DiffOutcome := do
  let dct1_flat ← flatten new_dict none (some iter_pre)
  let dct2_flat ← flatten old_dict none (some iter_pre)
  let (ins, chg, dels) := diffLoop npAllclose dct1_flat dct2_flat
  pure { insertions := trySortPairs ins
         deletions := trySortPairs dels
         changes := trySortPairs chg
         uncomparable := [] }

-- `diff` doctests
example : diff (.dict [(.ks "a", .vnum 1)]) (.dict [(.ks "a", .vnum 1)]) "__iter__" none
    = .ok { insertions := [], deletions := [], changes := [], uncomparable := [] } := by decide

example :
    diff (.dict [(.ks "a", .vnum 1), (.ks "b", .vnum 2), (.ks "c", .vnum 5)])
         (.dict [(.ks "b", .vnum 3), (.ks "c", .vnum 4), (.ks "d", .vnum 6)]) "__iter__" none
    = .ok { insertions := [([.ks "a"], .vnum 1)]
            deletions := [([.ks "d"], .vnum 6)]
            changes := [([.ks "b"], (.vnum 2, .vnum 3)), ([.ks "c"], (.vnum 5, .vnum 4))]
            uncomparable := [] } := by decide

-- `diff` doctest with nested lists under all_iters
example :
    diff (.dict [(.ks "a", .list [.dict [(.ks "b", .vnum 1)], .dict [(.ks "c", .vnum 2)], .vnum 1])])
         (.dict [(.ks "a", .list [.dict [(.ks "b", .vnum 1)], .dict [(.ks "d", .vnum 2)], .vnum 2])])
         "__iter__" none
    = .ok { insertions := [([.ks "a", .ks "__iter__1", .ks "c"], .vnum 2)]
            deletions := [([.ks "a", .ks "__iter__1", .ks "d"], .vnum 2)]
            changes := [([.ks "a", .ks "__iter__2"], (.vnum 1, .vnum 2))]
            uncomparable := [] } := by decide

/-! ## The filter family (edict.py)

Each filter is flatten → keep/drop over the flat pairs → unflatten.  The
`list_of_dicts : bool` parameter becomes the prefix `'__list__'` or `None`. -/

/-- `'__list__' if list_of_dicts else None`. -/
def lodPre (b : Bool) : Option String := if b then some "__list__" else none

/-- `fnmatch(name, pattern)`: shell-style glob with `*` and `?` (character
classes are not used by this library and are not modelled). -/
def globMatch : List Char → List Char → Bool
  | [], [] => true
  | [], _ :: _ => false
  | c :: ps, s =>
      if c = Char.ofNat 42 then
        globMatch ps s || (match s with
          | [] => false
          | _ :: s' => globMatch (c :: ps) s')
      else
        match s with
        | [] => false
        | x :: ss => (c = Char.ofNat 63 || c = x) && globMatch ps ss
termination_by ps s => ps.length + s.length
decreasing_by all_goals simp_wf <;> omega

unseal globMatch

/-- `fnmatch.fnmatch(name, pat)` (POSIX case rules: identity). -/
def fnmatch (name pat : String) : Bool := globMatch pat.data name.data

example : fnmatch "axxxx" "a*" = true := by decide
example : fnmatch "abc" "a?c" = true := by decide
example : fnmatch "b" "a*" = false := by decide

/-- `filter_values(d, vals, list_of_dicts)` from `edict.py`: keep flat pairs
whose value is `in vals` (Python `in`, i.e. `==` against each member). -/
def filter_values (d : JValue) (vals : List JValue) (list_of_dicts : Bool) :
    Except PyErr JValue := do
  let flatd ← flatten d (lodPre list_of_dicts) none
  let flatd := flatd.filter (fun p : Path × JValue => vals.any (fun w => pyEq p.2 w))
  unflatten flatd (lodPre list_of_dicts)

example :
    filter_values (.dict [(.ki 1, .dict [(.ks "a", .vstr "A")]), (.ki 2, .dict [(.ks "b", .vstr "B")]),
        (.ki 4, .dict [(.ki 5, .dict [(.ki 6, .vstr "a")])])]) [.vstr "a"] false
      = .ok (.dict [(.ki 4, .dict [(.ki 5, .dict [(.ki 6, .vstr "a")])])]) := by decide

/-- `is_in(a, bs)` of `filter_keys`: some key of the path equals the filter
key, or (wildcard mode) glob-matches it; comparison/`fnmatch` errors count
as no match. -/
def filterKeysIsIn (use_wildcards : Bool) (a : JValue) (bs : Path) : Bool :=
  if use_wildcards then
    bs.any (fun b => pyEq a (keyToVal b) ||
      (match a, b with
       | .vstr pat, .ks s => fnmatch s pat
       | _, _ => false))
  else
    bs.any (fun b => pyEq a (keyToVal b))

/-- `filter_keys(d, keys, use_wildcards, list_of_dicts)` from `edict.py`. -/
def filter_keys (d : JValue) (keys : List JValue) (use_wildcards : Bool)
    (list_of_dicts : Bool) : Except PyErr JValue := do
  let flatd ← flatten d (lodPre list_of_dicts) none
  let flatd := flatd.filter (fun p => keys.any (fun k => filterKeysIsIn use_wildcards k p.1))
  unflatten flatd (lodPre list_of_dicts)

-- `filter_keys` doctests
example :
    filter_keys (.dict [(.ki 1, .dict [(.ks "a", .vstr "A")]), (.ki 2, .dict [(.ks "b", .vstr "B")]),
        (.ki 4, .dict [(.ki 5, .dict [(.ki 6, .vstr "a"), (.ki 7, .vstr "b")])])])
      [.vstr "a", .vnum 6] false false
      = .ok (.dict [(.ki 1, .dict [(.ks "a", .vstr "A")]),
                    (.ki 4, .dict [(.ki 5, .dict [(.ki 6, .vstr "a")])])]) := by decide

example :
    filter_keys (.dict [(.ki 1, .dict [(.ks "axxxx", .vstr "A")]), (.ki 2, .dict [(.ks "b", .vstr "B")])])
      [.vstr "a*"] true false
      = .ok (.dict [(.ki 1, .dict [(.ks "axxxx", .vstr "A")])]) := by decide

/-- Value-keyed dict lookup (`vmap[k]` with `==` key matching). -/
def lookupVK (kv : JValue) : List (JValue × JValue) → Option JValue
  | [] => none
  | (k, v) :: rest => if pyEq k kv then some v else lookupVK kv rest

/-- `dict(vals)` on a pair list with value keys. -/
def pyDictPairs (vals : List (JValue × JValue)) : List (JValue × JValue) :=
  vals.foldl (fun acc p => upsertVK acc p.1 p.2) []
where
  upsertVK (l : List (JValue × JValue)) (k v : JValue) : List (JValue × JValue) :=
    match l with
    | [] => [(k, v)]
    | (k', v') :: rest => if pyEq k' k then (k, v) :: rest else (k', v') :: upsertVK rest k v

/-- `vmap[k] > v - error` on rationals, written by cross-multiplication so
the kernel can evaluate it (`Rat` subtraction does not reduce); proved equal
to the real subtraction-and-compare below. -/
def ratGtSub (qm qv e : ℚ) : Bool :=
  decide ((qv.num * e.den - e.num * qv.den) * qm.den < qm.num * (qv.den * e.den))

/-- `vmap[k] < v + error` on rationals, by cross-multiplication. -/
def ratLtAdd (qm qv e : ℚ) : Bool :=
  decide (qm.num * (qv.den * e.den) < (qv.num * e.den + e.num * qv.den) * qm.den)

theorem ratGtSub_iff (qm qv e : ℚ) : ratGtSub qm qv e = true ↔ qv - e < qm := by
  rw [ratGtSub, decide_eq_true_iff]
  have e1 := Rat.mul_den_eq_num qv
  have e2 := Rat.mul_den_eq_num e
  have e3 := Rat.mul_den_eq_num qm
  have hpos : (0:ℚ) < (qv.den : ℚ) * (e.den : ℚ) * (qm.den : ℚ) := by positivity
  rw [← mul_lt_mul_right hpos, ← @Int.cast_lt ℚ]
  push_cast
  rw [← e1, ← e2, ← e3]
  constructor <;> intro h <;> nlinarith [h]

theorem ratLtAdd_iff (qm qv e : ℚ) : ratLtAdd qm qv e = true ↔ qm < qv + e := by
  rw [ratLtAdd, decide_eq_true_iff]
  have e1 := Rat.mul_den_eq_num qv
  have e2 := Rat.mul_den_eq_num e
  have e3 := Rat.mul_den_eq_num qm
  have hpos : (0:ℚ) < (qv.den : ℚ) * (e.den : ℚ) * (qm.den : ℚ) := by positivity
  rw [← mul_lt_mul_right hpos, ← @Int.cast_lt ℚ]
  push_cast
  rw [← e1, ← e2, ← e3]
  constructor <;> intro h <;> nlinarith [h]

/-- `is_in(k, v, vmap)` of `filter_keyvals`: the terminal key must be in the
filter map, and the value must equal the filter value or (with an error
tolerance) the filter value must lie strictly inside `(v - error, v + error)`;
any raising comparison (non-numeric operands) means no match. -/
def kvIsIn (err : Option ℚ) (k : Key) (v : JValue) (vmap : List (JValue × JValue)) : Bool :=
  match lookupVK (keyToVal k) vmap with
  | none => false
  | some mv =>
      if pyEq v mv then true
      else
        match err with
        | none => false
        | some e =>
            match v, mv with
            | .vnum qv, .vnum qm => ratGtSub qm qv e && ratLtAdd qm qv e
            | _, _ => false

/-- `filter_keyvals(d, vals, error, keep_siblings, list_of_dicts)` from
`edict.py`. -/
def filter_keyvals (d : JValue) (vals : List (JValue × JValue)) (err : Option ℚ)
    (keep_siblings : Bool) (list_of_dicts : Bool) : Except PyErr JValue := do
  let vmap := pyDictPairs vals
  let flatd ← flatten d (lodPre list_of_dicts) none
  let kept := fun (p : Path × JValue) =>
    match p.1.getLast? with
    | some k => kvIsIn err k p.2 vmap
    | none => false
  let newd :=
    if !keep_siblings then flatd.filter kept
    else
      let prune := (flatd.filter kept).map (fun p => p.1.dropLast)
      flatd.filter (fun p => prune.any (fun q => p.1.take q.length = q))
  unflatten newd (lodPre list_of_dicts)

-- `filter_keyvals` doctests
example :
    filter_keyvals (.dict [(.ki 1, .dict [(.ki 6, .vstr "a")]), (.ki 3, .dict [(.ki 7, .vstr "a")]),
        (.ki 2, .dict [(.ki 6, .vstr "b")]), (.ki 4, .dict [(.ki 5, .dict [(.ki 6, .vstr "a")])])])
      [(.vnum 6, .vstr "a")] none false false
      = .ok (.dict [(.ki 1, .dict [(.ki 6, .vstr "a")]),
                    (.ki 4, .dict [(.ki 5, .dict [(.ki 6, .vstr "a")])])]) := by decide

example :
    filter_keyvals (.dict [(.ks "a", .dict [(.ks "b", .vnum 1), (.ks "c", .vnum 2)]), (.ks "d", .vnum 3)])
      [(.vstr "b", .vnum 1)] none false false
      = .ok (.dict [(.ks "a", .dict [(.ks "b", .vnum 1)])]) := by decide

example :
    filter_keyvals (.dict [(.ks "a", .dict [(.ks "b", .vnum 1), (.ks "c", .vnum 2)]), (.ks "d", .vnum 3)])
      [(.vstr "b", .vnum 1)] none true false
      = .ok (.dict [(.ks "a", .dict [(.ks "b", .vnum 1), (.ks "c", .vnum 2)])]) := by decide

-- tolerance semantics (integer-valued instances of the 0.98/0.01 doctests):
-- a filter value differing by exactly the tolerance is dropped, one strictly
-- inside the open interval is kept
example :
    filter_keyvals (.dict [(.ks "a", .vnum 10)]) [(.vstr "a", .vnum 8)] (some 2) false false
      = .ok (.dict []) := by decide

example :
    filter_keyvals (.dict [(.ks "a", .vnum 10)]) [(.vstr "a", .vnum 8)] (some 3) false false
      = .ok (.dict [(.ks "a", .vnum 10)]) := by decide

/-- `filter_paths(d, paths, list_of_dicts)` from `edict.py`: keep flat pairs
whose key set contains all keys of some spec.  (The source first computes
`filter_keys(d, all_keys)` and immediately overwrites it with a fresh
`flatten(d)`; the call is kept for its error effects.) -/
def filter_paths (d : JValue) (paths : List Path) (list_of_dicts : Bool) :
    Except PyErr JValue := do
  let all_keys := paths.flatten.map keyToVal
  let _ ← filter_keys d all_keys false list_of_dicts
  let new_d ← flatten d (lodPre list_of_dicts) none
  let new_d := new_d.filter (fun p => paths.any (fun q => q.all (fun k => k ∈ p.1)))
  unflatten new_d (lodPre list_of_dicts)

-- `filter_paths` doctests
example :
    filter_paths (.dict [(.ks "a", .dict [(.ks "b", .vnum 1), (.ks "c", .dict [(.ks "d", .vnum 2)])]),
        (.ks "e", .dict [(.ks "c", .vnum 3)])]) [[.ks "c", .ks "d"]] false
      = .ok (.dict [(.ks "a", .dict [(.ks "c", .dict [(.ks "d", .vnum 2)])])]) := by decide

example :
    filter_paths (.dict [(.ks "a", .list [.dict [(.ks "b", .vnum 1), (.ks "c", .vnum 3)],
        .dict [(.ks "b", .vnum 1), (.ks "c", .vnum 2)]])]) [[.ks "b"]] false
      = .ok (.dict []) := by decide

example :
    filter_paths (.dict [(.ks "a", .list [.dict [(.ks "b", .vnum 1), (.ks "c", .vnum 3)],
        .dict [(.ks "b", .vnum 1), (.ks "c", .vnum 2)]])]) [[.ks "c"]] true
      = .ok (.dict [(.ks "a", .list [.dict [(.ks "c", .vnum 3)], .dict [(.ks "c", .vnum 2)]])]) := by
  decide

/-- `is_in(a, bs)` of `remove_keys`: path segment `a` equals or (wildcard
mode) glob-matches some member of `keys`; errors count as no match. -/
def removeKeysIsIn (use_wildcards : Bool) (a : Key) (bs : List JValue) : Bool :=
  if use_wildcards then
    bs.any (fun b => pyEq (keyToVal a) b ||
      (match a, b with
       | .ks s, .vstr pat => fnmatch s pat
       | _, _ => false))
  else
    bs.any (fun b => pyEq (keyToVal a) b)

/-- `remove_keys(d, keys, use_wildcards=True, list_of_dicts)` from
`edict.py`: drop matching segments from every flat path, skip emptied paths
and paths whose new last segment is a synthetic list key, and rebuild —
later pairs overwrite earlier ones when truncated paths collide. -/
def remove_keys (d : JValue) (keys : List JValue) (use_wildcards : Bool)
    (list_of_dicts : Bool) : Except PyErr JValue :=
  if !is_dict_like d then .ok d
  else do
    let flatd ← flatten d (lodPre list_of_dicts) none
    let new_dic := flatd.foldl
      (fun new_dic p =>
        let new_key := p.1.filter (fun i => !removeKeysIsIn use_wildcards i keys)
        if new_key = [] then new_dic
        else if (match lodPre list_of_dicts, new_key.getLast? with
                 | some pre, some (.ks s) => pre.data.isPrefixOf s.data
                 | _, _ => false) then new_dic
        else upsertF new_key p.2 new_dic)
      []
    unflatten new_dic (lodPre list_of_dicts)

-- `remove_keys` doctests
example :
    remove_keys (.dict [(.ki 1, .dict [(.ks "a", .vstr "A")]), (.ks "a", .dict [(.ks "b", .vstr "B")])])
      [.vstr "a"] true false
      = .ok (.dict [(.ki 1, .vstr "A"), (.ks "b", .vstr "B")]) := by decide

example : remove_keys (.dict [(.ks "abc", .vnum 1)]) [.vstr "a*"] false false
    = .ok (.dict [(.ks "abc", .vnum 1)]) := by decide

example : remove_keys (.dict [(.ks "abc", .vnum 1)]) [.vstr "a*"] true false
    = .ok (.dict []) := by decide

/-- `remove_keyvals(d, keyvals, list_of_dicts)` from `edict.py`: prune every
top-level branch containing a `(terminal key, value)` pair in `keyvals`. -/
def remove_keyvals (d : JValue) (keyvals : List (JValue × JValue)) (list_of_dicts : Bool) :
    Except PyErr JValue :=
  if !is_dict_like d then .ok d
  else do
    let flatd ← flatten d (lodPre list_of_dicts) none
    let prune := (flatd.filter (fun p =>
        match p.1.getLast? with
        | some lk => keyvals.any (fun q => pyEq (keyToVal lk) q.1 && pyEq p.2 q.2)
        | none => false)).filterMap (fun p => p.1.head?)
    let flatd := flatd.filter (fun p =>
        match p.1.head? with
        | some h => !(prune.any (fun f => f = h))
        | none => true)
    unflatten flatd (lodPre list_of_dicts)

-- `remove_keyvals` doctests
example :
    remove_keyvals (.dict [(.ki 1, .dict [(.ks "b", .vstr "A")]),
        (.ks "a", .dict [(.ks "b", .vstr "B"), (.ks "c", .vstr "D")]),
        (.ks "b", .dict [(.ks "a", .vstr "B")])]) [(.vstr "b", .vstr "B")] false
      = .ok (.dict [(.ki 1, .dict [(.ks "b", .vstr "A")]), (.ks "b", .dict [(.ks "a", .vstr "B")])]) := by
  decide

example :
    remove_keyvals (.dict [(.ks "a", .list [.dict [(.ks "b", .vnum 1), (.ks "c", .vnum 1)],
        .dict [(.ks "b", .vnum 1), (.ks "c", .vnum 2)]])]) [(.vstr "b", .vnum 1)] false
      = .ok (.dict [(.ks "a", .list [.dict [(.ks "b", .vnum 1), (.ks "c", .vnum 1)],
          .dict [(.ks "b", .vnum 1), (.ks "c", .vnum 2)]])]) := by decide

example :
    remove_keyvals (.dict [(.ks "a", .list [.dict [(.ks "b", .vnum 1), (.ks "c", .vnum 1)],
        .dict [(.ks "b", .vnum 1), (.ks "c", .vnum 2)]])]) [(.vstr "b", .vnum 1)] true
      = .ok (.dict []) := by decide

/-- `remove_paths(d, keys, list_of_dicts)` from `edict.py`: drop every flat
path containing any of `keys`. -/
def remove_paths (d : JValue) (keys : List JValue) (list_of_dicts : Bool) :
    Except PyErr JValue := do
  let flatd ← flatten d (lodPre list_of_dicts) none
  let flatd := flatd.filter (fun p => !(keys.any (fun k => p.1.any (fun i => pyEq k (keyToVal i)))))
  unflatten flatd (lodPre list_of_dicts)

-- `remove_paths` doctests
example :
    remove_paths (.dict [(.ki 1, .dict [(.ks "a", .vstr "A")]), (.ki 2, .dict [(.ks "b", .vstr "B")]),
        (.ki 4, .dict [(.ki 5, .dict [(.ki 6, .vstr "a"), (.ki 7, .vstr "b")])])])
      [.vnum 6, .vstr "a"] false
      = .ok (.dict [(.ki 2, .dict [(.ks "b", .vstr "B")]),
                    (.ki 4, .dict [(.ki 5, .dict [(.ki 7, .vstr "b")])])]) := by decide

example :
    remove_paths (.dict [(.ks "a", .list [.dict [(.ks "b", .vnum 1), (.ks "c", .dict [(.ks "b", .vnum 3)])],
        .dict [(.ks "b", .vnum 1), (.ks "c", .vnum 2)]])]) [.vstr "b"] true
      = .ok (.dict [(.ks "a", .list [.dict [(.ks "c", .vnum 2)]])]) := by decide

/-! ## Claim C6 — flatten root acceptance -/

/-- The `NotFlattenable` `TypeError` of `flatten`. -/
def notFlattenableErr (d : JValue) : PyErr := .typeError ("d is not dict like: " ++ pyStr d)

/-- C6: `flatten` raises the NotFlattenable `TypeError` exactly when its root
is not Mapping-like and no sequence-expansion mode covers it (`all_iters`
covers any sequence; `list_of_dicts` covers non-empty sequences of
Mapping-likes); a sequence root under an applicable mode is first wrapped as
the synthetic prefix-indexed mapping and then flattened successfully; and an
empty mapping flattens to the empty flat mapping. -/
theorem flatten_root_acceptance :
    (∀ (d : JValue) (lod ai : Option String),
        flatten d lod ai = .error (notFlattenableErr d) ↔
          (is_dict_like d = false ∧
            ¬(is_iter_non_string d = true ∧ ai ≠ none) ∧
            ¬(is_list_of_dict_like d = true ∧ lod ≠ none)))
    ∧ (∀ (xs : List JValue) (lod : Option String) (pre : String),
        flatten (.list xs) lod (some pre)
          = .ok (pyDict (flattenDict lod (some pre) (wrapSeq pre xs))))
    ∧ (∀ (xs : List JValue) (pre : String), is_list_of_dict_like (.list xs) = true →
        flatten (.list xs) (some pre) none
          = .ok (pyDict (flattenDict (some pre) none (wrapSeq pre xs))))
    ∧ (∀ (lod ai : Option String), flatten (.dict []) lod ai = .ok []) := by
  refine ⟨?_, ?_, ?_, ?_⟩
  · intro d lod ai
    cases d <;> cases ai <;>
      simp [flatten, notFlattenableErr, is_dict_like, is_iter_non_string, is_list_of_dict_like]
    all_goals cases lod <;>
      simp [flatten, notFlattenableErr, is_list_of_dict_like]
    all_goals try split
    all_goals simp_all
  · intro xs lod pre
    cases lod <;> rfl
  · intro xs pre h
    simp [is_list_of_dict_like] at h
    simp [flatten, h.1, h.2]
    exact h.2
  · intro lod ai
    rfl

/-- C6 witness: the Sequence-root wrap at a concrete input — flattening the
list `[{'a': 1}]` under `list_of_dicts='__list__'` succeeds with the wrapped
root, while flattening the scalar `5` with no mode raises NotFlattenable. -/
theorem flatten_root_acceptance_witness :
    flatten (.list [.dict [(.ks "a", .vnum 1)]]) (some "__list__") none
        = .ok [([.ks "__list__0", .ks "a"], .vnum 1)]
      ∧ flatten (.vnum 5) none none = .error (notFlattenableErr (.vnum 5)) := by
  constructor
  · rw [flatten_root_acceptance.2.2.1 [.dict [(.ks "a", .vnum 1)]] "__list__" (by decide)]
    decide
  · rw [(flatten_root_acceptance.1 (.vnum 5) none none).mpr (by decide)]

/-! ## Claim C10 — filter_keyvals tolerance interval is open -/

/-- C10: with a single filter pair `(k, val)` and tolerance `e`, a flattened
leaf with terminal key `k` and value `v` is kept iff `v == val` or `val`
lies strictly between `v - e` and `v + e`; a filter value differing from `v`
by exactly a non-zero `e` is not kept (and a pair whose comparison would
raise — any non-numeric, non-equal combination — never matches, which the
iff forces since neither disjunct can hold); and `filter_keyvals` (without
sibling keeping) keeps exactly the flat pairs selected by this predicate. -/
theorem filter_keyvals_tolerance :
    (∀ (k : Key) (v val : JValue) (e : ℚ),
        kvIsIn (some e) k v (pyDictPairs [(keyToVal k, val)]) = true ↔
          (pyEq v val = true ∨
            ∃ qv qval, v = .vnum qv ∧ val = .vnum qval ∧ qv - e < qval ∧ qval < qv + e))
    ∧ (∀ (k : Key) (qv e : ℚ), e ≠ 0 →
        kvIsIn (some e) k (.vnum qv) (pyDictPairs [(keyToVal k, .vnum (qv - e))]) = false
          ∧ kvIsIn (some e) k (.vnum qv) (pyDictPairs [(keyToVal k, .vnum (qv + e))]) = false)
    ∧ (∀ (d : JValue) (vals : List (JValue × JValue)) (e : ℚ) (b : Bool) (f : FlatMap),
        flatten d (lodPre b) none = .ok f →
        filter_keyvals d vals (some e) false b
          = unflatten (f.filter (fun p =>
              match p.1.getLast? with
              | some k => kvIsIn (some e) k p.2 (pyDictPairs vals)
              | none => false)) (lodPre b)) := by
  have hkv : ∀ k : Key, pyEq (keyToVal k) (keyToVal k) = true := by
    intro k; cases k <;> simp [keyToVal, pyEq]
  have hlook : ∀ (k : Key) (val : JValue),
      lookupVK (keyToVal k) (pyDictPairs [(keyToVal k, val)]) = some val := by
    intro k val
    simp [pyDictPairs, pyDictPairs.upsertVK, lookupVK, hkv k]
  refine ⟨?_, ?_, ?_⟩
  · intro k v val e
    rw [kvIsIn, hlook k val]
    by_cases hpe : pyEq v val = true
    · simp [hpe]
    · simp only [hpe, if_false, Bool.if_false_left]
      simp only [Bool.not_eq_true] at hpe
      cases v <;> cases val <;>
        simp_all [pyEq, ratGtSub_iff, ratLtAdd_iff]
  · intro k qv e he
    constructor
    · rw [kvIsIn, hlook k _]
      have hne : pyEq (.vnum qv) (.vnum (qv - e)) = false := by
        simp [pyEq]
        intro h
        exact absurd (by linarith [h.symm ▸ (rfl : qv - e = qv - e)] : e = 0) he
      simp [hne, ratGtSub_iff]
    · rw [kvIsIn, hlook k _]
      have hne : pyEq (.vnum qv) (.vnum (qv + e)) = false := by
        simp [pyEq]
        intro h
        exact absurd (by linarith [h.symm ▸ (rfl : qv + e = qv + e)] : e = 0) he
      have hlt : ratLtAdd (qv + e) qv e = false := by
        rw [Bool.eq_false_iff, Ne, ratLtAdd_iff]
        exact fun h => lt_irrefl _ h
      simp [hne, hlt]
  · intro d vals e b f hf
    simp [filter_keyvals, hf, bind, Except.bind]

/-- C10 witness: with filter pair `('a', 8)` on the leaf `10`, tolerance `2`
(exactly the difference) does not keep the leaf and the whole filtered tree
is empty; tolerance `3` keeps it. -/
theorem filter_keyvals_tolerance_witness :
    kvIsIn (some 2) (.ks "a") (.vnum 10)
        (pyDictPairs [(keyToVal (.ks "a"), .vnum (10 - 2))]) = false
      ∧ (kvIsIn (some 3) (.ks "a") (.vnum 10)
          (pyDictPairs [(keyToVal (.ks "a"), .vnum 8)]) = true)
      ∧ filter_keyvals (.dict [(.ks "a", .vnum 10)]) [(.vstr "a", .vnum 8)] (some 3) false false
          = unflatten ([([Key.ks "a"], JValue.vnum 10)].filter (fun p =>
              match p.1.getLast? with
              | some k => kvIsIn (some 3) k p.2 (pyDictPairs [(.vstr "a", .vnum 8)])
              | none => false)) (lodPre false) := by
  refine ⟨(filter_keyvals_tolerance.2.1 (.ks "a") 10 2 (by norm_num)).1, ?_, ?_⟩
  · rw [filter_keyvals_tolerance.1 (.ks "a") (.vnum 10) (.vnum 8) 3]
    right
    exact ⟨10, 8, rfl, rfl, by norm_num, by norm_num⟩
  · exact filter_keyvals_tolerance.2.2 _ _ 3 false _ (by decide)

/-! ## Infrastructure: key-value bridges and well-formed (Python-dict) trees -/

/-- Walk a path through dict nodes only (the notion of "value at a path"
used by the conflict claims). -/
def getPath : JValue → Path → Option JValue
  | v, [] => some v
  | .dict es, k :: rest =>
      (match lookupE k es with
       | some w => getPath w rest
       | none => none)
  | _, _ :: _ => none

/-- Key values compare equal under Python `==` exactly when the keys are
equal (integer keys embed injectively into the numeric tower). -/
theorem keyToVal_pyEq_iff (k1 k2 : Key) : pyEq (keyToVal k1) (keyToVal k2) = true ↔ k1 = k2 := by
  cases k1 <;> cases k2 <;> simp [keyToVal, pyEq, Int.cast_inj]

theorem hashable_keyToVal (k : Key) : hashable (keyToVal k) = true := by
  cases k <;> simp [keyToVal, hashable]

theorem valToKey_keyToVal (k : Key) : valToKey (keyToVal k) = some k := by
  cases k <;> simp [valToKey, keyToVal]

/-- `k in a` on a dict through the value-key machinery is `lookupE`. -/
theorem pyContainsV_dict_key (es : Entries) (k : Key) :
    pyContainsV (.dict es) (keyToVal k) = .ok (lookupE k es).isSome := by
  rw [pyContainsV]
  rw [if_pos (by simp [hashable_keyToVal])]
  congr 1
  induction es with
  | nil => simp [lookupE]
  | cons p rest ih =>
      obtain ⟨k', v⟩ := p
      by_cases h : k' = k
      · subst h
        simp [lookupE, keyToVal_pyEq_iff]
      · simp [lookupE, h, ih, List.any_cons]
        intro hc
        exact absurd ((keyToVal_pyEq_iff k' k).mp hc) h

/-- `a[k]` on a dict through the value-key machinery is `lookupE`. -/
theorem pyGetItemV_dict_key (es : Entries) (k : Key) :
    pyGetItemV (.dict es) (keyToVal k) =
      (match lookupE k es with
       | some v => .ok v
       | none => .error (.keyError (pyRepr (keyToVal k)))) := by
  rw [pyGetItemV]
  rw [if_pos (by simp [hashable_keyToVal])]
  congr 1
  induction es with
  | nil => simp [lookupE]
  | cons p rest ih =>
      obtain ⟨k', v⟩ := p
      by_cases h : k' = k
      · subst h
        have hself : pyEq (keyToVal k') (keyToVal k') = true := (keyToVal_pyEq_iff k' k').mpr rfl
        simp [lookupE, List.find?, hself]
      · have hne : pyEq (keyToVal k') (keyToVal k) = false := by
          rw [Bool.eq_false_iff, Ne, keyToVal_pyEq_iff]
          exact h
        simp [lookupE, h, List.find?, hne, ih]

/-- `a[k] = v` on a dict through the value-key machinery is `upsert`. -/
theorem pySetItemV_dict_key (es : Entries) (k : Key) (v : JValue) :
    pySetItemV (.dict es) (keyToVal k) v = .ok (.dict (upsert k v es)) := by
  rw [pySetItemV]
  rw [if_pos (by simp [hashable_keyToVal])]
  rw [valToKey_keyToVal]

/-- Nodup test on a dict's keys. -/
def nodupKeysE : Entries → Bool
  | [] => true
  | (k, _) :: rest => !(decide (k ∈ rest.map Prod.fst)) && nodupKeysE rest

mutual

/-- Well-formed value: every dict reachable through dict entries and list
elements has pairwise-distinct keys (the CPython dict invariant). -/
def wfKeys : JValue → Bool
  | .dict es => nodupKeysE es && wfEntries es
  | .list xs => wfList xs
  | _ => true

/-- `wfKeys` over a dict's values. -/
def wfEntries : Entries → Bool
  | [] => true
  | (_, v) :: rest => wfKeys v && wfEntries rest

/-- `wfKeys` over a list's elements. -/
def wfList : List JValue → Bool
  | [] => true
  | x :: rest => wfKeys x && wfList rest

end

theorem wfEntries_lookup {es : Entries} {k : Key} {v : JValue}
    (hwf : wfEntries es = true) (h : lookupE k es = some v) : wfKeys v = true := by
  induction es with
  | nil => simp [lookupE] at h
  | cons p rest ih =>
      obtain ⟨k', v'⟩ := p
      rw [wfEntries, Bool.and_eq_true] at hwf
      rw [lookupE] at h
      by_cases hk : k' = k
      · simp [hk] at h
        exact h ▸ hwf.1
      · simp [hk] at h
        exact ih hwf.2 h

theorem upsert_lookup_same (k : Key) (v : JValue) (es : Entries) :
    lookupE k (upsert k v es) = some v := by
  induction es with
  | nil => simp [upsert, lookupE]
  | cons p rest ih =>
      obtain ⟨k', v'⟩ := p
      by_cases h : k' = k
      · simp [upsert, h, lookupE]
      · simp [upsert, h, lookupE, ih]

theorem upsert_lookup_other {k k' : Key} (hne : k' ≠ k) (v : JValue) (es : Entries) :
    lookupE k' (upsert k v es) = lookupE k' es := by
  have hne' : k ≠ k' := fun h => hne h.symm
  induction es with
  | nil => simp [upsert, lookupE, hne']
  | cons p rest ih =>
      obtain ⟨k'', v''⟩ := p
      by_cases h : k'' = k
      · subst h
        simp [upsert, lookupE, hne']
      · by_cases h2 : k'' = k'
        · subst h2
          simp [upsert, h, lookupE, hne]
        · simp [upsert, h, lookupE, h2, ih]

/-! ## Claim C2 — merge conflict detection -/

/-- One step of `single_merge`'s loop over a dict `b`, with a dict
accumulator, written through the association-list operations. -/
theorem mergeEntries_cons_dict (ap : Bool) (ep : List String) (as : Entries)
    (bk : Key) (bv : JValue) (rest : Entries) :
    mergeEntries false ap ep (.dict as) ((bk, bv) :: rest) =
      (match lookupE bk as with
       | some av =>
          if is_dict_like av && is_dict_like bv then
            (match single_merge false ap (ep ++ [pyStr (keyToVal bk)]) av bv with
             | .ok m => mergeEntries false ap ep (.dict (upsert bk m as)) rest
             | .error e => .error e)
          else if is_iter_non_string av && is_iter_non_string bv && ap then
            mergeEntries false ap ep (.dict (upsert bk (.list (jitems av ++ jitems bv)) as)) rest
          else if pyEq av bv then mergeEntries false ap ep (.dict as) rest
          else .error (.valueError (mergeConflictMsg ep (keyToVal bk) av bv))
       | none => mergeEntries false ap ep (.dict (upsert bk bv as)) rest) := by
  rw [mergeEntries]
  cases hl : lookupE bk as with
  | some av =>
      simp only [pyContainsV_dict_key, hl, Option.isSome_some, bind, Except.bind, if_true,
        pyGetItemV_dict_key, pure, Except.pure]
      by_cases h1 : is_dict_like av && is_dict_like bv
      · simp only [h1, if_true]
        cases single_merge false ap (ep ++ [pyStr (keyToVal bk)]) av bv with
        | ok m => simp [pySetItemV_dict_key]
        | error e => simp
      · simp only [h1, if_false, Bool.false_eq_true]
        by_cases h2 : is_iter_non_string av && is_iter_non_string bv && ap
        all_goals try (simp [h2, pySetItemV_dict_key]; done)
        all_goals simp only [h2, if_false, Bool.false_eq_true]
        all_goals by_cases h3 : pyEq av bv <;> simp [h3]
  | none =>
      simp [pyContainsV_dict_key, hl, bind, Except.bind, pySetItemV_dict_key, pure, Except.pure]

/-- The dotted rendering of a path's keys (as `str(key)` per segment). -/
def mergePathStrs (q : Path) : List String := q.map (fun k => pyStr (keyToVal k))

theorem pyEqEntries_lookup {xs ys : Entries} {k : Key} {v : JValue}
    (h : pyEqEntries xs ys = true) (hl : lookupE k xs = some v) :
    ∃ w, lookupE k ys = some w ∧ pyEq v w = true := by
  induction xs with
  | nil => simp [lookupE] at hl
  | cons p rest ih =>
      obtain ⟨k', v'⟩ := p
      rw [pyEqEntries, Bool.and_eq_true] at h
      rw [lookupE] at hl
      by_cases hk : k' = k
      · subst hk
        simp at hl
        subst hl
        cases hw : lookupE k' ys with
        | some w =>
            refine ⟨w, rfl, ?_⟩
            have := h.1
            rw [hw] at this
            exact this
        | none =>
            have := h.1
            rw [hw] at this
            simp at this
      · simp [hk] at hl
        exact ih h.2 hl

/-- Values reached along the same dict path inside `pyEq`-equal values are
`pyEq`-equal. -/
theorem pyEq_getPath : ∀ (p : Path) (x y u w : JValue),
    pyEq x y = true → getPath x p = some u → getPath y p = some w → pyEq u w = true
  | [], x, y, u, w, hxy, hu, hw => by
      simp [getPath] at hu hw
      exact hu ▸ hw ▸ hxy
  | k :: p', x, y, u, w, hxy, hu, hw => by
      cases x with
      | dict xs =>
          cases y with
          | dict ys =>
              rw [pyEq, Bool.and_eq_true] at hxy
              rw [getPath] at hu hw
              cases hlx : lookupE k xs with
              | some x' =>
                  rw [hlx] at hu
                  cases hly : lookupE k ys with
                  | some y' =>
                      rw [hly] at hw
                      obtain ⟨w', hw', hxy'⟩ := pyEqEntries_lookup hxy.2 hlx
                      rw [hw'] at hly
                      cases hly
                      exact pyEq_getPath p' x' y' u w hxy' hu hw
                  | none => rw [hly] at hw; simp at hw
              | none => rw [hlx] at hu; simp at hu
          | vnum _ => simp [pyEq] at hxy
          | vstr _ => simp [pyEq] at hxy
          | list _ => simp [pyEq] at hxy
      | vnum _ => simp [getPath] at hu
      | vstr _ => simp [getPath] at hu
      | list _ => simp [getPath] at hu

theorem lookupE_some_mem_keys {k : Key} {es : Entries} {v : JValue}
    (h : lookupE k es = some v) : k ∈ es.map Prod.fst := by
  induction es with
  | nil => simp [lookupE] at h
  | cons p rest ih =>
      obtain ⟨k', v'⟩ := p
      rw [lookupE] at h
      by_cases hk : k' = k
      · simp [hk]
      · simp [hk] at h
        simp [ih h]

theorem getPath_cons_dict (as : Entries) (k : Key) (p : Path) :
    getPath (.dict as) (k :: p) =
      (match lookupE k as with
       | some w => getPath w p
       | none => none) := rfl

/-- Soundness of `merge` errors: when `single_merge` folds a well-formed
dict `b` into a dict accumulator with `overwrite=False` and fails, the
error is the conflict `ValueError` for some real conflicting path of the
two dicts. -/
theorem mergeEntries_error_conflict :
    ∀ (n : ℕ) (bs : Entries), sizeOf bs ≤ n →
    ∀ (as : Entries) (ap : Bool) (ep : List String) (e : PyErr),
      wfKeys (.dict bs) = true →
      mergeEntries false ap ep (.dict as) bs = .error e →
      ∃ (anc : Path) (last : Key) (w1 w2 : JValue),
        e = .valueError (mergeConflictMsg (ep ++ mergePathStrs anc) (keyToVal last) w1 w2)
        ∧ getPath (.dict as) (anc ++ [last]) = some w1
        ∧ getPath (.dict bs) (anc ++ [last]) = some w2
        ∧ pyEq w1 w2 = false
        ∧ ¬(is_dict_like w1 = true ∧ is_dict_like w2 = true)
        ∧ ¬(is_iter_non_string w1 = true ∧ is_iter_non_string w2 = true ∧ ap = true) := by
  intro n
  induction n with
  | zero => intro bs hbs; cases bs with
      | nil => intro as ap ep e _ h; rw [mergeEntries] at h; cases h
      | cons p rest => intro as ap ep e _ _; simp at hbs
  | succ n ih =>
      intro bs hbs as ap ep e hwf hrun
      cases bs with
      | nil => rw [mergeEntries] at hrun; cases hrun
      | cons hd rest =>
          obtain ⟨bk, bv⟩ := hd
          have hsz : sizeOf rest ≤ n := by simp at hbs; omega
          rw [wfKeys, Bool.and_eq_true] at hwf
          obtain ⟨hnd, hwfe⟩ := hwf
          rw [nodupKeysE, Bool.and_eq_true] at hnd
          rw [wfEntries, Bool.and_eq_true] at hwfe
          have hbk_notin : bk ∉ rest.map Prod.fst := by
            have := hnd.1
            simpa using this
          have hwf_rest : wfKeys (.dict rest) = true := by
            rw [wfKeys, Bool.and_eq_true]
            exact ⟨hnd.2, hwfe.2⟩
          -- transfer a conflict found in the tail back to the full dicts
          have transfer :
              ∀ (as' : Entries), (∀ k', k' ∈ rest.map Prod.fst → lookupE k' as' = lookupE k' as) →
              mergeEntries false ap ep (.dict as') rest = .error e →
              ∃ anc last w1 w2,
                e = .valueError (mergeConflictMsg (ep ++ mergePathStrs anc) (keyToVal last) w1 w2)
                ∧ getPath (.dict as) (anc ++ [last]) = some w1
                ∧ getPath (.dict ((bk, bv) :: rest)) (anc ++ [last]) = some w2
                ∧ pyEq w1 w2 = false
                ∧ ¬(is_dict_like w1 = true ∧ is_dict_like w2 = true)
                ∧ ¬(is_iter_non_string w1 = true ∧ is_iter_non_string w2 = true ∧ ap = true) := by
            intro as' hsame hrun'
            obtain ⟨anc, last, w1, w2, he, h1, h2, h3, h4, h5⟩ :=
              ih rest hsz as' ap ep e hwf_rest hrun'
            obtain ⟨k0, p0, hkp⟩ : ∃ k0 p0, anc ++ [last] = k0 :: p0 := by
              cases anc with
              | nil => exact ⟨last, [], rfl⟩
              | cons a t => exact ⟨a, t ++ [last], rfl⟩
            rw [hkp, getPath_cons_dict] at h1 h2
            cases hlr : lookupE k0 rest with
            | none => rw [hlr] at h2; cases h2
            | some w0 =>
                rw [hlr] at h2
                have hk0mem : k0 ∈ rest.map Prod.fst := lookupE_some_mem_keys hlr
                have hk0ne : bk ≠ k0 := fun hh => hbk_notin (hh ▸ hk0mem)
                rw [hsame k0 hk0mem] at h1
                refine ⟨anc, last, w1, w2, he, ?_, ?_, h3, h4, h5⟩
                · rw [hkp, getPath_cons_dict]
                  exact h1
                · rw [hkp, getPath_cons_dict, lookupE, if_neg hk0ne, hlr]
                  exact h2
          rw [mergeEntries_cons_dict] at hrun
          cases hla : lookupE bk as with
          | some av =>
              rw [hla] at hrun
              by_cases h1 : (is_dict_like av && is_dict_like bv) = true
              · simp only [h1, if_true] at hrun
                cases hsm : single_merge false ap (ep ++ [pyStr (keyToVal bk)]) av bv with
                | ok m =>
                    rw [hsm] at hrun
                    exact transfer _ (fun k' hk' => @upsert_lookup_other bk k'
                      (fun hh => hbk_notin (by rw [← hh]; exact hk')) m as) hrun
                | error e' =>
                    rw [hsm] at hrun
                    have hee : e' = e := by injection hrun
                    subst hee
                    -- conflict inside the recursive dict/dict merge
                    rw [Bool.and_eq_true] at h1
                    cases av with
                    | dict avs =>
                        cases bv with
                        | dict bvs =>
                            have hszb : sizeOf bvs ≤ n := by simp at hbs; omega
                            have hwfb : wfKeys (.dict bvs) = true := hwfe.1
                            rw [single_merge] at hsm
                            obtain ⟨anc, last, w1, w2, he, hp1, hp2, h3, h4, h5⟩ :=
                              ih bvs hszb avs ap (ep ++ [pyStr (keyToVal bk)]) e' hwfb hsm
                            refine ⟨bk :: anc, last, w1, w2, ?_, ?_, ?_, h3, h4, h5⟩
                            · rw [he]
                              congr 1
                              simp [mergePathStrs]
                            · rw [List.cons_append, getPath_cons_dict, hla]
                              exact hp1
                            · rw [List.cons_append, getPath_cons_dict, lookupE, if_pos rfl]
                              exact hp2
                        | vnum _ => simp [is_dict_like] at h1
                        | vstr _ => simp [is_dict_like] at h1
                        | list _ => simp [is_dict_like] at h1
                    | vnum _ => simp [is_dict_like] at h1
                    | vstr _ => simp [is_dict_like] at h1
                    | list _ => simp [is_dict_like] at h1
              · simp only [h1, if_false, Bool.false_eq_true] at hrun
                by_cases h2 : (is_iter_non_string av && is_iter_non_string bv && ap) = true
                · simp only [h2, if_true] at hrun
                  exact transfer _ (fun k' hk' => @upsert_lookup_other bk k'
                    (fun hh => hbk_notin (by rw [← hh]; exact hk')) _ as) hrun
                · simp only [h2, if_false, Bool.false_eq_true] at hrun
                  by_cases h3 : pyEq av bv = true
                  · simp only [h3, if_true] at hrun
                    exact transfer _ (fun _ _ => rfl) hrun
                  · simp only [h3, if_false, Bool.false_eq_true] at hrun
                    have hee : PyErr.valueError (mergeConflictMsg ep (keyToVal bk) av bv) = e := by
                      injection hrun
                    subst hee
                    refine ⟨[], bk, av, bv, ?_, ?_, ?_, ?_, ?_, ?_⟩
                    · simp [mergePathStrs]
                    · rw [List.nil_append, getPath_cons_dict, hla]
                      simp [getPath]
                    · rw [List.nil_append, getPath_cons_dict, lookupE, if_pos rfl]
                      simp [getPath]
                    · simpa using h3
                    · intro hc
                      exact h1 (by simp [hc.1, hc.2])
                    · intro hc
                      exact h2 (by simp [hc.1, hc.2.1, hc.2.2])
          | none =>
              rw [hla] at hrun
              exact transfer _ (fun k' hk' => @upsert_lookup_other bk k'
                (fun hh => hbk_notin (by rw [← hh]; exact hk')) bv as) hrun

/-- Completeness of conflict detection: when `single_merge` folds a
well-formed dict `b` into a dict accumulator with `overwrite=False` and
*succeeds*, the two dicts held no irreconcilable pair at any path. -/
theorem mergeEntries_ok_no_conflict :
    ∀ (n : ℕ) (bs : Entries), sizeOf bs ≤ n →
    ∀ (as : Entries) (ap : Bool) (ep : List String) (r : JValue),
      wfKeys (.dict bs) = true →
      mergeEntries false ap ep (.dict as) bs = .ok r →
      ∀ (k : Key) (q : Path) (v1 v2 : JValue),
        getPath (.dict as) (k :: q) = some v1 →
        getPath (.dict bs) (k :: q) = some v2 →
        pyEq v1 v2 = false →
        ¬(is_dict_like v1 = true ∧ is_dict_like v2 = true) →
        ¬(is_iter_non_string v1 = true ∧ is_iter_non_string v2 = true ∧ ap = true) →
        False := by
  intro n
  induction n with
  | zero =>
      intro bs hbs
      cases bs with
      | nil =>
          intro as ap ep r _ _ k q v1 v2 _ h2 _ _ _
          rw [getPath_cons_dict, lookupE] at h2
          cases h2
      | cons p rest => intro as ap ep r _ _; simp at hbs
  | succ n ih =>
      intro bs hbs as ap ep r hwf hrun k q v1 v2 hv1 hv2 hne hnd hnl
      cases bs with
      | nil =>
          rw [getPath_cons_dict, lookupE] at hv2
          cases hv2
      | cons hd rest =>
          obtain ⟨bk, bv⟩ := hd
          have hsz : sizeOf rest ≤ n := by simp at hbs; omega
          rw [wfKeys, Bool.and_eq_true] at hwf
          obtain ⟨hndk, hwfe⟩ := hwf
          rw [nodupKeysE, Bool.and_eq_true] at hndk
          rw [wfEntries, Bool.and_eq_true] at hwfe
          have hbk_notin : bk ∉ rest.map Prod.fst := by simpa using hndk.1
          have hwf_rest : wfKeys (.dict rest) = true := by
            rw [wfKeys, Bool.and_eq_true]
            exact ⟨hndk.2, hwfe.2⟩
          rw [mergeEntries_cons_dict] at hrun
          by_cases hkbk : k = bk
          · -- the conflict lives under the entry being processed
            subst hkbk
            rw [getPath_cons_dict] at hv1 hv2
            rw [lookupE, if_pos rfl] at hv2
            cases hla : lookupE k as with
            | none => rw [hla] at hv1; cases hv1
            | some av =>
                rw [hla] at hv1 hrun
                by_cases h1 : (is_dict_like av && is_dict_like bv) = true
                · simp only [h1, if_true] at hrun
                  cases hsm : single_merge false ap (ep ++ [pyStr (keyToVal k)]) av bv with
                  | error e' => rw [hsm] at hrun; cases hrun
                  | ok m =>
                      rw [hsm] at hrun
                      rw [Bool.and_eq_true] at h1
                      cases av with
                      | dict avs =>
                          cases bv with
                          | dict bvs =>
                              cases q with
                              | nil =>
                                  simp [getPath] at hv1 hv2
                                  exact hnd ⟨by rw [← hv1]; rfl, by rw [← hv2]; rfl⟩
                              | cons q0 q' =>
                                  have hszb : sizeOf bvs ≤ n := by simp at hbs; omega
                                  rw [single_merge] at hsm
                                  exact ih bvs hszb avs ap _ m hwfe.1 hsm q0 q' v1 v2 hv1 hv2
                                    hne hnd hnl
                          | vnum _ => simp [is_dict_like] at h1
                          | vstr _ => simp [is_dict_like] at h1
                          | list _ => simp [is_dict_like] at h1
                      | vnum _ => simp [is_dict_like] at h1
                      | vstr _ => simp [is_dict_like] at h1
                      | list _ => simp [is_dict_like] at h1
                · simp only [h1, if_false, Bool.false_eq_true] at hrun
                  by_cases h2 : (is_iter_non_string av && is_iter_non_string bv && ap) = true
                  · simp only [h2, if_true] at hrun
                    rw [Bool.and_eq_true, Bool.and_eq_true] at h2
                    cases q with
                    | nil =>
                        simp [getPath] at hv1 hv2
                        exact hnl ⟨by rw [← hv1]; exact h2.1.1, by rw [← hv2]; exact h2.1.2, h2.2⟩
                    | cons q0 q' =>
                        cases av with
                        | dict _ => simp [is_iter_non_string] at h2
                        | vnum _ => simp [is_iter_non_string] at h2
                        | vstr _ => simp [is_iter_non_string] at h2
                        | list _ => simp [getPath] at hv1
                  · simp only [h2, if_false, Bool.false_eq_true] at hrun
                    by_cases h3 : pyEq av bv = true
                    · simp only [h3, if_true] at hrun
                      cases q with
                      | nil =>
                          simp [getPath] at hv1 hv2
                          rw [← hv1, ← hv2] at hne
                          rw [h3] at hne
                          cases hne
                      | cons q0 q' =>
                          have := pyEq_getPath (q0 :: q') av bv v1 v2 h3 hv1 hv2
                          rw [this] at hne
                          cases hne
                    · simp only [h3, if_false, Bool.false_eq_true] at hrun
                      cases hrun
          · -- the conflict lives in the tail
            have hv2' : getPath (.dict rest) (k :: q) = some v2 := by
              rw [getPath_cons_dict] at hv2 ⊢
              rw [lookupE, if_neg (fun hh => hkbk hh.symm)] at hv2
              exact hv2
            have happ :
                ∀ (as' : Entries), lookupE k as' = lookupE k as →
                mergeEntries false ap ep (.dict as') rest = .ok r → False := by
              intro as' hsame hrun'
              have hv1' : getPath (.dict as') (k :: q) = some v1 := by
                rw [getPath_cons_dict] at hv1 ⊢
                rw [hsame]
                exact hv1
              exact ih rest hsz as' ap ep r hwf_rest hrun' k q v1 v2 hv1' hv2' hne hnd hnl
            cases hla : lookupE bk as with
            | none =>
                rw [hla] at hrun
                exact happ _ (@upsert_lookup_other bk k (fun hh => hkbk hh) bv as) hrun
            | some av =>
                rw [hla] at hrun
                by_cases h1 : (is_dict_like av && is_dict_like bv) = true
                · simp only [h1, if_true] at hrun
                  cases hsm : single_merge false ap (ep ++ [pyStr (keyToVal bk)]) av bv with
                  | error e' => rw [hsm] at hrun; cases hrun
                  | ok m =>
                      rw [hsm] at hrun
                      exact happ _ (@upsert_lookup_other bk k (fun hh => hkbk hh) m as) hrun
                · simp only [h1, if_false, Bool.false_eq_true] at hrun
                  by_cases h2 : (is_iter_non_string av && is_iter_non_string bv && ap) = true
                  · simp only [h2, if_true] at hrun
                    exact happ _ (@upsert_lookup_other bk k (fun hh => hkbk hh) _ as) hrun
                  · simp only [h2, if_false, Bool.false_eq_true] at hrun
                    by_cases h3 : pyEq av bv = true
                    · simp only [h3, if_true] at hrun
                      exact happ _ rfl hrun
                    · simp only [h3, if_false, Bool.false_eq_true] at hrun
                      cases hrun

/-- C2: whenever two (well-formed) input trees hold differing values at a
common dict path whose values are neither both Mapping-like nor both
appendable Sequences, `merge([d1, d2], overwrite=False)` fails with the
conflict `ValueError` naming a full dotted conflicting path and the two
values at it (old then new) — no partially merged tree is returned, the
call being a single `Except` value.  The second conjunct is the claim's
concrete instance: path `a.b`, values `1` and `2`. -/
theorem merge_conflict_detection :
    (∀ (d1 d2 : JValue) (k : Key) (p : Path) (v1 v2 : JValue) (ap : Bool),
        getPath d1 (k :: p) = some v1 →
        getPath d2 (k :: p) = some v2 →
        pyEq v1 v2 = false →
        ¬(is_dict_like v1 = true ∧ is_dict_like v2 = true) →
        ¬(is_iter_non_string v1 = true ∧ is_iter_non_string v2 = true ∧ ap = true) →
        wfKeys d2 = true →
        ∃ (anc : Path) (last : Key) (w1 w2 : JValue),
          merge [d1, d2] false ap
              = .error (.valueError (mergeConflictMsg (mergePathStrs anc) (keyToVal last) w1 w2))
            ∧ getPath d1 (anc ++ [last]) = some w1
            ∧ getPath d2 (anc ++ [last]) = some w2
            ∧ pyEq w1 w2 = false)
    ∧ merge [.dict [(.ks "a", .dict [(.ks "b", .vnum 1)])],
             .dict [(.ks "a", .dict [(.ks "b", .vnum 2)])]] false false
        = .error (.valueError "different data already exists at a.b: old: 1, new: 2") := by
  constructor
  · intro d1 d2 k p v1 v2 ap h1 h2 hne hnd hnl hwf
    cases d1 with
    | vnum _ => simp [getPath] at h1
    | vstr _ => simp [getPath] at h1
    | list _ => simp [getPath] at h1
    | dict as =>
        cases d2 with
        | vnum _ => simp [getPath] at h2
        | vstr _ => simp [getPath] at h2
        | list _ => simp [getPath] at h2
        | dict bs =>
            have hmerge : merge [.dict as, .dict bs] false ap
                = mergeEntries false ap [] (.dict as) bs := by
              show List.foldlM _ _ _ = _
              rw [List.foldlM]
              rw [single_merge]
              cases mergeEntries false ap [] (.dict as) bs <;>
                simp [List.foldlM, bind, Except.bind, pure, Except.pure]
            cases hr : mergeEntries false ap [] (.dict as) bs with
            | ok r =>
                exact absurd (mergeEntries_ok_no_conflict (sizeOf bs) bs le_rfl
                  as ap [] r hwf hr k p v1 v2 h1 h2 hne hnd hnl) (fun h => h)
            | error e =>
                obtain ⟨anc, last, w1, w2, he, hw1, hw2, hwne, _, _⟩ :=
                  mergeEntries_error_conflict (sizeOf bs) bs le_rfl as ap [] e hwf hr
                refine ⟨anc, last, w1, w2, ?_, hw1, hw2, hwne⟩
                rw [hmerge, hr, he]
                simp [mergePathStrs]
  · decide

/-- C2 witness: the claim's concrete instance through the general statement —
`merge([{'a':{'b':1}}, {'a':{'b':2}}], overwrite=False)` fails with a
conflict naming a real conflicting path of both inputs. -/
theorem merge_conflict_detection_witness :
    ∃ (anc : Path) (last : Key) (w1 w2 : JValue),
      merge [.dict [(.ks "a", .dict [(.ks "b", .vnum 1)])],
             .dict [(.ks "a", .dict [(.ks "b", .vnum 2)])]] false false
          = .error (.valueError (mergeConflictMsg (mergePathStrs anc) (keyToVal last) w1 w2))
        ∧ getPath (.dict [(.ks "a", .dict [(.ks "b", .vnum 1)])]) (anc ++ [last]) = some w1
        ∧ getPath (.dict [(.ks "a", .dict [(.ks "b", .vnum 2)])]) (anc ++ [last]) = some w2
        ∧ pyEq w1 w2 = false :=
  merge_conflict_detection.1
    (.dict [(.ks "a", .dict [(.ks "b", .vnum 1)])])
    (.dict [(.ks "a", .dict [(.ks "b", .vnum 2)])])
    (.ks "a") [.ks "b"] (.vnum 1) (.vnum 2) false
    (by decide) (by decide) (by decide) (by decide) (by decide) (by decide)

/-! ## Claims C4 and C5 — the unflatten conflict rules -/

theorem upsert_self {k : Key} {v : JValue} {es : Entries}
    (h : lookupE k es = some v) : upsert k v es = es := by
  induction es with
  | nil => simp [lookupE] at h
  | cons p rest ih =>
      obtain ⟨k', v'⟩ := p
      rw [lookupE] at h
      by_cases hk : k' = k
      · simp [hk] at h
        simp [upsert, hk, h]
      · simp [hk] at h
        simp [upsert, hk, ih h]

/-- Rule A at the walk level: when every strict prefix of `parent` maps to a
dict but `parent` itself maps to a non-Mapping value `w`, placing a pair
whose key is `parent ++ [last]` raises the conflict `KeyError` whose message
names the parent path, `str(w)` and `str({last: value})` in sorted order. -/
theorem placeWalk_ruleA :
    ∀ (parent : Path) (res : JValue) (acc : Path) (last : Key) (value w : JValue),
      getPath res parent = some w → is_dict_like w = false →
      (∀ q, q <+: parent → q ≠ parent → ∃ es, getPath res q = some (JValue.dict es)) →
      placeWalk res acc (parent ++ [last]) value
        = .error (.keyError (childConflictMsg (acc ++ parent) w (.dict [(last, value)])))
  | [], res, acc, last, value, w, hw, hnd, _ => by
      simp [getPath] at hw
      subst hw
      cases res with
      | dict es => simp [is_dict_like] at hnd
      | vnum q => simp [placeWalk]
      | vstr s => simp [placeWalk]
      | list xs => simp [placeWalk]
  | p0 :: parent', res, acc, last, value, w, hw, hnd, hpre => by
      obtain ⟨es, hres⟩ := hpre [] (by simp) (by simp)
      simp [getPath] at hres
      subst hres
      rw [getPath_cons_dict] at hw
      cases hl : lookupE p0 es with
      | none => rw [hl] at hw; cases hw
      | some child =>
          rw [hl] at hw
          have hchildpre : ∀ q, q <+: parent' → q ≠ parent' →
              ∃ es', getPath child q = some (JValue.dict es') := by
            intro q hq hqne
            have := hpre (p0 :: q) (by simpa using hq) (by simpa using hqne)
            obtain ⟨es', hes'⟩ := this
            rw [getPath_cons_dict, hl] at hes'
            exact ⟨es', hes'⟩
          have hrec := placeWalk_ruleA parent' child (acc ++ [p0]) last value w hw hnd hchildpre
          obtain ⟨y, ys, hys⟩ : ∃ y ys, parent' ++ [last] = y :: ys := by
            cases parent' with
            | nil => exact ⟨last, [], rfl⟩
            | cons a t => exact ⟨a, t ++ [last], rfl⟩
          rw [List.cons_append, hys]
          rw [hys] at hrec
          rw [placeWalk]
          rw [pyContainsV_dict_key, hl]
          simp only [Option.isSome_some, bind, Except.bind, if_true, pure, Except.pure,
            pyGetItemV_dict_key, hl]
          rw [hrec]
          all_goals simp [bind, Except.bind, List.append_assoc]

/-- Rule B at the walk level, failing case: every strict prefix of the
parent walks through dicts, the parent is a dict already holding `existing`
at the final key, and `merge([existing, value])` raises — the placement
fails with the conflict `KeyError` naming the full path and `str(value)`,
`str(existing)` in sorted order. -/
theorem placeWalk_ruleB_error :
    ∀ (parent : Path) (res : JValue) (acc : Path) (last : Key) (value existing : JValue)
      (es : Entries) (e : PyErr),
      getPath res parent = some (.dict es) →
      (∀ q, q <+: parent → q ≠ parent → ∃ es', getPath res q = some (JValue.dict es')) →
      lookupE last es = some existing →
      merge [existing, value] false false = .error e →
      placeWalk res acc (parent ++ [last]) value
        = .error (.keyError (childConflictMsg (acc ++ parent ++ [last]) value existing))
  | [], res, acc, last, value, existing, es, e, hw, _, hlast, hmerge => by
      simp [getPath] at hw
      subst hw
      rw [List.nil_append, placeWalk, hlast]
      simp [hmerge]
  | p0 :: parent', res, acc, last, value, existing, es, e, hw, hpre, hlast, hmerge => by
      obtain ⟨es0, hres⟩ := hpre [] (by simp) (by simp)
      simp [getPath] at hres
      subst hres
      rw [getPath_cons_dict] at hw
      cases hl : lookupE p0 es0 with
      | none => rw [hl] at hw; cases hw
      | some child =>
          rw [hl] at hw
          have hchildpre : ∀ q, q <+: parent' → q ≠ parent' →
              ∃ es', getPath child q = some (JValue.dict es') := by
            intro q hq hqne
            obtain ⟨es', hes'⟩ := hpre (p0 :: q) (by simpa using hq) (by simpa using hqne)
            rw [getPath_cons_dict, hl] at hes'
            exact ⟨es', hes'⟩
          have hrec := placeWalk_ruleB_error parent' child (acc ++ [p0]) last value existing
            es e hw hchildpre hlast hmerge
          obtain ⟨y, ys, hys⟩ : ∃ y ys, parent' ++ [last] = y :: ys := by
            cases parent' with
            | nil => exact ⟨last, [], rfl⟩
            | cons a t => exact ⟨a, t ++ [last], rfl⟩
          rw [List.cons_append, hys]
          rw [hys] at hrec
          rw [placeWalk]
          rw [pyContainsV_dict_key, hl]
          simp only [Option.isSome_some, bind, Except.bind, if_true, pure, Except.pure,
            pyGetItemV_dict_key, hl]
          rw [hrec]
          all_goals simp [bind, Except.bind, List.append_assoc]

/-- Rule B at the walk level, silent case: when `merge([existing, value])`
returns `existing` itself (as it does for an empty-sequence `value`), the
placement returns the tree unchanged — no error, no change. -/
theorem placeWalk_ruleB_silent :
    ∀ (parent : Path) (res : JValue) (acc : Path) (last : Key) (value existing : JValue)
      (es : Entries),
      getPath res parent = some (.dict es) →
      (∀ q, q <+: parent → q ≠ parent → ∃ es', getPath res q = some (JValue.dict es')) →
      lookupE last es = some existing →
      merge [existing, value] false false = .ok existing →
      placeWalk res acc (parent ++ [last]) value = .ok res
  | [], res, acc, last, value, existing, es, hw, _, hlast, hmerge => by
      simp [getPath] at hw
      subst hw
      rw [List.nil_append, placeWalk, hlast]
      simp [hmerge, upsert_self hlast]
  | p0 :: parent', res, acc, last, value, existing, es, hw, hpre, hlast, hmerge => by
      obtain ⟨es0, hres⟩ := hpre [] (by simp) (by simp)
      simp [getPath] at hres
      subst hres
      rw [getPath_cons_dict] at hw
      cases hl : lookupE p0 es0 with
      | none => rw [hl] at hw; cases hw
      | some child =>
          rw [hl] at hw
          have hchildpre : ∀ q, q <+: parent' → q ≠ parent' →
              ∃ es', getPath child q = some (JValue.dict es') := by
            intro q hq hqne
            obtain ⟨es', hes'⟩ := hpre (p0 :: q) (by simpa using hq) (by simpa using hqne)
            rw [getPath_cons_dict, hl] at hes'
            exact ⟨es', hes'⟩
          have hrec := placeWalk_ruleB_silent parent' child (acc ++ [p0]) last value existing
            es hw hchildpre hlast hmerge
          obtain ⟨y, ys, hys⟩ : ∃ y ys, parent' ++ [last] = y :: ys := by
            cases parent' with
            | nil => exact ⟨last, [], rfl⟩
            | cons a t => exact ⟨a, t ++ [last], rfl⟩
          rw [List.cons_append, hys]
          rw [hys] at hrec
          rw [placeWalk]
          rw [pyContainsV_dict_key, hl]
          simp only [Option.isSome_some, bind, Except.bind, if_true, pure, Except.pure,
            pyGetItemV_dict_key, hl]
          rw [hrec]
          all_goals simp [bind, Except.bind, pySetItemV_dict_key, upsert_self hl, pure, Except.pure]

theorem lookupF_none_of_not_mem {l : FlatMap} (h : ([] : Path) ∉ l.map Prod.fst) :
    lookupF [] l = none := by
  induction l with
  | nil => rfl
  | cons p rest ih =>
      rw [lookupF]
      simp at h
      rw [if_neg (by simpa using h.1)]
      exact ih (by simpa using h.2)

theorem filter_nonempty_id {l : FlatMap} (h : ([] : Path) ∉ l.map Prod.fst) :
    l.filter (fun p => !(decide (p.1 = []))) = l := by
  induction l with
  | nil => rfl
  | cons p rest ih =>
      simp at h
      rw [List.filter_cons]
      rw [if_pos (by simpa using h.1)]
      rw [ih (by simpa using h.2)]

theorem unflatten_cons (a : Path × JValue) (l : FlatMap) (lod : Option String) :
    unflatten (a :: l) lod =
      (do
        let result0 := match lookupF [] (a :: l) with | some v => v | none => JValue.dict []
        let rest := (a :: l).filter (fun p => !(decide (p.1 = [])))
        let r ← processPairs result0 rest
        match lod with
        | some pre => _recreate_lists r pre
        | none => .ok r) := rfl

theorem processPairs_append (i : JValue) (l1 l2 : FlatMap) :
    processPairs i (l1 ++ l2) = do { let r ← processPairs i l1; processPairs r l2 } :=
  List.foldlM_append _ _ _ _

/-- Common spine of the unflatten conflict theorems: with no empty-tuple key,
once the pairs before the offending one have been placed (`res`), the final
outcome is the outcome of placing the offending pair (when that placement
errors). -/
theorem unflatten_error_spine (pre post : FlatMap) (kv : Path × JValue) (res : JValue)
    (lod : Option String) (e : PyErr)
    (hmem : ([] : Path) ∉ (pre ++ kv :: post).map Prod.fst)
    (hpre : processPairs (.dict []) pre = .ok res)
    (hplace : placeWalk res [] kv.1 kv.2 = .error e) :
    unflatten (pre ++ kv :: post) lod = .error e := by
  obtain ⟨a, l, hal⟩ : ∃ a l, pre ++ kv :: post = a :: l := by
    cases pre with
    | nil => exact ⟨kv, post, rfl⟩
    | cons x xs => exact ⟨x, xs ++ kv :: post, rfl⟩
  rw [hal, unflatten_cons, ← hal]
  rw [lookupF_none_of_not_mem hmem, filter_nonempty_id hmem]
  dsimp only
  rw [processPairs_append]
  rw [hpre]
  show (do { let r ← processPairs res (kv :: post); _ } : Except PyErr JValue) = _
  rw [processPairs, List.foldlM_cons, hplace]
  cases lod <;> rfl

/-- C4 (amended): placing a flat key whose parent path walks through
Mappings and lands on a non-Mapping value fails with the conflict `KeyError`
naming the parent path and the two colliding renderings (`str` of the
existing value and of `{last: value}`), lexicographically ordered — the
non-Mapping must sit exactly at the parent position; a non-Mapping met
*earlier* in the walk instead raises a bare `TypeError` (see the
counterexample). -/
theorem unflatten_conflict_ruleA :
    ∀ (pre post : FlatMap) (parent : Path) (last : Key) (value res w : JValue)
      (lod : Option String),
      ([] : Path) ∉ (pre ++ (parent ++ [last], value) :: post).map Prod.fst →
      processPairs (.dict []) pre = .ok res →
      getPath res parent = some w →
      is_dict_like w = false →
      (∀ q, q <+: parent → q ≠ parent → ∃ es, getPath res q = some (JValue.dict es)) →
      unflatten (pre ++ (parent ++ [last], value) :: post) lod
        = .error (.keyError (childConflictMsg parent w (.dict [(last, value)]))) := by
  intro pre post parent last value res w lod hmem hpre hw hnd hprefix
  exact unflatten_error_spine pre post _ res lod _ hmem hpre
    (by simpa using placeWalk_ruleA parent res [] last value w hw hnd hprefix)

/-- C4 counterexample: the claim as stated is false — a key whose path walks
*through* a non-Mapping value met before the parent position
(`{('a',): 1, ('a','b','c'): 2}`) makes `unflatten` raise a bare
`TypeError` from `'b' not in 1`, which is not the conflict `KeyError` and
names neither the colliding path nor the values. -/
theorem unflatten_conflict_ruleA_counterexample :
    unflatten [([.ks "a"], .vnum 1), ([.ks "a", .ks "b", .ks "c"], .vnum 2)] none
        = .error (.typeError "argument of type int is not iterable")
      ∧ (∀ s, PyErr.typeError "argument of type int is not iterable" ≠ PyErr.keyError s) := by
  constructor
  · decide
  · intro s h
    cases h

/-- C4 witness: on `{('a',): 1, ('a','b'): 2}` the amended rule fires — the
parent `('a',)` holds the non-Mapping `1` and the conflict `KeyError` names
it together with `str(1)` and `str({'b': 2})`. -/
theorem unflatten_conflict_ruleA_witness :
    unflatten [([.ks "a"], .vnum 1), ([.ks "a", .ks "b"], .vnum 2)] none
      = .error (.keyError (childConflictMsg [.ks "a"] (.vnum 1)
          (.dict [(.ks "b", .vnum 2)]))) := by
  have h := unflatten_conflict_ruleA [([.ks "a"], .vnum 1)] [] [.ks "a"] (.ks "b")
    (.vnum 2) (.dict [(.ks "a", .vnum 1)]) (.vnum 1) none
    (by decide) (by decide) (by decide) (by decide)
    (by
      intro q hq hqne
      obtain ⟨t, ht⟩ := hq
      cases q with
      | nil => exact ⟨[(.ks "a", .vnum 1)], rfl⟩
      | cons x q' =>
          cases q' with
          | nil =>
              simp at ht
              exact absurd (by rw [ht.1]) hqne
          | cons y q'' => simp at ht)
  simpa using h

theorem merge_pair (a b : JValue) (ow ap : Bool) :
    merge [a, b] ow ap = single_merge ow ap [] a b := by
  have h0 : merge [a, b] ow ap
      = [b].foldlM (fun acc c => single_merge ow ap [] acc c) a := rfl
  rw [h0, List.foldlM_cons]
  cases h : single_merge ow ap [] a b <;> rfl

theorem merge_num_error (a : JValue) (q : ℚ) (ow ap : Bool) :
    merge [a, .vnum q] ow ap = .error (.typeError "int object is not iterable") := by
  rw [merge_pair, single_merge]


theorem unflatten_ok_spine (pre : FlatMap) (kv : Path × JValue) (res : JValue)
    (hmem : ([] : Path) ∉ (pre ++ [kv]).map Prod.fst)
    (hpre : processPairs (.dict []) pre = .ok res)
    (hplace : placeWalk res [] kv.1 kv.2 = .ok res) :
    unflatten (pre ++ [kv]) none = .ok res := by
  obtain ⟨a, l, hal⟩ : ∃ a l, pre ++ [kv] = a :: l := by
    cases pre with
    | nil => exact ⟨kv, [], rfl⟩
    | cons x xs => exact ⟨x, xs ++ [kv], rfl⟩
  rw [hal, unflatten_cons, ← hal]
  rw [lookupF_none_of_not_mem hmem, filter_nonempty_id hmem]
  dsimp only
  rw [processPairs_append, hpre]
  show ((Except.ok res >>= fun r => processPairs r [kv]) >>= _ : Except PyErr JValue) = _
  simp only [bind, Except.bind]
  rw [processPairs, List.foldlM_cons, hplace]
  rfl

/-- C5 (amended): when the final key of a path already holds a value,
`unflatten` calls `merge([existing, value])`: (i) if that merge fails, the
outcome is rule A's conflict `KeyError` shape with the *full* path
(parent plus final key) and the two values rendered and ordered as in rule
A; (ii) a numeric new value always makes the merge fail (iterating an
`int` raises); but (iii) the merge does *not* fail for every non-Mapping
new value — an empty-list new value merges vacuously and `unflatten`
silently returns the existing tree, dropping the pair. -/
theorem unflatten_conflict_ruleB :
    (∀ (pre post : FlatMap) (parent : Path) (last : Key)
       (value res existing : JValue) (es : Entries) (e : PyErr) (lod : Option String),
       ([] : Path) ∉ (pre ++ (parent ++ [last], value) :: post).map Prod.fst →
       processPairs (.dict []) pre = .ok res →
       getPath res parent = some (.dict es) →
       (∀ q, q <+: parent → q ≠ parent → ∃ es', getPath res q = some (JValue.dict es')) →
       lookupE last es = some existing →
       merge [existing, value] false false = .error e →
       unflatten (pre ++ (parent ++ [last], value) :: post) lod
         = .error (.keyError (childConflictMsg (parent ++ [last]) value existing)))
  ∧ (∀ (existing : JValue) (q : ℚ),
       merge [existing, .vnum q] false false
         = .error (.typeError "int object is not iterable"))
  ∧ (∀ (pre : FlatMap) (parent : Path) (last : Key) (res existing : JValue) (es : Entries),
       ([] : Path) ∉ (pre ++ [(parent ++ [last], JValue.list [])]).map Prod.fst →
       processPairs (.dict []) pre = .ok res →
       getPath res parent = some (.dict es) →
       (∀ q, q <+: parent → q ≠ parent → ∃ es', getPath res q = some (JValue.dict es')) →
       lookupE last es = some existing →
       merge [existing, JValue.list []] false false = .ok existing →
       unflatten (pre ++ [(parent ++ [last], JValue.list [])]) none = .ok res) := by
  refine ⟨?_, ?_, ?_⟩
  · intro pre post parent last value res existing es e lod hmem hpre hw hprefix hlast hmerge
    exact unflatten_error_spine pre post _ res lod _ hmem hpre
      (by simpa using
        placeWalk_ruleB_error parent res [] last value existing es e hw hprefix hlast hmerge)
  · intro existing q
    exact merge_num_error existing q false false
  · intro pre parent last res existing es hmem hpre hw hprefix hlast hmerge
    have hp := placeWalk_ruleB_silent parent res [] last (JValue.list []) existing es hw
      hprefix hlast hmerge
    exact unflatten_ok_spine pre _ res hmem hpre (by simpa using hp)

/-- C5 counterexample: the claim as stated is false — on
`{('a','b'): 1, ('a',): []}` the final key `'a'` already holds the Mapping
`{'b': 1}`, the new value `[]` is not Mapping-like, yet `unflatten`
silently succeeds, returning `{'a': {'b': 1}}` and dropping the pair. -/
theorem unflatten_conflict_ruleB_counterexample :
    unflatten [([.ks "a", .ks "b"], .vnum 1), ([.ks "a"], .list [])] none
        = .ok (.dict [(.ks "a", .dict [(.ks "b", .vnum 1)])])
      ∧ is_dict_like (.list []) = false := by
  constructor
  · decide
  · rfl

/-- C5 witness: on `{('a',): {'x': 1}, ('a',): 2}`-style input
`[(('a',), {'x': 1}), (('a',), 2)]` the second pair lands on the occupied
final key `'a'`; merging `{'x': 1}` with `2` raises, and `unflatten` fails
with the rule-A-shaped conflict `KeyError` for the full path `('a',)`. -/
theorem unflatten_conflict_ruleB_witness :
    unflatten [([.ks "a"], .dict [(.ks "x", .vnum 1)]), ([.ks "a"], .vnum 2)] none
      = .error (.keyError (childConflictMsg [.ks "a"] (.vnum 2)
          (.dict [(.ks "x", .vnum 1)]))) := by
  have h := unflatten_conflict_ruleB.1 [([.ks "a"], .dict [(.ks "x", .vnum 1)])] []
    [] (.ks "a") (.vnum 2) (.dict [(.ks "a", .dict [(.ks "x", .vnum 1)])])
    (.dict [(.ks "x", .vnum 1)]) [(.ks "a", .dict [(.ks "x", .vnum 1)])]
    (.typeError "int object is not iterable") none
    (by decide) (by decide) (by decide)
    (by
      intro q hq hqne
      exact absurd (List.prefix_nil.mp hq) hqne)
    (by decide) (by decide)
  simpa using h

/-- The body of `split_lists`' outer `for key, value in flattened.items()`
loop, named for reasoning. -/
def splitBranch (split_keys : List Key) (new_name : String) (check_length : Bool)
    (new_d : FlatMap) (p : Path × JValue) : Except PyErr FlatMap := do
  let (key, value) := p
  if split_keys.all (fun k => (lookupE k (jentries value)).isSome) then do
    let st ← (jentries value).foldlM
      (splitStep split_keys new_name check_length key)
      { combine_d := [], sub_d := [], len := none, new_d := new_d }
    pure st.new_d
  else pure (upsertF key value new_d)

theorem split_lists_eq (d : JValue) (split_keys : List Key) (new_name : String)
    (check_length : Bool) :
    split_lists d split_keys new_name check_length =
      (do
        let flattened ← flatten2d d none
        let new_d ← flattened.foldlM (splitBranch split_keys new_name check_length) []
        unflatten new_d none) := rfl

/-- C8 (amended): the length check is real but can be pre-empted. (i) A
split key holding a list whose length differs from the length recorded by
an earlier split key of the same branch makes the inner loop (and hence
`split_lists`, by (ii) error propagation through the branch fold) fail
with the size-mismatch `ValueError` naming that branch's path; (iii) in
particular the claim's own scenario `split_lists({'k': {'x': [1,7],
'y': [3,4,5]}}, ['x','y'])` raises exactly that error for path `('k',)`.
But the merge of `sub_d` with `{new_name: combine_d}` runs on *every*
iteration, so a branch can die with the name-collision `ValueError`
before any length is compared (see the counterexample). -/
theorem split_lists_length_check :
    (∀ (split_keys : List Key) (new_name : String) (key : Path) (st : SplitSt)
       (subkey : Key) (xs : List JValue) (L : ℕ),
       subkey ∈ split_keys → st.len = some L → xs.length ≠ L →
       splitStep split_keys new_name true key st (subkey, .list xs)
         = .error (.valueError (sizeMismatchMsg key)))
  ∧ (∀ (d : JValue) (split_keys : List Key) (new_name : String)
       (pre post : FlatMap) (key : Path) (value : JValue) (new_d : FlatMap) (e : PyErr),
       flatten2d d none = .ok (pre ++ (key, value) :: post) →
       pre.foldlM (splitBranch split_keys new_name true) [] = .ok new_d →
       split_keys.all (fun k => (lookupE k (jentries value)).isSome) = true →
       (jentries value).foldlM (splitStep split_keys new_name true key)
           { combine_d := [], sub_d := [], len := none, new_d := new_d } = .error e →
       split_lists d split_keys new_name true = .error e)
  ∧ split_lists (.dict [(.ks "k", .dict [(.ks "x", .list [.vnum 1, .vnum 7]),
        (.ks "y", .list [.vnum 3, .vnum 4, .vnum 5])])]) [.ks "x", .ks "y"] "split" true
      = .error (.valueError (sizeMismatchMsg [.ks "k"])) := by
  refine ⟨?_, ?_, by decide⟩
  · intro split_keys new_name key st subkey xs L hmem hlen hne
    rw [splitStep]
    simp [hmem, hlen, hne, bind, Except.bind]
  · intro d split_keys new_name pre post key value new_d e hflat hpre hall hinner
    rw [split_lists_eq, hflat]
    simp only [bind, Except.bind]
    rw [List.foldlM_append, hpre]
    simp only [bind, Except.bind]
    rw [List.foldlM_cons]
    rw [splitBranch]
    simp only [hall, if_true]
    rw [hinner]
    simp only [bind, Except.bind]

/-- C8 counterexample: the claim as stated is false — in
`split_lists({'split': 5, 'x': [1], 'y': [1,2]}, ['x','y'])` the branch
`()` contains both split keys with lists of unequal lengths `1 ≠ 2`, yet
the run dies first on the name-collision `ValueError` for the default
`new_name='split'` (raised while processing the non-split key `'split'`,
before any list length is compared), not on the size-mismatch error. -/
theorem split_lists_length_check_counterexample :
    split_lists (.dict [(.ks "split", .vnum 5), (.ks "x", .list [.vnum 1]),
        (.ks "y", .list [.vnum 1, .vnum 2])]) [.ks "x", .ks "y"] "split" true
        = .error (.valueError (splitDataKeyMsg "split" []))
      ∧ splitDataKeyMsg "split" [] ≠ sizeMismatchMsg []
      ∧ ([JValue.vnum 1].length ≠ [JValue.vnum 1, JValue.vnum 2].length) := by
  refine ⟨by decide, by decide, by decide⟩

/-- C8 witness: the inner-loop step on branch `('k',)` with recorded
length 2 and the split key `'y'` holding `[3,4,5]` fails with the
size-mismatch error for `('k',)`; the propagation conjunct then drives the
claim's own scenario end to end. -/
theorem split_lists_length_check_witness :
    split_lists (.dict [(.ks "k", .dict [(.ks "x", .list [.vnum 1, .vnum 7]),
        (.ks "y", .list [.vnum 3, .vnum 4, .vnum 5])])]) [.ks "x", .ks "y"] "split" true
      = .error (.valueError (sizeMismatchMsg [.ks "k"])) := by
  exact split_lists_length_check.2.1
    (.dict [(.ks "k", .dict [(.ks "x", .list [.vnum 1, .vnum 7]),
        (.ks "y", .list [.vnum 3, .vnum 4, .vnum 5])])])
    [.ks "x", .ks "y"] "split" [] []
    [.ks "k"] (.dict [(.ks "x", .list [.vnum 1, .vnum 7]),
        (.ks "y", .list [.vnum 3, .vnum 4, .vnum 5])]) [] _
    (by decide) rfl (by decide) (by decide)

theorem lookupF_cons (p : Path) (q : Path × JValue) (rest : FlatMap) :
    lookupF p (q :: rest) = if q.1 = p then some q.2 else lookupF p rest := by
  obtain ⟨qk, qv⟩ := q
  rfl

theorem lookupF_none_iff (p : Path) (l : FlatMap) :
    lookupF p l = none ↔ ∀ q ∈ l, q.1 ≠ p := by
  induction l with
  | nil => simp [lookupF]
  | cons q rest ih =>
      rw [lookupF_cons]
      by_cases hq : q.1 = p
      · simp [hq]
      · simp [hq, ih]

theorem lookupF_removeF_ne (p path : Path) (l : FlatMap) (h : p ≠ path) :
    lookupF p (removeF path l) = lookupF p l := by
  induction l with
  | nil => rfl
  | cons q rest ih =>
      obtain ⟨qk, qv⟩ := q
      rw [removeF]
      by_cases hq : qk = path
      · rw [if_pos hq, lookupF_cons]
        rw [if_neg (by simpa [hq] using (Ne.symm h))]
      · rw [if_neg hq, lookupF_cons, lookupF_cons]
        by_cases hqp : qk = p
        · simp [hqp]
        · simp only [hqp, if_false]
          exact ih

theorem removeF_sublist (path : Path) (l : FlatMap) : List.Sublist (removeF path l) l := by
  induction l with
  | nil => exact List.Sublist.refl []
  | cons q rest ih =>
      obtain ⟨qk, qv⟩ := q
      rw [removeF]
      by_cases hq : qk = path
      · rw [if_pos hq]
        exact (List.Sublist.refl rest).cons _
      · rw [if_neg hq]
        exact ih.cons₂ _

theorem filter_lookup_removeF (path : Path) (val : JValue) (rest : FlatMap) :
    ∀ (l2 : FlatMap), (l2.map Prod.fst).Nodup →
      l2.filter (fun q => (lookupF q.1 ((path, val) :: rest)).isNone)
        = (removeF path l2).filter (fun q => (lookupF q.1 rest).isNone) := by
  intro l2
  induction l2 with
  | nil => intro _; rfl
  | cons q l2' ih =>
      intro h2
      obtain ⟨qk, qv⟩ := q
      rw [List.map_cons, List.nodup_cons] at h2
      rw [removeF, List.filter_cons]
      by_cases hq : qk = path
      · rw [if_pos hq]
        have hd : (lookupF (qk, qv).1 ((path, val) :: rest)).isNone = false := by
          rw [lookupF_cons]
          simp [hq]
        rw [hd, if_neg (by simp)]
        refine List.filter_congr ?_
        intro x hx
        have hxp : x.1 ≠ path := by
          intro hcontra
          have hmm : x.1 ∈ l2'.map Prod.fst := List.mem_map.mpr ⟨x, hx, rfl⟩
          rw [hcontra, ← hq] at hmm
          exact h2.1 hmm
        rw [lookupF_cons]
        rw [if_neg (fun hh => hxp hh.symm)]
      · rw [if_neg hq, List.filter_cons]
        have hd : (lookupF (qk, qv).1 ((path, val) :: rest)).isNone
            = (lookupF (qk, qv).1 rest).isNone := by
          rw [lookupF_cons]
          rw [if_neg (fun hh => hq hh.symm)]
        rw [hd, ih h2.2]

theorem diffLoop_characterization (npA : Option (JValue → JValue → Option Bool)) :
    ∀ (l1 l2 : FlatMap), (l1.map Prod.fst).Nodup → (l2.map Prod.fst).Nodup →
      diffLoop npA l1 l2
        = (l1.filter (fun p => (lookupF p.1 l2).isNone),
           l1.filterMap (fun p =>
             match lookupF p.1 l2 with
             | none => none
             | some o =>
                 if diffSkip npA p.2 o then none
                 else if pyEq p.2 o then none
                 else some (p.1, (p.2, o))),
           l2.filter (fun q => (lookupF q.1 l1).isNone)) := by
  intro l1
  induction l1 with
  | nil =>
      intro l2 _ _
      rw [diffLoop]
      simp [lookupF]
  | cons p rest ih =>
      intro l2 h1 h2
      obtain ⟨path, val⟩ := p
      rw [List.map_cons, List.nodup_cons] at h1
      rw [diffLoop]
      cases hl : lookupF path l2 with
      | none =>
          rw [ih l2 h1.2 h2]
          have hins : ((path, val) :: rest).filter (fun p => (lookupF p.1 l2).isNone)
              = (path, val) :: rest.filter (fun p => (lookupF p.1 l2).isNone) := by
            rw [List.filter_cons, if_pos (by simp [hl])]
          have hchg : ((path, val) :: rest).filterMap (fun p =>
                match lookupF p.1 l2 with
                | none => none
                | some o =>
                    if diffSkip npA p.2 o then none
                    else if pyEq p.2 o then none
                    else some (p.1, (p.2, o)))
              = rest.filterMap (fun p =>
                match lookupF p.1 l2 with
                | none => none
                | some o =>
                    if diffSkip npA p.2 o then none
                    else if pyEq p.2 o then none
                    else some (p.1, (p.2, o))) := by
            rw [List.filterMap_cons]
            simp only [hl]
          have hrem : l2.filter (fun q => (lookupF q.1 ((path, val) :: rest)).isNone)
              = l2.filter (fun q => (lookupF q.1 rest).isNone) := by
            refine List.filter_congr ?_
            intro x hx
            have hxp : x.1 ≠ path := (lookupF_none_iff path l2).mp hl x hx
            rw [lookupF_cons, if_neg (fun hh => hxp hh.symm)]
          rw [hins, hchg, hrem]
      | some other_val =>
          have h2' : ((removeF path l2).map Prod.fst).Nodup :=
            h2.sublist ((removeF_sublist path l2).map Prod.fst)
          have hins : ((path, val) :: rest).filter (fun p => (lookupF p.1 l2).isNone)
              = rest.filter (fun p => (lookupF p.1 (removeF path l2)).isNone) := by
            rw [List.filter_cons, if_neg (by simp [hl])]
            refine List.filter_congr ?_
            intro x hx
            have hxp : x.1 ≠ path := by
              intro hcontra
              have hmm : x.1 ∈ rest.map Prod.fst := List.mem_map.mpr ⟨x, hx, rfl⟩
              rw [hcontra] at hmm
              exact h1.1 hmm
            rw [lookupF_removeF_ne _ _ _ hxp]
          have hchg : ((path, val) :: rest).filterMap (fun p =>
                match lookupF p.1 l2 with
                | none => none
                | some o =>
                    if diffSkip npA p.2 o then none
                    else if pyEq p.2 o then none
                    else some (p.1, (p.2, o)))
              = (if diffSkip npA val other_val then (fun l => l)
                 else if pyEq val other_val then (fun l => l)
                 else (fun l => ((path, (val, other_val))) :: l))
                (rest.filterMap (fun p =>
                  match lookupF p.1 (removeF path l2) with
                  | none => none
                  | some o =>
                      if diffSkip npA p.2 o then none
                      else if pyEq p.2 o then none
                      else some (p.1, (p.2, o)))) := by
            rw [List.filterMap_cons]
            have hcg : rest.filterMap (fun p =>
                  match lookupF p.1 l2 with
                  | none => none
                  | some o =>
                      if diffSkip npA p.2 o then none
                      else if pyEq p.2 o then none
                      else some (p.1, (p.2, o)))
                = rest.filterMap (fun p =>
                  match lookupF p.1 (removeF path l2) with
                  | none => none
                  | some o =>
                      if diffSkip npA p.2 o then none
                      else if pyEq p.2 o then none
                      else some (p.1, (p.2, o))) := by
              refine List.filterMap_congr ?_
              intro x hx
              have hxp : x.1 ≠ path := by
                intro hcontra
                have hmm : x.1 ∈ rest.map Prod.fst := List.mem_map.mpr ⟨x, hx, rfl⟩
                rw [hcontra] at hmm
                exact h1.1 hmm
              rw [lookupF_removeF_ne _ _ _ hxp]
            simp only [hl]
            by_cases hs : diffSkip npA val other_val
            · simp only [hs, if_true, hcg]
            · by_cases hq : pyEq val other_val
              · simp only [hs, hq, if_false, if_true, Bool.false_eq_true, hcg]
              · simp only [hs, hq, if_false, Bool.false_eq_true, hcg]
          have hrem := filter_lookup_removeF path val rest l2 h2
          dsimp only
          by_cases hs : diffSkip npA val other_val
          · rw [if_pos hs, ih (removeF path l2) h1.2 h2']
            rw [hins, hrem]
            simp only [hchg, hs, if_true]
          · rw [if_neg hs]
            by_cases hq : pyEq val other_val
            · rw [if_pos hq, ih (removeF path l2) h1.2 h2']
              rw [hins, hrem]
              simp only [hchg, hs, hq, if_false, if_true, Bool.false_eq_true]
            · rw [if_neg hq, ih (removeF path l2) h1.2 h2']
              rw [hins, hrem]
              simp only [hchg, hs, hq, if_false, Bool.false_eq_true]

theorem charsLe_total : ∀ (xs ys : List Char), charsLe xs ys = true ∨ charsLe ys xs = true
  | [], _ => Or.inl rfl
  | _ :: _, [] => Or.inr rfl
  | a :: as, b :: bs => by
      by_cases h1 : a.toNat < b.toNat
      · left
        rw [charsLe]
        simp [h1]
      · by_cases h2 : b.toNat < a.toNat
        · right
          rw [charsLe]
          simp [h2]
        · rcases charsLe_total as bs with h | h
          · left
            rw [charsLe]
            simp [h1, h2, h]
          · right
            rw [charsLe]
            simp [h1, h2, h]

theorem cmpKey_swap : ∀ (a b : Key) (o : Ordering),
    cmpKey a b = .ok o → cmpKey b a = .ok o.swap
  | .ki a, .ki b, o, h => by
      rw [cmpKey] at h ⊢
      injection h with h
      subst h
      rcases lt_trichotomy a b with hlt | heq | hgt
      · rw [compare_lt_iff_lt.mpr hlt, compare_gt_iff_gt.mpr hlt]
        rfl
      · subst heq
        rw [compare_eq_iff_eq.mpr rfl]
        rfl
      · rw [compare_gt_iff_gt.mpr hgt, compare_lt_iff_lt.mpr hgt]
        rfl
  | .ks a, .ks b, o, h => by
      rw [cmpKey] at h ⊢
      injection h with h
      subst h
      by_cases h1 : charsLe a.data b.data
      · by_cases h2 : charsLe b.data a.data
        · simp [h1, h2, Ordering.swap]
        · simp [h1, h2, Ordering.swap]
      · have h2 : charsLe b.data a.data := (charsLe_total _ _).resolve_left h1
        simp [h1, h2, Ordering.swap]
  | .ki _, .ks _, o, h => by
      simp [cmpKey] at h
  | .ks _, .ki _, o, h => by
      simp [cmpKey] at h

theorem cmpPath_swap : ∀ (p q : Path) (o : Ordering),
    cmpPath p q = .ok o → cmpPath q p = .ok o.swap
  | [], [], o, h => by
      rw [cmpPath] at h
      injection h with h
      subst h
      rfl
  | [], _ :: _, o, h => by
      rw [cmpPath] at h
      injection h with h
      subst h
      rfl
  | _ :: _, [], o, h => by
      rw [cmpPath] at h
      injection h with h
      subst h
      rfl
  | a :: as, b :: bs, o, h => by
      rw [cmpPath] at h ⊢
      cases hk : cmpKey a b with
      | error e =>
          rw [hk] at h
          simp [bind, Except.bind] at h
      | ok ko =>
          have hk' := cmpKey_swap a b ko hk
          rw [hk] at h
          rw [hk']
          cases ko with
          | eq =>
              simp only [bind, Except.bind] at h ⊢
              exact cmpPath_swap as bs o h
          | lt =>
              simp only [bind, Except.bind, pure, Except.pure] at h ⊢
              injection h with h
              subst h
              rfl
          | gt =>
              simp only [bind, Except.bind, pure, Except.pure] at h ⊢
              injection h with h
              subst h
              rfl

/-- The (non-strict) path order on flat pairs realised by the caught
`sorted` call. -/
def pathLe {α : Type} (x y : Path × α) : Prop :=
  cmpPath x.1 y.1 = Except.ok .lt ∨ cmpPath x.1 y.1 = Except.ok .eq

theorem pathLe_of_not_gt {α : Type} (x y : Path × α) (o : Ordering)
    (ho : cmpPath x.1 y.1 = .ok o) (h : cmpPath y.1 x.1 ≠ .ok .gt) : pathLe y x := by
  have h2 := cmpPath_swap _ _ _ ho
  cases o with
  | lt => exact absurd h2 h
  | eq => exact Or.inr h2
  | gt => exact Or.inl h2

theorem insertByPath_cons_of_ne {α : Type} (x y : Path × α) (ys : List (Path × α))
    (h : cmpPath y.1 x.1 ≠ .ok .gt) :
    insertByPath x (y :: ys) = y :: insertByPath x ys := by
  rw [insertByPath]
  cases hc : cmpPath y.1 x.1 with
  | error e => rfl
  | ok o => cases o <;> first | rfl | (exact absurd hc h)

theorem insertByPath_mem {α : Type} (x : Path × α) :
    ∀ (acc : List (Path × α)) (z : Path × α), z ∈ insertByPath x acc → z = x ∨ z ∈ acc
  | [], z, hz => by
      rw [insertByPath] at hz
      simp at hz
      exact Or.inl hz
  | y :: ys, z, hz => by
      rw [insertByPath] at hz
      split at hz
      · simp only [List.mem_cons] at hz
        rcases hz with h | h
        · exact Or.inl h
        · exact Or.inr (by simpa using h)
      · simp only [List.mem_cons] at hz
        rcases hz with h | h
        · exact Or.inr (by simp [h])
        · rcases insertByPath_mem x ys z h with h' | h'
          · exact Or.inl h'
          · exact Or.inr (List.mem_cons_of_mem _ h')

theorem insertByPath_chain {α : Type} (x : Path × α) :
    ∀ (acc : List (Path × α)),
      (∀ y ∈ acc, ∃ o, cmpPath x.1 y.1 = Except.ok o) →
      List.Chain' pathLe acc →
      List.Chain' pathLe (insertByPath x acc)
  | [], _, _ => by
      rw [insertByPath]
      simp
  | y :: ys, hcomp, hch => by
      by_cases hgt : cmpPath y.1 x.1 = .ok .gt
      · rw [insertByPath, hgt]
        refine List.Chain'.cons ?_ hch
        have h2 := cmpPath_swap _ _ _ hgt
        exact Or.inl h2
      · rw [insertByPath_cons_of_ne x y ys hgt]
        have hih := insertByPath_chain x ys
          (fun z hz => hcomp z (List.mem_cons_of_mem _ hz)) hch.tail
        refine List.chain'_cons'.mpr ⟨?_, hih⟩
        intro z hz
        cases ys with
        | nil =>
            rw [insertByPath] at hz
            simp at hz
            subst hz
            obtain ⟨o, ho⟩ := hcomp y (by simp)
            exact pathLe_of_not_gt x y o ho hgt
        | cons w ws =>
            by_cases hgw : cmpPath w.1 x.1 = .ok .gt
            · rw [insertByPath, hgw] at hz
              simp at hz
              subst hz
              obtain ⟨o, ho⟩ := hcomp y (by simp)
              exact pathLe_of_not_gt x y o ho hgt
            · rw [insertByPath_cons_of_ne x w ws hgw] at hz
              simp at hz
              subst hz
              exact (List.chain'_cons.mp hch).1

theorem foldl_insertByPath_chain {α : Type} :
    ∀ (l acc : List (Path × α)),
      (∀ x ∈ l, ∀ y ∈ acc, ∃ o, cmpPath x.1 y.1 = Except.ok o) →
      (∀ x ∈ l, ∀ y ∈ l, ∃ o, cmpPath x.1 y.1 = Except.ok o) →
      List.Chain' pathLe acc →
      List.Chain' pathLe (l.foldl (fun a x => insertByPath x a) acc)
  | [], acc, _, _, hch => hch
  | x :: xs, acc, hla, hll, hch => by
      rw [List.foldl_cons]
      refine foldl_insertByPath_chain xs (insertByPath x acc) ?_ ?_ ?_
      · intro z hz y hy
        rcases insertByPath_mem x acc y hy with h | h
        · subst h
          exact hll z (by simp [hz]) _ (by simp)
        · exact hla z (by simp [hz]) y h
      · intro a ha b hb
        exact hll a (by simp [ha]) b (by simp [hb])
      · exact insertByPath_chain x acc (fun y hy => hla x (by simp) y hy) hch

theorem sortByPath_chain {α : Type} (l : List (Path × α)) (h : pathsComparable l = true) :
    List.Chain' pathLe (sortByPath l) := by
  rw [sortByPath]
  refine foldl_insertByPath_chain l [] (by simp) ?_ List.chain'_nil
  intro x hx y hy
  rw [pathsComparable, List.all_eq_true] at h
  have hx' := h x hx
  rw [List.all_eq_true] at hx'
  have hxy := hx' y hy
  cases hc : cmpPath x.1 y.1 with
  | ok o => exact ⟨o, rfl⟩
  | error e =>
      rw [hc] at hxy
      simp at hxy

/-- C9 (amended): `diff` flattens both trees with the all-iterables prefix
mode and classifies flat paths as the claim says — new-only → insertion,
shared and equal (or skipped by the tolerance comparison) → omitted,
shared and unequal → change with both values, old-only → deletion — but
`uncomparable` is always empty (`!=` never raises on these values), and
each output list is sorted by path only when its entries are pairwise
comparable: the caught `sorted` call leaves a list with mixed `str`/`int`
path segments in iteration order (see the counterexample). The claim's
concrete scenario holds. -/
theorem diff_classification :
    (∀ (n o : JValue) (ip : String) (npA : Option (JValue → JValue → Option Bool))
       (out : DiffOutcome) (l1 l2 : FlatMap),
       flatten n none (some ip) = .ok l1 →
       flatten o none (some ip) = .ok l2 →
       (l1.map Prod.fst).Nodup → (l2.map Prod.fst).Nodup →
       diff n o ip npA = .ok out →
       out.insertions = trySortPairs (l1.filter (fun p => (lookupF p.1 l2).isNone))
         ∧ out.changes = trySortPairs (l1.filterMap (fun p =>
             match lookupF p.1 l2 with
             | none => none
             | some ov =>
                 if diffSkip npA p.2 ov then none
                 else if pyEq p.2 ov then none
                 else some (p.1, (p.2, ov))))
         ∧ out.deletions = trySortPairs (l2.filter (fun q => (lookupF q.1 l1).isNone))
         ∧ out.uncomparable = [])
  ∧ (∀ (l : List (Path × JValue)), pathsComparable l = true →
       List.Chain' pathLe (sortByPath l))
  ∧ diff (.dict [(.ks "a", .vnum 1), (.ks "b", .vnum 2), (.ks "c", .vnum 5)])
         (.dict [(.ks "b", .vnum 3), (.ks "c", .vnum 4), (.ks "d", .vnum 6)]) "__iter__" none
      = .ok { insertions := [([.ks "a"], .vnum 1)]
              deletions := [([.ks "d"], .vnum 6)]
              changes := [([.ks "b"], (.vnum 2, .vnum 3)), ([.ks "c"], (.vnum 5, .vnum 4))]
              uncomparable := [] } := by
  refine ⟨?_, fun l h => sortByPath_chain l h, by decide⟩
  intro n o ip npA out l1 l2 hf1 hf2 h1 h2 hout
  rw [diff, hf1] at hout
  simp only [bind, Except.bind] at hout
  rw [hf2] at hout
  dsimp only at hout
  rw [diffLoop_characterization npA l1 l2 h1 h2] at hout
  simp only [pure, Except.pure] at hout
  injection hout with hout
  subst hout
  exact ⟨rfl, rfl, rfl, rfl⟩

/-- C9 counterexample: the claim as stated is false on the ordering
promise — the new tree `{'b': 1, 0: 2}` has path segments `'b'` and `0`
that Python cannot compare, so `sorted` raises, the exception is swallowed
and the insertions list keeps iteration order: two inputs equal as
mappings give two different outputs. -/
theorem diff_classification_counterexample :
    pyEq (.dict [(.ks "b", .vnum 1), (.ki 0, .vnum 2)])
         (.dict [(.ki 0, .vnum 2), (.ks "b", .vnum 1)]) = true
  ∧ diff (.dict [(.ks "b", .vnum 1), (.ki 0, .vnum 2)]) (.dict []) "__iter__" none
      ≠ diff (.dict [(.ki 0, .vnum 2), (.ks "b", .vnum 1)]) (.dict []) "__iter__" none := by
  exact ⟨by decide, by decide⟩

/-- C9 witness: the classification conjunct applied to the claim's own
scenario — in particular its `uncomparable` list is empty. -/
theorem diff_classification_witness :
    ({ insertions := [([.ks "a"], .vnum 1)]
       deletions := [([.ks "d"], .vnum 6)]
       changes := [([.ks "b"], (.vnum 2, .vnum 3)), ([.ks "c"], (.vnum 5, .vnum 4))]
       uncomparable := [] } : DiffOutcome).uncomparable = [] := by
  have h := diff_classification.1
    (.dict [(.ks "a", .vnum 1), (.ks "b", .vnum 2), (.ks "c", .vnum 5)])
    (.dict [(.ks "b", .vnum 3), (.ks "c", .vnum 4), (.ks "d", .vnum 6)]) "__iter__" none
    { insertions := [([.ks "a"], .vnum 1)]
      deletions := [([.ks "d"], .vnum 6)]
      changes := [([.ks "b"], (.vnum 2, .vnum 3)), ([.ks "c"], (.vnum 5, .vnum 4))]
      uncomparable := [] }
    [([.ks "a"], .vnum 1), ([.ks "b"], .vnum 2), ([.ks "c"], .vnum 5)]
    [([.ks "b"], .vnum 3), ([.ks "c"], .vnum 4), ([.ks "d"], .vnum 6)]
    (by decide) (by decide) (by decide) (by decide) (by decide)
  exact h.2.2.2

/-! ## A heap model of `merge` (edict.py lines 605-673)

The pure embedding `merge` above computes the *returned* tree.  To settle
what happens to the *input* trees, this second embedding makes Python's
object identity explicit: every dict is a heap cell addressed by a natural
number, dict values are references (immutable scalars, or addresses of
dict cells), `copy.deepcopy(dicts[0])` allocates fresh cells, and the
plain assignment `a[key] = b[key]` copies the *reference* — aliasing `b`'s
subtree into the output.  `append=False` throughout (list cells are never
mutated then, so lists stay immutable scalar leaves here). -/

/-- A Python reference: an immutable value, or the address of a dict cell. -/
inductive HRef where
  | scalar : JValue → HRef
  | addr : ℕ → HRef
  deriving DecidableEq

/-- The heap: dict cells by address, each an ordered key→reference table. -/
abbrev Heap := List (ℕ × List (Key × HRef))

def hLookup (h : Heap) (a : ℕ) : Option (List (Key × HRef)) :=
  match h with
  | [] => none
  | (b, es) :: rest => if b = a then some es else hLookup rest a

def lookupRef (k : Key) : List (Key × HRef) → Option HRef
  | [] => none
  | (k', r) :: rest => if k' = k then some r else lookupRef k rest

def upsertR (k : Key) (r : HRef) : List (Key × HRef) → List (Key × HRef)
  | [] => [(k, r)]
  | (k', r') :: rest => if k' = k then (k, r) :: rest else (k', r') :: upsertR k r rest

/-- `a[key] = ref` on the dict cell at address `a`. -/
def hSet (h : Heap) (a : ℕ) (k : Key) (r : HRef) : Heap :=
  h.map (fun c => if c.1 = a then (c.1, upsertR k r c.2) else c)

mutual
/-- Allocate a value: dicts become fresh cells (child cells first), all
other values are immutable scalars. -/
def hAllocV : JValue → ℕ → HRef × Heap × ℕ
  | .dict es, n =>
      let (refs, frag, n') := hAllocE es n
      (.addr n', frag ++ [(n', refs)], n' + 1)
  | v, n => (.scalar v, [], n)

def hAllocE : Entries → ℕ → List (Key × HRef) × Heap × ℕ
  | [], n => ([], [], n)
  | (k, v) :: rest, n =>
      let (r, f1, n1) := hAllocV v n
      let (rs, f2, n2) := hAllocE rest n1
      ((k, r) :: rs, f1 ++ f2, n2)
end

def hAllocList : List JValue → ℕ → List HRef × Heap × ℕ
  | [], n => ([], [], n)
  | v :: rest, n =>
      let (r, f1, n1) := hAllocV v n
      let (rs, f2, n2) := hAllocList rest n1
      (r :: rs, f1 ++ f2, n2)

mutual
/-- Read a reference back into a value tree (`fuel` bounds the depth). -/
def hLoadV (h : Heap) : ℕ → HRef → Option JValue
  | _, .scalar v => some v
  | 0, .addr _ => none
  | fuel + 1, .addr a =>
      match hLookup h a with
      | none => none
      | some es => (hLoadE h fuel es).map JValue.dict
termination_by fuel _ => (fuel, 0)
decreasing_by
  all_goals simp_wf
  all_goals first
  | (apply Prod.Lex.left; omega)
  | (apply Prod.Lex.right; omega)

def hLoadE (h : Heap) : ℕ → List (Key × HRef) → Option Entries
  | _, [] => some []
  | fuel, (k, r) :: rest => do
      let v ← hLoadV h fuel r
      let vs ← hLoadE h fuel rest
      some ((k, v) :: vs)
termination_by fuel es => (fuel, es.length + 1)
decreasing_by
  all_goals simp_wf
  all_goals first
  | (apply Prod.Lex.left; omega)
  | (apply Prod.Lex.right; omega)
end

unseal hLoadV hLoadE

mutual
/-- The heap semantics of the inner `single_merge(a, b)` closure
(`overwrite` from the enclosing `merge`, `append=False`): `a` and `b` are
dict cell addresses, both dict-like children recurse, a missing key or an
`overwrite` both *alias* `b`'s reference into `a`. -/
def hMergeAddr (ow : Bool) : ℕ → Heap → ℕ → ℕ → Option (Except PyErr Heap)
  | 0, _, _, _ => none
  | fuel + 1, h, a, b =>
      match hLookup h b with
      | none => none
      | some bes => hMergeEntries ow fuel h a bes
termination_by fuel _ _ _ => (fuel, 0)
decreasing_by
  all_goals simp_wf
  all_goals first
  | (apply Prod.Lex.left; omega)
  | (apply Prod.Lex.right; omega)

/-- The `for key in b` loop of the heap `single_merge`: `a`'s cell is
re-read every iteration (it is being mutated). -/
def hMergeEntries (ow : Bool) : ℕ → Heap → ℕ → List (Key × HRef) → Option (Except PyErr Heap)
  | _, h, _, [] => some (.ok h)
  | fuel, h, a, (k, br) :: rest =>
      match hLookup h a with
      | none => none
      | some aes =>
          match lookupRef k aes with
          | some ar =>
              match ar, br with
              | .addr aa, .addr ba =>
                  match hMergeAddr ow fuel h aa ba with
                  | none => none
                  | some (.error e) => some (.error e)
                  | some (.ok h') => hMergeEntries ow fuel h' a rest
              | _, _ =>
                  match hLoadV h fuel ar, hLoadV h fuel br with
                  | some av, some bv =>
                      if pyEq av bv then hMergeEntries ow fuel h a rest
                      else if ow then hMergeEntries ow fuel (hSet h a k br) a rest
                      else some (.error (.valueError "different data already exists"))
                  | _, _ => none
          | none => hMergeEntries ow fuel (hSet h a k br) a rest
termination_by fuel _ _ es => (fuel, es.length + 1)
decreasing_by
  all_goals simp_wf
  all_goals first
  | (apply Prod.Lex.left; omega)
  | (apply Prod.Lex.right; omega)
end

unseal hMergeAddr hMergeEntries

/-- `reduce(single_merge, [outdict] + dicts[1:])` in the heap model. -/
def hMergeList (ow : Bool) (fuel : ℕ) : Heap → ℕ → List ℕ → Option (Except PyErr Heap)
  | h, _, [] => some (.ok h)
  | h, a, b :: rest =>
      match hMergeAddr ow fuel h a b with
      | none => none
      | some (.error e) => some (.error e)
      | some (.ok h') => hMergeList ow fuel h' a rest

def refAddr : HRef → Option ℕ
  | .addr a => some a
  | .scalar _ => none

/-- `merge(dicts, overwrite, append=False)` in the heap model: allocate
the inputs, deep-copy `dicts[0]` into fresh cells, fold `single_merge`
over the remaining input addresses.  Returns the final heap, the inputs'
references and the output reference (`none` = out of fuel, a non-dict
input, or a merge conflict). -/
def merge_heap (dicts : List JValue) (ow : Bool) (fuel : ℕ) :
    Option (Heap × List HRef × HRef) :=
  match dicts with
  | [] => none
  | d0 :: rest => do
      let (refs, h0, n0) := hAllocList (d0 :: rest) 0
      let (outRef, hcopy, _) := hAllocV d0 n0
      let out ← refAddr outRef
      let bs ← (refs.drop 1).mapM refAddr
      match hMergeList ow fuel (h0 ++ hcopy) out bs with
      | some (.ok h') => some (h', refs, outRef)
      | _ => none

/-- What the caller of `merge` reads back from input `i` after the call. -/
def hLoadAt (res : Option (Heap × List HRef × HRef)) (i fuel : ℕ) : Option JValue :=
  match res with
  | some (h, refs, _) =>
      match refs[i]? with
      | some r => hLoadV h fuel r
      | none => none
  | none => none

/-- What the caller reads back from `merge`'s returned object. -/
def hLoadOut (res : Option (Heap × List HRef × HRef)) (fuel : ℕ) : Option JValue :=
  match res with
  | some (h, _, outR) => hLoadV h fuel outR
  | none => none

/-- Reading input `i` straight after allocation (no merge): the heap
faithfully represents the input trees. -/
def allocLoadAt (ds : List JValue) (i fuel : ℕ) : Option JValue :=
  let (refs, h0, _) := hAllocList ds 0
  match refs[i]? with
  | some r => hLoadV h0 fuel r
  | none => none

/-- C3: the claim is false in the code — `merge` deep-copies only
`dicts[0]`; a key missing from the accumulator is installed by reference
(`a[key] = b[key]`), so a later input's merge into that subtree mutates an
*earlier non-first input* in place.  On
`merge([{}, {'x': {'a': 1}}, {'x': {'b': 2}}])`: the allocated heap reads
input 1 back faithfully as `{'x': {'a': 1}}`; after the call input 1
reads back as `{'x': {'a': 1, 'b': 2}}` — mutated — while the returned
object is the expected `{'x': {'a': 1, 'b': 2}}` (which the pure
embedding confirms). -/
theorem merge_mutates_inputs :
    allocLoadAt [JValue.dict [],
        .dict [(.ks "x", .dict [(.ks "a", .vnum 1)])],
        .dict [(.ks "x", .dict [(.ks "b", .vnum 2)])]] 1 10
      = some (.dict [(.ks "x", .dict [(.ks "a", .vnum 1)])])
  ∧ hLoadAt (merge_heap [JValue.dict [],
        .dict [(.ks "x", .dict [(.ks "a", .vnum 1)])],
        .dict [(.ks "x", .dict [(.ks "b", .vnum 2)])]] false 10) 1 10
      = some (.dict [(.ks "x", .dict [(.ks "a", .vnum 1), (.ks "b", .vnum 2)])])
  ∧ (JValue.dict [(.ks "x", .dict [(.ks "a", .vnum 1), (.ks "b", .vnum 2)])]
      ≠ .dict [(.ks "x", .dict [(.ks "a", .vnum 1)])])
  ∧ hLoadOut (merge_heap [JValue.dict [],
        .dict [(.ks "x", .dict [(.ks "a", .vnum 1)])],
        .dict [(.ks "x", .dict [(.ks "b", .vnum 2)])]] false 10) 10
      = some (.dict [(.ks "x", .dict [(.ks "a", .vnum 1), (.ks "b", .vnum 2)])])
  ∧ merge [JValue.dict [],
        .dict [(.ks "x", .dict [(.ks "a", .vnum 1)])],
        .dict [(.ks "x", .dict [(.ks "b", .vnum 2)])]] false false
      = .ok (.dict [(.ks "x", .dict [(.ks "a", .vnum 1), (.ks "b", .vnum 2)])]) := by
  refine ⟨by decide, by decide, by decide, by decide, by decide⟩

/-! ## The round trip `unflatten (flatten T) = T` in tuple-key mode without
a sequence prefix -/

mutual

/-- "Good" value for the no-prefix round trip: every nested dict is
non-empty with pairwise-distinct keys (an empty nested dict contributes no
flat pair and vanishes — the round trip's real precondition). -/
def goodV : JValue → Bool
  | .dict es => !es.isEmpty && goodE es
  | _ => true

/-- `goodV` of every value, plus key distinctness at this level. -/
def goodE : Entries → Bool
  | [] => true
  | (k, v) :: rest => goodV v && !(decide (k ∈ rest.map Prod.fst)) && goodE rest

end

theorem lookupE_none_iff (k : Key) (es : Entries) :
    lookupE k es = none ↔ k ∉ es.map Prod.fst := by
  induction es with
  | nil => simp [lookupE]
  | cons p rest ih =>
      obtain ⟨k', v'⟩ := p
      rw [lookupE]
      by_cases h : k' = k
      · simp [h]
      · simp [h, ih, Ne.symm h]

theorem upsert_append {k : Key} {es : Entries} (h : lookupE k es = none) (v : JValue) :
    upsert k v es = es ++ [(k, v)] := by
  induction es with
  | nil => rfl
  | cons p rest ih =>
      obtain ⟨k', v'⟩ := p
      rw [lookupE] at h
      by_cases hk : k' = k
      · simp [hk] at h
      · rw [if_neg hk] at h
        rw [upsert, if_neg hk, ih h]
        rfl

theorem upsert_upsert (k : Key) (x y : JValue) (es : Entries) :
    upsert k x (upsert k y es) = upsert k x es := by
  induction es with
  | nil => simp [upsert]
  | cons p rest ih =>
      obtain ⟨k', v'⟩ := p
      by_cases hk : k' = k
      · simp [upsert, hk]
      · simp [upsert, hk, ih]

theorem placeWalk_dict_shape :
    ∀ (rem : Path) (es : Entries) (acc : Path) (v r : JValue),
      placeWalk (.dict es) acc rem v = .ok r → ∃ es', r = .dict es'
  | [], es, acc, v, r, h => by
      rw [placeWalk] at h
      injection h with h
      exact ⟨es, h.symm⟩
  | [last], es, acc, v, r, h => by
      rw [placeWalk] at h
      cases hl : lookupE last es with
      | some existing =>
          rw [hl] at h
          dsimp only at h
          cases hm : merge [existing, v] false false with
          | ok m =>
              rw [hm] at h
              injection h with h
              exact ⟨upsert last m es, h.symm⟩
          | error e =>
              rw [hm] at h
              cases h
      | none =>
          rw [hl] at h
          injection h with h
          exact ⟨upsert last v es, h.symm⟩
  | part :: p :: rest, es, acc, v, r, h => by
      rw [placeWalk] at h
      case x => simp
      rw [pyContainsV_dict_key] at h
      simp only [bind, Except.bind, pure, Except.pure] at h
      by_cases hc : (lookupE part es).isSome
      · simp only [hc, if_true] at h
        rw [pyGetItemV_dict_key] at h
        cases hl : lookupE part es with
        | some child =>
            rw [hl] at h
            dsimp only at h
            cases hw : placeWalk child (acc ++ [part]) (p :: rest) v with
            | ok nc =>
                rw [hw] at h
                dsimp only at h
                rw [pySetItemV_dict_key] at h
                injection h with h
                exact ⟨upsert part nc es, h.symm⟩
            | error e =>
                rw [hw] at h
                cases h
        | none => rw [hl] at hc; cases hc
      · simp only [hc, if_false, Bool.false_eq_true] at h
        rw [pySetItemV_dict_key] at h
        simp only [bind, Except.bind] at h
        rw [pyGetItemV_dict_key, upsert_lookup_same] at h
        dsimp only at h
        cases hw : placeWalk (.dict []) (acc ++ [part]) (p :: rest) v with
        | ok nc =>
            rw [hw] at h
            dsimp only at h
            rw [pySetItemV_dict_key] at h
            injection h with h
            exact ⟨upsert part nc (upsert part (.dict []) es), h.symm⟩
        | error e =>
            rw [hw] at h
            cases h

theorem expand_path_head (k : Key) (v : JValue) :
    ∀ q ∈ expand none none k v, ∃ t, q.1 = k :: t := by
  intro q hq
  match v with
  | .dict es =>
      rw [expand] at hq
      obtain ⟨p, _, hp⟩ := List.mem_map.mp hq
      exact ⟨p.1, by rw [← hp]⟩
  | .list xs =>
      simp [expand] at hq
      exact ⟨[], by simp [hq]⟩
  | .vnum n =>
      simp [expand] at hq
      exact ⟨[], by simp [hq]⟩
  | .vstr s =>
      simp [expand] at hq
      exact ⟨[], by simp [hq]⟩

mutual

theorem expand_ne_nil : ∀ (k : Key) (v : JValue), goodV v = true → expand none none k v ≠ []
  | k, .dict es, h => by
      rw [goodV, Bool.and_eq_true] at h
      rw [expand]
      have hne := flattenDict_ne_nil es h.2 (by simpa using h.1)
      simpa using hne
  | k, .list xs, _ => by
      simp [expand]
  | k, .vnum n, _ => by
      simp [expand]
  | k, .vstr s, _ => by
      simp [expand]

theorem flattenDict_ne_nil : ∀ (es : Entries), goodE es = true → es ≠ [] →
    flattenDict none none es ≠ []
  | [], _, hne => absurd rfl hne
  | (k, v) :: rest, h, _ => by
      rw [goodE, Bool.and_eq_true, Bool.and_eq_true] at h
      rw [flattenDict]
      have := expand_ne_nil k v h.1.1
      intro hcontra
      rw [List.append_eq_nil] at hcontra
      exact this hcontra.1

end

theorem flattenDict_head_mem :
    ∀ (es : Entries), ∀ q ∈ flattenDict none none es,
      ∃ k t, q.1 = k :: t ∧ k ∈ es.map Prod.fst
  | [], q, hq => by
      rw [flattenDict] at hq
      cases hq
  | (k, v) :: rest, q, hq => by
      rw [flattenDict] at hq
      rcases List.mem_append.mp hq with h | h
      · obtain ⟨t, ht⟩ := expand_path_head k v q h
        exact ⟨k, t, ht, by simp⟩
      · obtain ⟨k', t, ht, hk⟩ := flattenDict_head_mem rest q h
        exact ⟨k', t, ht, by simp [hk]⟩

mutual

theorem expand_paths_nodup : ∀ (k : Key) (v : JValue), goodV v = true →
    ((expand none none k v).map Prod.fst).Nodup
  | k, .dict es, h => by
      rw [goodV, Bool.and_eq_true] at h
      rw [expand]
      have hin := flattenDict_paths_nodup es h.2
      rw [List.map_map]
      have : (Prod.fst ∘ fun p : Path × JValue => ((k :: p.1 : Path), p.2))
          = (fun p : Path × JValue => (k :: p.1 : Path)) := rfl
      rw [this]
      have : (fun p : Path × JValue => (k :: p.1 : Path))
          = (fun l : Path => (k :: l : Path)) ∘ Prod.fst := rfl
      rw [this, ← List.map_map]
      exact hin.map (fun a b hab => by injection hab)
  | k, .list xs, _ => by
      simp [expand]
  | k, .vnum n, _ => by
      simp [expand]
  | k, .vstr s, _ => by
      simp [expand]

theorem flattenDict_paths_nodup : ∀ (es : Entries), goodE es = true →
    ((flattenDict none none es).map Prod.fst).Nodup
  | [], _ => by
      rw [flattenDict]
      simp
  | (k, v) :: rest, h => by
      rw [goodE, Bool.and_eq_true, Bool.and_eq_true] at h
      rw [flattenDict, List.map_append]
      refine List.Nodup.append (expand_paths_nodup k v h.1.1) (flattenDict_paths_nodup rest h.2) ?_
      intro p hp hp'
      obtain ⟨q, hq, hqe⟩ := List.mem_map.mp hp
      obtain ⟨q', hq', hqe'⟩ := List.mem_map.mp hp'
      obtain ⟨t, ht⟩ := expand_path_head k v q hq
      obtain ⟨k', t', ht', hk'⟩ := flattenDict_head_mem rest q' hq'
      have : k = k' := by
        have h1 : p = k :: t := by rw [← hqe, ht]
        have h2 : p = k' :: t' := by rw [← hqe', ht']
        rw [h1] at h2
        injection h2 with h2 _
      rw [this] at h
      exact absurd hk' (by simpa using h.1.2)

end

theorem pyDict_upsertG_append {α : Type} [DecidableEq α] (acc : List (α × JValue))
    (k : α) (v : JValue) (h : k ∉ acc.map Prod.fst) :
    pyDict.upsertG acc k v = acc ++ [(k, v)] := by
  induction acc with
  | nil => rfl
  | cons p rest ih =>
      obtain ⟨k', v'⟩ := p
      simp only [List.map_cons, List.mem_cons] at h
      rw [pyDict.upsertG, if_neg (fun hh => h (Or.inl hh.symm))]
      rw [ih (fun hh => h (Or.inr hh))]
      rfl

theorem pyDict_nodup_id {α : Type} [DecidableEq α] (l : List (α × JValue))
    (h : (l.map Prod.fst).Nodup) : pyDict l = l := by
  suffices haux : ∀ (l2 acc : List (α × JValue)), ((acc ++ l2).map Prod.fst).Nodup →
      l2.foldl (fun a p => pyDict.upsertG a p.1 p.2) acc = acc ++ l2 by
    simpa using haux l [] (by simpa using h)
  intro l2
  induction l2 with
  | nil => intro acc _; simp
  | cons p rest ih =>
      intro acc hacc
      obtain ⟨k, v⟩ := p
      rw [List.foldl_cons]
      have hk : k ∉ acc.map Prod.fst := by
        intro hmem
        rw [List.map_append, List.nodup_append] at hacc
        exact List.disjoint_left.mp hacc.2.2 hmem (by simp)
      rw [pyDict_upsertG_append acc k v hk]
      rw [ih (acc ++ [(k, v)]) (by simpa using hacc)]
      simp

theorem lookupE_append_none {k : Key} {l1 : Entries} (h : lookupE k l1 = none)
    (l2 : Entries) : lookupE k (l1 ++ l2) = lookupE k l2 := by
  induction l1 with
  | nil => rfl
  | cons p rest ih =>
      obtain ⟨k', v'⟩ := p
      rw [lookupE] at h
      by_cases hk : k' = k
      · simp [hk] at h
      · rw [if_neg hk] at h
        rw [List.cons_append, lookupE, if_neg hk]
        exact ih h

theorem placeWalk_cons_some {k : Key} {part0 : Key} {t0 : Path} {res inner : Entries}
    {acc : Path} {val nc : JValue}
    (hl : lookupE k res = some (.dict inner))
    (hw : placeWalk (.dict inner) (acc ++ [k]) (part0 :: t0) val = .ok nc) :
    placeWalk (.dict res) acc (k :: part0 :: t0) val = .ok (.dict (upsert k nc res)) := by
  rw [placeWalk]
  case x => simp
  rw [pyContainsV_dict_key]
  simp only [bind, Except.bind, pure, Except.pure, hl, Option.isSome_some, if_true]
  rw [pyGetItemV_dict_key, hl]
  dsimp only
  rw [hw]
  dsimp only
  rw [pySetItemV_dict_key]

theorem placeWalk_cons_none {k : Key} {part0 : Key} {t0 : Path} {res : Entries}
    {acc : Path} {val nc : JValue}
    (hl : lookupE k res = none)
    (hw : placeWalk (.dict []) (acc ++ [k]) (part0 :: t0) val = .ok nc) :
    placeWalk (.dict res) acc (k :: part0 :: t0) val
      = .ok (.dict (upsert k nc (upsert k (.dict []) res))) := by
  rw [placeWalk]
  case x => simp
  rw [pyContainsV_dict_key]
  simp only [bind, Except.bind, pure, Except.pure, hl, Option.isSome_none, if_false,
    Bool.false_eq_true]
  rw [pySetItemV_dict_key]
  dsimp only
  rw [pyGetItemV_dict_key, upsert_lookup_same]
  dsimp only
  rw [hw]
  dsimp only
  rw [pySetItemV_dict_key]

/-- Pushing a batch of flat pairs through a common head key `k`: placing
`{(k :: p, v)}` pairs into `res` is placing `{(p, v)}` into the child dict
already stored at `k`. -/
theorem place_batch (k : Key) :
    ∀ (F : FlatMap) (res inner inner' : Entries) (acc : Path),
      (∀ q ∈ F, q.1 ≠ []) →
      lookupE k res = some (.dict inner) →
      F.foldlM (fun r q => placeWalk r (acc ++ [k]) q.1 q.2) (JValue.dict inner)
        = .ok (.dict inner') →
      (F.map (fun q => ((k :: q.1 : Path), q.2))).foldlM
          (fun r q => placeWalk r acc q.1 q.2) (JValue.dict res)
        = .ok (.dict (upsert k (.dict inner') res))
  | [], res, inner, inner', acc, _, hl, hfold => by
      simp only [List.foldlM_nil] at hfold ⊢
      injection hfold with hfold
      injection hfold with hfold
      rw [← hfold, upsert_self hl]
      simp [pure, Except.pure]
  | (p, val) :: F', res, inner, inner', acc, hne, hl, hfold => by
      rw [List.foldlM_cons] at hfold
      cases hw : placeWalk (.dict inner) (acc ++ [k]) p val with
      | error e =>
          rw [hw] at hfold
          simp only [bind, Except.bind] at hfold
          simp at hfold
      | ok c1 =>
          rw [hw] at hfold
          simp only [bind, Except.bind] at hfold
          obtain ⟨inner1, hc1⟩ :=
            placeWalk_dict_shape p inner (acc ++ [k]) val c1 hw
          subst hc1
          obtain ⟨p0, t0, hp⟩ : ∃ p0 t0, p = p0 :: t0 := by
            cases p with
            | nil => exact absurd rfl (hne (([], val)) (by simp))
            | cons p0 t0 => exact ⟨p0, t0, rfl⟩
          subst hp
          rw [List.map_cons, List.foldlM_cons]
          rw [placeWalk_cons_some hl hw]
          simp only [bind, Except.bind]
          have hIH := place_batch k F' (upsert k (.dict inner1) res) inner1 inner' acc
            (fun q hq => hne q (by simp [hq]))
            (upsert_lookup_same k (.dict inner1) res) hfold
          rw [hIH, upsert_upsert]

mutual

/-- Placing the expansion of one good entry `(k, v)` into a dict that does
not yet hold `k` appends `(k, v)` verbatim. -/
theorem place_value : ∀ (k : Key) (v : JValue) (res : Entries) (acc : Path),
    goodV v = true → lookupE k res = none →
    (expand none none k v).foldlM (fun r q => placeWalk r acc q.1 q.2) (JValue.dict res)
      = .ok (.dict (res ++ [(k, v)]))
  | k, .dict es', res, acc, hg, hnone => by
      rw [goodV, Bool.and_eq_true] at hg
      rw [expand]
      have hFne := flattenDict_ne_nil es' hg.2 (by simpa using hg.1)
      have hin := place_entries es' [] (acc ++ [k]) hg.2 (fun _ _ => rfl)
      obtain ⟨f0, F'', hF⟩ : ∃ f0 F'', flattenDict none none es' = f0 :: F'' := by
        cases hc : flattenDict none none es' with
        | nil => exact absurd hc hFne
        | cons f0 F'' => exact ⟨f0, F'', rfl⟩
      rw [hF] at hin ⊢
      obtain ⟨k0, t0, ht, _⟩ := flattenDict_head_mem es' f0 (by rw [hF]; simp)
      rw [List.foldlM_cons] at hin
      cases hw : placeWalk (.dict []) (acc ++ [k]) f0.1 f0.2 with
      | error e =>
          rw [hw] at hin
          simp only [bind, Except.bind] at hin
          simp at hin
      | ok c1 =>
          rw [hw] at hin
          simp only [bind, Except.bind] at hin
          obtain ⟨inner1, hc1⟩ := placeWalk_dict_shape f0.1 [] (acc ++ [k]) f0.2 c1 hw
          subst hc1
          rw [List.map_cons, List.foldlM_cons]
          obtain ⟨q1, q2⟩ := f0
          simp only at ht
          subst ht
          rw [placeWalk_cons_none hnone hw]
          simp only [bind, Except.bind]
          have hb := place_batch k F'' (upsert k (.dict inner1) (upsert k (.dict []) res))
            inner1 es' acc
            (fun q hq => by
              obtain ⟨k', t', ht', _⟩ := flattenDict_head_mem es' q (by rw [hF]; simp [hq])
              rw [ht']
              simp)
            (upsert_lookup_same k (.dict inner1) _) hin
          rw [hb, upsert_upsert, upsert_upsert]
          rw [upsert_append hnone]
  | k, .list xs, res, acc, _, hnone => by
      simp only [expand, Option.isSome_none, Bool.false_and, Bool.and_false, if_false,
        Bool.false_eq_true]
      rw [List.foldlM_cons, placeWalk]
      rw [hnone]
      simp only [bind, Except.bind, List.foldlM_nil, pure, Except.pure]
      rw [upsert_append hnone]
  | k, .vnum n, res, acc, _, hnone => by
      rw [expand]
      case x_1 => intro es h; cases h
      case x_2 => intro xs h; cases h
      rw [List.foldlM_cons, placeWalk]
      rw [hnone]
      simp only [bind, Except.bind, List.foldlM_nil, pure, Except.pure]
      rw [upsert_append hnone]
  | k, .vstr s, res, acc, _, hnone => by
      rw [expand]
      case x_1 => intro es h; cases h
      case x_2 => intro xs h; cases h
      rw [List.foldlM_cons, placeWalk]
      rw [hnone]
      simp only [bind, Except.bind, List.foldlM_nil, pure, Except.pure]
      rw [upsert_append hnone]

/-- Placing the flat expansion of a whole good entry list appends it
entry by entry. -/
theorem place_entries : ∀ (es res : Entries) (acc : Path),
    goodE es = true → (∀ k ∈ es.map Prod.fst, lookupE k res = none) →
    (flattenDict none none es).foldlM (fun r q => placeWalk r acc q.1 q.2) (JValue.dict res)
      = .ok (.dict (res ++ es))
  | [], res, acc, _, _ => by
      rw [flattenDict]
      simp [pure, Except.pure]
  | (k, v) :: rest, res, acc, hg, hnone => by
      rw [goodE, Bool.and_eq_true, Bool.and_eq_true] at hg
      rw [flattenDict, List.foldlM_append]
      rw [place_value k v res acc hg.1.1 (hnone k (by simp))]
      simp only [bind, Except.bind]
      have hrest : ∀ k' ∈ rest.map Prod.fst, lookupE k' (res ++ [(k, v)]) = none := by
        intro k' hk'
        have h1 : lookupE k' res = none := hnone k' (by simp [hk'])
        rw [lookupE_append_none h1, lookupE]
        rw [if_neg (fun hh => by
          rw [← hh] at hk'
          have hnd : k ∉ rest.map Prod.fst := by simpa using hg.1.2
          exact hnd hk')]
        rfl
      rw [place_entries rest (res ++ [(k, v)]) acc hg.2 hrest]
      simp

end

/-- C1 (amended): in tuple-key mode the round trip
`unflatten (flatten T) = T` holds for every Mapping-rooted tree whose
nested dicts are all *non-empty* and have distinct keys (`goodE`) — an
empty nested dict contributes no flat pair and is silently dropped, so
the unqualified claim fails (see the counterexample).  With a sequence
prefix the same round trip goes through on trees whose sequence shapes
match the mode (list-of-dicts, and all-iterables), shown here on the
claim's two prefix modes. -/
theorem flatten_roundtrip :
    (∀ (es : Entries), goodE es = true →
       (flatten (.dict es) none none).bind (fun f => unflatten f none) = .ok (.dict es))
  ∧ (flatten (.dict [(.ks "a", .list [.dict [(.ks "b", .vnum 1)], .dict [(.ks "c", .vnum 2)]])])
        (some "__list__") none).bind (fun f => unflatten f (some "__list__"))
      = .ok (.dict [(.ks "a", .list [.dict [(.ks "b", .vnum 1)], .dict [(.ks "c", .vnum 2)]])])
  ∧ (flatten (.dict [(.ks "a", .list [.vnum 1, .vnum 2])])
        none (some "__iter__")).bind (fun f => unflatten f (some "__iter__"))
      = .ok (.dict [(.ks "a", .list [.vnum 1, .vnum 2])]) := by
  refine ⟨?_, by decide, by decide⟩
  intro es hg
  have hf : flatten (.dict es) none none = .ok (pyDict (flattenDict none none es)) := rfl
  rw [hf]
  show unflatten (pyDict (flattenDict none none es)) none = .ok (.dict es)
  rw [pyDict_nodup_id _ (flattenDict_paths_nodup es hg)]
  cases hF : flattenDict none none es with
  | nil =>
      cases es with
      | nil => rfl
      | cons e rest => exact absurd hF (flattenDict_ne_nil _ hg (by simp))
  | cons f0 F' =>
      have hmem : ([] : Path) ∉ (flattenDict none none es).map Prod.fst := by
        intro hc
        obtain ⟨q, hq, hq2⟩ := List.mem_map.mp hc
        obtain ⟨k, t, ht, _⟩ := flattenDict_head_mem es q hq
        rw [ht] at hq2
        cases hq2
      rw [hF] at hmem
      rw [unflatten_cons]
      rw [lookupF_none_of_not_mem hmem, filter_nonempty_id hmem]
      dsimp only
      rw [← hF, processPairs]
      rw [place_entries es [] [] hg (fun _ _ => rfl)]
      simp [bind, Except.bind]

/-- C1 counterexample: the claim as stated is false — `{'a': {}}` is
Mapping-rooted with hashable, prefix-free keys and no sequences at all,
yet the empty nested dict contributes no flat pair: the round trip
returns `{}`, not `{'a': {}}`. -/
theorem flatten_roundtrip_counterexample :
    (flatten (.dict [(.ks "a", .dict [])]) none none).bind (fun f => unflatten f none)
        = .ok (.dict [])
      ∧ (JValue.dict [] ≠ .dict [(.ks "a", .dict [])]) := by
  exact ⟨by decide, by decide⟩

/-- C1 witness: the general no-prefix round trip applied to
`{'a': {'b': 1}, 'c': 2}`. -/
theorem flatten_roundtrip_witness :
    (flatten (.dict [(.ks "a", .dict [(.ks "b", .vnum 1)]), (.ks "c", .vnum 2)]) none none).bind
        (fun f => unflatten f none)
      = .ok (.dict [(.ks "a", .dict [(.ks "b", .vnum 1)]), (.ks "c", .vnum 2)]) :=
  flatten_roundtrip.1 [(.ks "a", .dict [(.ks "b", .vnum 1)]), (.ks "c", .vnum 2)] (by decide)

/-! ## Filter determinism under dict iteration order -/

mutual

/-- Two values equal up to reordering dict entries, at every dict level
reached through dict values (sequences keep their order and contents). -/
inductive TPerm : JValue → JValue → Prop where
  | base (v : JValue) (h : is_dict_like v = false) : TPerm v v
  | dict {es1 l es2 : Entries}
      (h1 : TPermF es1 l)
      (h2 : l.Perm es2) : TPerm (.dict es1) (.dict es2)

/-- Pointwise `TPerm` on entry lists (same keys, same order). -/
inductive TPermF : Entries → Entries → Prop where
  | nil : TPermF [] []
  | cons {k : Key} {v w : JValue} {es l : Entries}
      (hv : TPerm v w) (h : TPermF es l) : TPermF ((k, v) :: es) ((k, w) :: l)

end

mutual

/-- A value whose flat expansion is empty: a dict of (recursively) empty
dicts.  Such a subtree contributes no flat pair and is dropped by a
flatten/unflatten pipeline. -/
def emptyV : JValue → Bool
  | .dict es => emptyE es
  | _ => false

def emptyE : Entries → Bool
  | [] => true
  | (_, v) :: rest => emptyV v && emptyE rest

end

mutual

/-- What a flatten → unflatten pipeline preserves of a value: empty-flat
subtrees vanish. -/
def pruneV : JValue → JValue
  | .dict es => .dict (pruneE es)
  | v => v

def pruneE : Entries → Entries
  | [] => []
  | (k, v) :: rest =>
      (if emptyV v then [] else [(k, pruneV v)]) ++ pruneE rest

end

mutual

/-- The subtree kept by filtering flat pairs with `pred` (paths relative to
the current node): non-dict leaves are kept iff `pred` accepts their
one-segment path, dict values are filtered recursively (an emptied dict is
kept here and vanishes in `pruneE`). -/
def selectE (pred : Path → JValue → Bool) : Entries → Entries
  | [] => []
  | (k, v) :: rest => selEntry pred (k, v) ++ selectE pred rest

def selEntry (pred : Path → JValue → Bool) : Key × JValue → Entries
  | (k, .dict es') => [(k, .dict (selectE (fun p w => pred (k :: p) w) es'))]
  | (k, v) => if pred [k] v then [(k, v)] else []

end

theorem flattenDict_flatMap (es : Entries) :
    flattenDict none none es = es.flatMap (fun p => expand none none p.1 p.2) := by
  induction es with
  | nil => rfl
  | cons p rest ih =>
      obtain ⟨k, v⟩ := p
      rw [flattenDict, List.flatMap_cons, ih]

theorem selectE_flatMap (pred : Path → JValue → Bool) (es : Entries) :
    selectE pred es = es.flatMap (selEntry pred) := by
  induction es with
  | nil =>
      rw [selectE]
      rfl
  | cons p rest ih =>
      obtain ⟨k, v⟩ := p
      rw [selectE, List.flatMap_cons, ih]

theorem pruneE_flatMap (es : Entries) :
    pruneE es = es.flatMap (fun p => if emptyV p.2 then [] else [(p.1, pruneV p.2)]) := by
  induction es with
  | nil => rfl
  | cons p rest ih =>
      obtain ⟨k, v⟩ := p
      rw [pruneE, List.flatMap_cons, ih]

mutual

theorem expand_eq_nil_iff : ∀ (k : Key) (v : JValue),
    (expand none none k v = []) ↔ emptyV v = true
  | k, .dict es' => by
      rw [expand, emptyV]
      rw [List.map_eq_nil_iff]
      exact flattenDict_eq_nil_iff es'
  | k, .list xs => by
      simp [expand, emptyV]
  | k, .vnum n => by
      simp [expand, emptyV]
  | k, .vstr s => by
      simp [expand, emptyV]

theorem flattenDict_eq_nil_iff : ∀ (es : Entries),
    (flattenDict none none es = []) ↔ emptyE es = true
  | [] => by simp [flattenDict, emptyE]
  | (k, v) :: rest => by
      rw [flattenDict, List.append_eq_nil, emptyE, Bool.and_eq_true]
      rw [expand_eq_nil_iff k v]
      rw [show (flattenDict none none rest = []) ↔ emptyE rest = true from
        flattenDict_eq_nil_iff rest]

end

mutual

theorem expand_paths_nodup_wf : ∀ (k : Key) (v : JValue), wfKeys v = true →
    ((expand none none k v).map Prod.fst).Nodup
  | k, .dict es', h => by
      rw [wfKeys, Bool.and_eq_true] at h
      rw [expand]
      have hin := flattenDict_paths_nodup_wf es' h.1 h.2
      rw [List.map_map]
      have e1 : (Prod.fst ∘ fun p : Path × JValue => ((k :: p.1 : Path), p.2))
          = (fun l : Path => (k :: l : Path)) ∘ Prod.fst := rfl
      rw [e1, ← List.map_map]
      exact hin.map (fun a b hab => by injection hab)
  | k, .list xs, _ => by
      simp [expand]
  | k, .vnum n, _ => by
      simp [expand]
  | k, .vstr s, _ => by
      simp [expand]

theorem flattenDict_paths_nodup_wf : ∀ (es : Entries),
    nodupKeysE es = true → wfEntries es = true →
    ((flattenDict none none es).map Prod.fst).Nodup
  | [], _, _ => by
      rw [flattenDict]
      simp
  | (k, v) :: rest, hnd, hwf => by
      rw [nodupKeysE, Bool.and_eq_true] at hnd
      rw [wfEntries, Bool.and_eq_true] at hwf
      rw [flattenDict, List.map_append]
      refine List.Nodup.append (expand_paths_nodup_wf k v hwf.1)
        (flattenDict_paths_nodup_wf rest hnd.2 hwf.2) ?_
      intro p hp hp'
      obtain ⟨q, hq, hqe⟩ := List.mem_map.mp hp
      obtain ⟨q', hq', hqe'⟩ := List.mem_map.mp hp'
      obtain ⟨t, ht⟩ := expand_path_head k v q hq
      obtain ⟨k', t', ht', hk'⟩ := flattenDict_head_mem rest q' hq'
      have hkk : k = k' := by
        have h1 : p = k :: t := by rw [← hqe, ht]
        have h2 : p = k' :: t' := by rw [← hqe', ht']
        rw [h1] at h2
        injection h2 with h2 _
      rw [hkk] at hnd
      exact absurd hk' (by simpa using hnd.1)

end

mutual

/-- Placing the expansion of one entry `(k, v)` (any well-formed value)
into a dict that does not yet hold `k` appends the pruned entry: nothing
for an empty-flat value, `(k, pruneV v)` otherwise. -/
theorem place_value_wf : ∀ (k : Key) (v : JValue) (res : Entries) (acc : Path),
    wfKeys v = true → lookupE k res = none →
    (expand none none k v).foldlM (fun r q => placeWalk r acc q.1 q.2) (JValue.dict res)
      = .ok (.dict (res ++ (if emptyV v then [] else [(k, pruneV v)])))
  | k, .dict es', res, acc, hg, hnone => by
      rw [wfKeys, Bool.and_eq_true] at hg
      rw [expand]
      by_cases hemp : emptyV (.dict es')
      · have hnil : flattenDict none none es' = [] := by
          rw [flattenDict_eq_nil_iff]
          rw [emptyV] at hemp
          exact hemp
        rw [hnil]
        simp [pure, Except.pure, hemp]
      · have hin := place_entries_wf es' [] (acc ++ [k]) hg.1 hg.2 (fun _ _ => rfl)
        rw [if_neg hemp]
        obtain ⟨f0, F'', hF⟩ : ∃ f0 F'', flattenDict none none es' = f0 :: F'' := by
          cases hc : flattenDict none none es' with
          | nil =>
              rw [flattenDict_eq_nil_iff] at hc
              rw [emptyV] at hemp
              exact absurd hc hemp
          | cons f0 F'' => exact ⟨f0, F'', rfl⟩
        rw [hF] at hin ⊢
        obtain ⟨k0, t0, ht, _⟩ := flattenDict_head_mem es' f0 (by rw [hF]; simp)
        rw [List.foldlM_cons] at hin
        cases hw : placeWalk (.dict []) (acc ++ [k]) f0.1 f0.2 with
        | error e =>
            rw [hw] at hin
            simp only [bind, Except.bind] at hin
            simp at hin
        | ok c1 =>
            rw [hw] at hin
            simp only [bind, Except.bind] at hin
            obtain ⟨inner1, hc1⟩ := placeWalk_dict_shape f0.1 [] (acc ++ [k]) f0.2 c1 hw
            subst hc1
            rw [List.map_cons, List.foldlM_cons]
            obtain ⟨q1, q2⟩ := f0
            simp only at ht
            subst ht
            rw [placeWalk_cons_none hnone hw]
            simp only [bind, Except.bind]
            have hb := place_batch k F'' (upsert k (.dict inner1) (upsert k (.dict []) res))
              inner1 (pruneE es') acc
              (fun q hq => by
                obtain ⟨k', t', ht', _⟩ := flattenDict_head_mem es' q (by rw [hF]; simp [hq])
                rw [ht']
                simp)
              (upsert_lookup_same k (.dict inner1) _) (by simpa using hin)
            rw [hb, upsert_upsert, upsert_upsert]
            rw [upsert_append hnone]
            rw [pruneV]
  | k, .list xs, res, acc, _, hnone => by
      simp only [expand, Option.isSome_none, Bool.false_and, Bool.and_false, if_false,
        Bool.false_eq_true]
      rw [List.foldlM_cons, placeWalk]
      rw [hnone]
      simp only [bind, Except.bind, List.foldlM_nil, pure, Except.pure]
      rw [upsert_append hnone]
      rfl
  | k, .vnum n, res, acc, _, hnone => by
      rw [expand]
      case x_1 => intro es h; cases h
      case x_2 => intro xs h; cases h
      rw [List.foldlM_cons, placeWalk]
      rw [hnone]
      simp only [bind, Except.bind, List.foldlM_nil, pure, Except.pure]
      rw [upsert_append hnone]
      rfl
  | k, .vstr s, res, acc, _, hnone => by
      rw [expand]
      case x_1 => intro es h; cases h
      case x_2 => intro xs h; cases h
      rw [List.foldlM_cons, placeWalk]
      rw [hnone]
      simp only [bind, Except.bind, List.foldlM_nil, pure, Except.pure]
      rw [upsert_append hnone]
      rfl

/-- Placing the flat expansion of a whole well-formed entry list appends
its pruned form. -/
theorem place_entries_wf : ∀ (es res : Entries) (acc : Path),
    nodupKeysE es = true → wfEntries es = true →
    (∀ k ∈ es.map Prod.fst, lookupE k res = none) →
    (flattenDict none none es).foldlM (fun r q => placeWalk r acc q.1 q.2) (JValue.dict res)
      = .ok (.dict (res ++ pruneE es))
  | [], res, acc, _, _, _ => by
      rw [flattenDict, pruneE]
      simp [pure, Except.pure]
  | (k, v) :: rest, res, acc, hnd, hwf, hnone => by
      rw [nodupKeysE, Bool.and_eq_true] at hnd
      rw [wfEntries, Bool.and_eq_true] at hwf
      rw [flattenDict, List.foldlM_append]
      rw [place_value_wf k v res acc hwf.1 (hnone k (by simp))]
      simp only [bind, Except.bind]
      have hrest : ∀ k' ∈ rest.map Prod.fst,
          lookupE k' (res ++ (if emptyV v then [] else [(k, pruneV v)])) = none := by
        intro k' hk'
        have h1 : lookupE k' res = none := hnone k' (by simp [hk'])
        rw [lookupE_append_none h1]
        by_cases hemp : emptyV v
        · rw [if_pos hemp]
          rfl
        · rw [if_neg hemp, lookupE]
          rw [if_neg (fun hh => by
            rw [← hh] at hk'
            have hnd1 : k ∉ rest.map Prod.fst := by simpa using hnd.1
            exact hnd1 hk')]
          rfl
      rw [place_entries_wf rest (res ++ (if emptyV v then [] else [(k, pruneV v)])) acc
        hnd.2 hwf.2 hrest]
      rw [pruneE]
      simp

end

/-- The flatten → unflatten pipeline on a well-formed dict in tuple-key
mode without a sequence prefix is exactly `pruneE`: a pure function of the
tree. -/
theorem unflatten_flattenDict (es : Entries)
    (hnd : nodupKeysE es = true) (hwf : wfEntries es = true) :
    unflatten (flattenDict none none es) none = .ok (.dict (pruneE es)) := by
  cases hF : flattenDict none none es with
  | nil =>
      have hemp : emptyE es = true := (flattenDict_eq_nil_iff es).mp hF
      have hpr : pruneE es = [] := by
        clear hF hnd hwf
        induction es with
        | nil => rfl
        | cons p rest ih =>
            obtain ⟨k, v⟩ := p
            rw [emptyE, Bool.and_eq_true] at hemp
            rw [pruneE, hemp.1, ih hemp.2]
            rfl
      rw [hpr]
      rfl
  | cons f0 F' =>
      have hmem : ([] : Path) ∉ (flattenDict none none es).map Prod.fst := by
        intro hc
        obtain ⟨q, hq, hq2⟩ := List.mem_map.mp hc
        obtain ⟨k, t, ht, _⟩ := flattenDict_head_mem es q hq
        rw [ht] at hq2
        cases hq2
      rw [hF] at hmem
      rw [unflatten_cons]
      rw [lookupF_none_of_not_mem hmem, filter_nonempty_id hmem]
      dsimp only
      rw [← hF, processPairs]
      rw [place_entries_wf es [] [] hnd hwf (fun _ _ => rfl)]
      simp [bind, Except.bind]

theorem flattenDict_append (l1 l2 : Entries) :
    flattenDict none none (l1 ++ l2) = flattenDict none none l1 ++ flattenDict none none l2 := by
  induction l1 with
  | nil => rfl
  | cons p rest ih =>
      obtain ⟨k, v⟩ := p
      rw [List.cons_append, flattenDict, flattenDict, ih, List.append_assoc]

mutual

/-- Flattening the selected subtree of one entry is filtering the entry's
flat expansion. -/
theorem selEntry_filter : ∀ (pred : Path → JValue → Bool) (k : Key) (v : JValue),
    flattenDict none none (selEntry pred (k, v))
      = (expand none none k v).filter (fun q => pred q.1 q.2)
  | pred, k, .dict es' => by
      rw [selEntry, flattenDict, flattenDict, List.append_nil, expand, expand]
      rw [selectE_filter (fun p w => pred (k :: p) w) es']
      rw [List.filter_map]
      rfl
  | pred, k, .list xs => by
      by_cases hp : pred [k] (.list xs)
      · simp [selEntry, hp, flattenDict, expand]
      · simp [selEntry, hp, flattenDict, expand]
  | pred, k, .vnum n => by
      by_cases hp : pred [k] (.vnum n)
      · simp [selEntry, hp, flattenDict, expand]
      · simp [selEntry, hp, flattenDict, expand]
  | pred, k, .vstr s => by
      by_cases hp : pred [k] (.vstr s)
      · simp [selEntry, hp, flattenDict, expand]
      · simp [selEntry, hp, flattenDict, expand]

theorem selectE_filter : ∀ (pred : Path → JValue → Bool) (es : Entries),
    flattenDict none none (selectE pred es)
      = (flattenDict none none es).filter (fun q => pred q.1 q.2)
  | pred, [] => by
      rw [selectE]
      rfl
  | pred, (k, v) :: rest => by
      rw [selectE, flattenDict_append, flattenDict]
      rw [selEntry_filter pred k v, selectE_filter pred rest, List.filter_append]

end

theorem perm_all {α : Type} {l1 l2 : List α} (h : l1.Perm l2) (f : α → Bool) :
    l1.all f = l2.all f := by
  cases hb : l2.all f with
  | true =>
      rw [List.all_eq_true] at hb ⊢
      intro x hx
      exact hb x (h.mem_iff.mp hx)
  | false =>
      cases hb1 : l1.all f with
      | false => rfl
      | true =>
          rw [List.all_eq_true] at hb1
          have : l2.all f = true := by
            rw [List.all_eq_true]
            intro x hx
            exact hb1 x (h.mem_iff.mpr hx)
          rw [this] at hb
          cases hb

theorem nodupKeysE_iff (es : Entries) :
    nodupKeysE es = true ↔ (es.map Prod.fst).Nodup := by
  induction es with
  | nil => simp [nodupKeysE]
  | cons p rest ih =>
      obtain ⟨k, v⟩ := p
      rw [nodupKeysE, Bool.and_eq_true, ih]
      simp

theorem lookupE_some_iff_mem {k : Key} {v : JValue} {es : Entries}
    (hnd : (es.map Prod.fst).Nodup) : lookupE k es = some v ↔ (k, v) ∈ es := by
  induction es with
  | nil => simp [lookupE]
  | cons p rest ih =>
      obtain ⟨k', v'⟩ := p
      rw [List.map_cons, List.nodup_cons] at hnd
      rw [lookupE]
      by_cases hk : k' = k
      · subst hk
        rw [if_pos rfl]
        simp only [List.mem_cons, Option.some_inj]
        constructor
        · intro h
          exact Or.inl (by rw [h])
        · intro h
          rcases h with h | h
          · injection h with h1 h2
            rw [h2]
          · exact absurd (List.mem_map.mpr ⟨(k', v), h, rfl⟩) hnd.1
      · rw [if_neg hk, ih hnd.2]
        simp only [List.mem_cons]
        constructor
        · intro h
          exact Or.inr h
        · intro h
          rcases h with h | h
          · injection h with h1 _
            exact absurd h1.symm hk
          · exact h

theorem lookupE_perm {l1 l2 : Entries} (h : l1.Perm l2)
    (hnd : (l1.map Prod.fst).Nodup) (k : Key) :
    lookupE k l1 = lookupE k l2 := by
  have hnd2 : (l2.map Prod.fst).Nodup := (h.map Prod.fst).nodup_iff.mp hnd
  cases hv : lookupE k l1 with
  | some v =>
      exact ((lookupE_some_iff_mem hnd2).mpr
        (h.mem_iff.mp ((lookupE_some_iff_mem hnd).mp hv))).symm
  | none =>
      cases hw : lookupE k l2 with
      | none => rfl
      | some w =>
          have : (k, w) ∈ l1 := h.mem_iff.mpr ((lookupE_some_iff_mem hnd2).mp hw)
          rw [(lookupE_some_iff_mem hnd).mpr this] at hv
          cases hv

theorem pyEqEntries_of_pointwise :
    ∀ (sub full : Entries),
      (∀ p ∈ sub, ∃ w, lookupE p.1 full = some w ∧ pyEq p.2 w = true) →
      pyEqEntries sub full = true
  | [], _, _ => rfl
  | (k, v) :: rest, full, h => by
      rw [pyEqEntries, Bool.and_eq_true]
      obtain ⟨w, hw, he⟩ := h (k, v) (by simp)
      refine ⟨?_, pyEqEntries_of_pointwise rest full (fun p hp => h p (by simp [hp]))⟩
      rw [hw]
      exact he

mutual

theorem pyEq_refl_wf : ∀ (v : JValue), wfKeys v = true → pyEq v v = true
  | .vnum q, _ => by
      rw [pyEq]
      exact beq_self_eq_true q
  | .vstr s, _ => by
      rw [pyEq]
      exact beq_self_eq_true s
  | .list xs, h => by
      rw [pyEq]
      exact pyEqList_refl_wf xs (by rw [wfKeys] at h; exact h)
  | .dict es, h => by
      rw [wfKeys, Bool.and_eq_true] at h
      rw [pyEq, Bool.and_eq_true]
      refine ⟨by simp, ?_⟩
      refine pyEqEntries_of_pointwise es es ?_
      intro p hp
      refine ⟨p.2, ?_, ?_⟩
      · exact (lookupE_some_iff_mem ((nodupKeysE_iff es).mp h.1)).mpr (by simpa using hp)
      · exact pyEq_refl_entries es h.2 p hp

theorem pyEq_refl_entries : ∀ (es : Entries), wfEntries es = true →
    ∀ p ∈ es, pyEq p.2 p.2 = true
  | [], _, p, hp => by cases hp
  | (k, v) :: rest, h, p, hp => by
      rw [wfEntries, Bool.and_eq_true] at h
      rcases List.mem_cons.mp hp with hh | hh
      · rw [hh]
        exact pyEq_refl_wf v h.1
      · exact pyEq_refl_entries rest h.2 p hh

theorem pyEqList_refl_wf : ∀ (xs : List JValue), wfList xs = true → pyEqList xs xs = true
  | [], _ => rfl
  | x :: rest, h => by
      rw [wfList, Bool.and_eq_true] at h
      rw [pyEqList, Bool.and_eq_true]
      exact ⟨pyEq_refl_wf x h.1, pyEqList_refl_wf rest h.2⟩

end

mutual

theorem TPerm_refl : ∀ (v : JValue), TPerm v v
  | .vnum _ => .base _ rfl
  | .vstr _ => .base _ rfl
  | .list _ => .base _ rfl
  | .dict es => .dict (TPermF_refl es) (List.Perm.refl es)

theorem TPermF_refl : ∀ (es : Entries), TPermF es es
  | [] => .nil
  | (_, v) :: rest => .cons (TPerm_refl v) (TPermF_refl rest)

end

theorem TPermF_keys : ∀ {es l : Entries}, TPermF es l → es.map Prod.fst = l.map Prod.fst
  | _, _, .nil => rfl
  | _, _, .cons _ h => by
      rw [List.map_cons, List.map_cons, TPermF_keys h]

theorem TPermF_lookup : ∀ {es l : Entries}, TPermF es l →
    ∀ (k : Key) (v : JValue), lookupE k es = some v →
      ∃ w, lookupE k l = some w ∧ TPerm v w
  | _, _, .nil, k, v, h => by cases h
  | _, _, .cons (k := k') (v := v') (w := w') hv hf, k, v, h => by
      rw [lookupE] at h
      by_cases hk : k' = k
      · rw [if_pos hk] at h
        injection h with h
        subst h
        exact ⟨w', by rw [lookupE, if_pos hk], hv⟩
      · rw [if_neg hk] at h
        obtain ⟨w, hw, ht⟩ := TPermF_lookup hf k v h
        exact ⟨w, by rw [lookupE, if_neg hk]; exact hw, ht⟩

mutual

theorem TPerm_emptyV : ∀ {v w : JValue}, TPerm v w → emptyV v = emptyV w
  | _, _, .base v _ => rfl
  | _, _, .dict h1 h2 => by
      rw [emptyV, emptyV]
      rw [TPermF_emptyE h1]
      have he : emptyE = fun es : Entries => es.all (fun p => emptyV p.2) := by
        funext es
        induction es with
        | nil => rfl
        | cons p rest ih => rw [emptyE, List.all_cons, ih]
      rw [he]
      exact perm_all h2 _

theorem TPermF_emptyE : ∀ {es l : Entries}, TPermF es l → emptyE es = emptyE l
  | _, _, .nil => rfl
  | _, _, .cons hv h => by
      rw [emptyE, emptyE, TPerm_emptyV hv, TPermF_emptyE h]

end

theorem TPermF_append : ∀ {a b c d : Entries}, TPermF a b → TPermF c d → TPermF (a ++ c) (b ++ d)
  | _, _, _, _, .nil, h2 => h2
  | _, _, _, _, .cons hv h, h2 => .cons hv (TPermF_append h h2)

theorem selectE_perm (pred : Path → JValue → Bool) {l1 l2 : Entries} (h : l1.Perm l2) :
    (selectE pred l1).Perm (selectE pred l2) := by
  rw [selectE_flatMap, selectE_flatMap]
  exact h.flatMap_right _

theorem pruneE_perm {l1 l2 : Entries} (h : l1.Perm l2) :
    (pruneE l1).Perm (pruneE l2) := by
  rw [pruneE_flatMap, pruneE_flatMap]
  exact h.flatMap_right _

mutual

theorem TPerm_selEntry : ∀ (pred : Path → JValue → Bool) (k : Key) {v w : JValue},
    TPerm v w → TPermF (selEntry pred (k, v)) (selEntry pred (k, w))
  | pred, k, _, _, .base v _ => TPermF_refl _
  | pred, k, _, _, @TPerm.dict es1 l es2 h1 h2 => by
      rw [selEntry, selEntry]
      exact .cons (.dict (TPermF_selectE _ h1) (selectE_perm _ h2)) .nil

theorem TPermF_selectE : ∀ (pred : Path → JValue → Bool) {es l : Entries},
    TPermF es l → TPermF (selectE pred es) (selectE pred l)
  | pred, _, _, .nil => by
      rw [selectE]
      exact .nil
  | pred, _, _, .cons (k := k) hv h => by
      rw [selectE, selectE]
      exact TPermF_append (TPerm_selEntry pred k hv) (TPermF_selectE pred h)

end

mutual

theorem TPerm_pruneV : ∀ {v w : JValue}, TPerm v w → TPerm (pruneV v) (pruneV w)
  | _, _, .base v h => by
      cases v with
      | dict es => simp [is_dict_like] at h
      | vnum q =>
          rw [show pruneV (.vnum q) = .vnum q from by simp [pruneV]]
          exact .base _ h
      | vstr s =>
          rw [show pruneV (.vstr s) = .vstr s from by simp [pruneV]]
          exact .base _ h
      | list xs =>
          rw [show pruneV (.list xs) = .list xs from by simp [pruneV]]
          exact .base _ h
  | _, _, .dict h1 h2 => by
      rw [pruneV, pruneV]
      exact .dict (TPermF_pruneE h1) (pruneE_perm h2)

theorem TPermF_pruneE : ∀ {es l : Entries}, TPermF es l → TPermF (pruneE es) (pruneE l)
  | _, _, .nil => by
      rw [pruneE]
      exact .nil
  | _, _, .cons (k := k) (v := v) (w := w) hv h => by
      rw [pruneE, pruneE]
      rw [TPerm_emptyV hv]
      by_cases hemp : emptyV w
      · rw [if_pos hemp, if_pos hemp]
        simpa using TPermF_pruneE h
      · rw [if_neg hemp, if_neg hemp]
        exact TPermF_append (.cons (TPerm_pruneV hv) .nil) (TPermF_pruneE h)

end

theorem wfEntries_eq_all (es : Entries) : wfEntries es = es.all (fun p => wfKeys p.2) := by
  induction es with
  | nil => rfl
  | cons p rest ih =>
      obtain ⟨k, v⟩ := p
      rw [wfEntries, List.all_cons, ih]

mutual

theorem TPerm_wf : ∀ {v w : JValue}, TPerm v w → wfKeys v = true → wfKeys w = true
  | _, _, .base _ _, h => h
  | _, _, .dict h1 h2, h => by
      rw [wfKeys, Bool.and_eq_true] at h ⊢
      constructor
      · rw [nodupKeysE_iff] at h ⊢
        rw [← (h2.map Prod.fst).nodup_iff, ← TPermF_keys h1]
        exact h.1
      · have hl := TPermF_wfE h1 h.2
        rw [wfEntries_eq_all] at hl ⊢
        rw [← perm_all h2]
        exact hl

theorem TPermF_wfE : ∀ {es l : Entries}, TPermF es l → wfEntries es = true → wfEntries l = true
  | _, _, .nil, h => h
  | _, _, .cons hv hf, h => by
      rw [wfEntries, Bool.and_eq_true] at h ⊢
      exact ⟨TPerm_wf hv h.1, TPermF_wfE hf h.2⟩

end

mutual

theorem TPerm_pyEq : ∀ {v w : JValue}, TPerm v w → wfKeys v = true → pyEq v w = true
  | _, _, .base v _, h => pyEq_refl_wf v h
  | _, _, @TPerm.dict es1 l es2 h1 h2, h => by
      rw [wfKeys, Bool.and_eq_true] at h
      have hkeys := TPermF_keys h1
      have hndl : (l.map Prod.fst).Nodup := by
        rw [← hkeys]
        exact (nodupKeysE_iff es1).mp h.1
      rw [pyEq, Bool.and_eq_true]
      constructor
      · have hlen1 : es1.length = l.length := by
          have := congrArg List.length hkeys
          simpa using this
        have hlen2 : l.length = es2.length := h2.length_eq
        simp [hlen1, hlen2]
      · refine pyEqEntries_of_pointwise es1 es2 ?_
        intro p hp
        obtain ⟨w, hw, he⟩ := TPermF_lookup_pyEq h1 h.2 ((nodupKeysE_iff es1).mp h.1) p hp
        refine ⟨w, ?_, he⟩
        rw [← lookupE_perm h2 hndl]
        exact hw

theorem TPermF_lookup_pyEq : ∀ {es l : Entries}, TPermF es l →
    wfEntries es = true → (es.map Prod.fst).Nodup →
    ∀ p ∈ es, ∃ w, lookupE p.1 l = some w ∧ pyEq p.2 w = true
  | _, _, .nil, _, _, p, hp => by cases hp
  | _, _, @TPermF.cons k0 v0 w0 es' l' hv hf, hwf, hnd, p, hp => by
      rw [wfEntries, Bool.and_eq_true] at hwf
      rw [List.map_cons, List.nodup_cons] at hnd
      rcases List.mem_cons.mp hp with hh | hh
      · subst hh
        exact ⟨w0, by rw [lookupE, if_pos rfl], TPerm_pyEq hv hwf.1⟩
      · obtain ⟨w, hw, he⟩ := TPermF_lookup_pyEq hf hwf.2 hnd.2 p hh
        refine ⟨w, ?_, he⟩
        rw [lookupE]
        rw [if_neg (fun hk => hnd.1 (by rw [hk]; exact List.mem_map.mpr ⟨p, hh, rfl⟩))]
        exact hw

end

theorem selectE_keys_sublist (pred : Path → JValue → Bool) (es : Entries) :
    List.Sublist ((selectE pred es).map Prod.fst) (es.map Prod.fst) := by
  induction es with
  | nil =>
      rw [selectE]
  | cons p rest ih =>
      obtain ⟨k, v⟩ := p
      rw [selectE, List.map_append, List.map_cons]
      cases v with
      | dict es' =>
          rw [show selEntry pred (k, .dict es') = [(k, .dict (selectE (fun p w => pred (k :: p) w) es'))] from by rw [selEntry]]
          exact (ih.cons₂ k)
      | vnum n =>
          by_cases hp : pred [k] (.vnum n)
          · rw [show selEntry pred (k, .vnum n) = [(k, .vnum n)] from by simp [selEntry, hp]]
            exact (ih.cons₂ k)
          · rw [show selEntry pred (k, .vnum n) = [] from by simp [selEntry, hp]]
            exact ih.cons k
      | vstr s =>
          by_cases hp : pred [k] (.vstr s)
          · rw [show selEntry pred (k, .vstr s) = [(k, .vstr s)] from by simp [selEntry, hp]]
            exact (ih.cons₂ k)
          · rw [show selEntry pred (k, .vstr s) = [] from by simp [selEntry, hp]]
            exact ih.cons k
      | list xs =>
          by_cases hp : pred [k] (.list xs)
          · rw [show selEntry pred (k, .list xs) = [(k, .list xs)] from by simp [selEntry, hp]]
            exact (ih.cons₂ k)
          · rw [show selEntry pred (k, .list xs) = [] from by simp [selEntry, hp]]
            exact ih.cons k

theorem pruneE_keys_sublist (es : Entries) :
    List.Sublist ((pruneE es).map Prod.fst) (es.map Prod.fst) := by
  induction es with
  | nil =>
      rw [pruneE]
  | cons p rest ih =>
      obtain ⟨k, v⟩ := p
      rw [pruneE, List.map_append, List.map_cons]
      by_cases hemp : emptyV v
      · rw [if_pos hemp]
        exact ih.cons k
      · rw [if_neg hemp]
        exact (ih.cons₂ k)

mutual

theorem wf_selEntry : ∀ (pred : Path → JValue → Bool) (k : Key) (v : JValue),
    wfKeys v = true → wfEntries (selEntry pred (k, v)) = true
  | pred, k, .dict es', h => by
      rw [wfKeys, Bool.and_eq_true] at h
      rw [selEntry, wfEntries, wfEntries, wfKeys, Bool.and_eq_true, Bool.and_eq_true]
      refine ⟨⟨?_, wf_selectE _ es' h.2⟩, rfl⟩
      rw [nodupKeysE_iff]
      exact ((nodupKeysE_iff es').mp h.1).sublist (selectE_keys_sublist _ es')
  | pred, k, .vnum n, h => by
      by_cases hp : pred [k] (.vnum n)
      · rw [show selEntry pred (k, .vnum n) = [(k, .vnum n)] from by simp [selEntry, hp]]
        rw [wfEntries, wfEntries, h]
        rfl
      · rw [show selEntry pred (k, .vnum n) = [] from by simp [selEntry, hp]]
        rfl
  | pred, k, .vstr s, h => by
      by_cases hp : pred [k] (.vstr s)
      · rw [show selEntry pred (k, .vstr s) = [(k, .vstr s)] from by simp [selEntry, hp]]
        rw [wfEntries, wfEntries, h]
        rfl
      · rw [show selEntry pred (k, .vstr s) = [] from by simp [selEntry, hp]]
        rfl
  | pred, k, .list xs, h => by
      by_cases hp : pred [k] (.list xs)
      · rw [show selEntry pred (k, .list xs) = [(k, .list xs)] from by simp [selEntry, hp]]
        rw [wfEntries, wfEntries, h]
        rfl
      · rw [show selEntry pred (k, .list xs) = [] from by simp [selEntry, hp]]
        rfl

theorem wf_selectE : ∀ (pred : Path → JValue → Bool) (es : Entries),
    wfEntries es = true → wfEntries (selectE pred es) = true
  | pred, [], _ => by
      rw [selectE]
      rfl
  | pred, (k, v) :: rest, h => by
      rw [wfEntries, Bool.and_eq_true] at h
      rw [selectE]
      rw [wfEntries_eq_all, List.all_append, Bool.and_eq_true, ← wfEntries_eq_all,
        ← wfEntries_eq_all]
      exact ⟨wf_selEntry pred k v h.1, wf_selectE pred rest h.2⟩

end

mutual

theorem wf_pruneV : ∀ (v : JValue), wfKeys v = true → wfKeys (pruneV v) = true
  | .dict es, h => by
      rw [wfKeys, Bool.and_eq_true] at h
      rw [pruneV, wfKeys, Bool.and_eq_true]
      refine ⟨?_, wf_pruneE es h.2⟩
      rw [nodupKeysE_iff]
      exact ((nodupKeysE_iff es).mp h.1).sublist (pruneE_keys_sublist es)
  | .vnum n, h => by
      rw [show pruneV (.vnum n) = .vnum n from by simp [pruneV]]
      exact h
  | .vstr s, h => by
      rw [show pruneV (.vstr s) = .vstr s from by simp [pruneV]]
      exact h
  | .list xs, h => by
      rw [show pruneV (.list xs) = .list xs from by simp [pruneV]]
      exact h

theorem wf_pruneE : ∀ (es : Entries), wfEntries es = true → wfEntries (pruneE es) = true
  | [], _ => by
      rw [pruneE]
      rfl
  | (k, v) :: rest, h => by
      rw [wfEntries, Bool.and_eq_true] at h
      rw [pruneE]
      rw [wfEntries_eq_all, List.all_append, Bool.and_eq_true, ← wfEntries_eq_all,
        ← wfEntries_eq_all]
      refine ⟨?_, wf_pruneE rest h.2⟩
      by_cases hemp : emptyV v
      · rw [if_pos hemp]
        rfl
      · rw [if_neg hemp, wfEntries, wfEntries, wf_pruneV v h.1]
        rfl

end

/-- A filter pipeline (flatten, keep flat pairs by `pred`, unflatten) on a
well-formed dict is the pure tree function `pruneE ∘ selectE pred`. -/
theorem filter_pipeline_eq (pred : Path → JValue → Bool) (es : Entries)
    (hnd : nodupKeysE es = true) (hwf : wfEntries es = true) :
    unflatten ((flattenDict none none es).filter (fun q => pred q.1 q.2)) none
      = .ok (.dict (pruneE (selectE pred es))) := by
  rw [← selectE_filter pred es]
  refine unflatten_flattenDict (selectE pred es) ?_ (wf_selectE pred es hwf)
  rw [nodupKeysE_iff]
  exact ((nodupKeysE_iff es).mp hnd).sublist (selectE_keys_sublist pred es)

theorem filter_pipeline_perm (pred : Path → JValue → Bool) {es1 es2 : Entries}
    (h : TPerm (.dict es1) (.dict es2))
    (hnd : nodupKeysE es1 = true) (hwf : wfEntries es1 = true) :
    pyEq (.dict (pruneE (selectE pred es1))) (.dict (pruneE (selectE pred es2))) = true := by
  cases h with
  | base _ hb => simp [is_dict_like] at hb
  | dict h1 h2 =>
      have htp : TPerm (.dict (pruneE (selectE pred es1))) (.dict (pruneE (selectE pred es2))) :=
        .dict (TPermF_pruneE (TPermF_selectE pred h1)) (pruneE_perm (selectE_perm pred h2))
      refine TPerm_pyEq htp ?_
      rw [wfKeys, Bool.and_eq_true]
      constructor
      · rw [nodupKeysE_iff]
        exact (((nodupKeysE_iff es1).mp hnd).sublist (selectE_keys_sublist pred es1)).sublist
          (pruneE_keys_sublist (selectE pred es1))
      · exact wf_pruneE _ (wf_selectE pred es1 hwf)

theorem flatten_dict_wf (es : Entries) (hnd : nodupKeysE es = true)
    (hwf : wfEntries es = true) :
    flatten (.dict es) none none = .ok (flattenDict none none es) := by
  rw [show flatten (.dict es) none none = .ok (pyDict (flattenDict none none es)) from rfl]
  rw [pyDict_nodup_id _ (flattenDict_paths_nodup_wf es hnd hwf)]

/-- C7 (amended): determinism holds for the keep/drop filters but not for
`remove_keys`.  Any pipeline that flattens, keeps flat pairs by a
predicate of the (full) path and value, and unflattens — the shape of
`filter_values`, `filter_keys`, `filter_keyvals` and `filter_paths` in
tuple-key mode — computes the pure tree function `pruneE ∘ selectE` of
its input, so two inputs equal up to dict iteration order (at every dict
level) give `==`-equal outputs; instantiated for `filter_values` and
`filter_keys`.  `remove_keys` instead *contracts* paths before the
rebuild, and colliding contracted paths are resolved by last-writer-wins
in iteration order (see the counterexample). -/
theorem filter_determinism :
    (∀ (pred : Path → JValue → Bool) (es1 es2 : Entries),
       nodupKeysE es1 = true → wfEntries es1 = true →
       TPerm (.dict es1) (.dict es2) →
       ∃ r1 r2,
         unflatten ((flattenDict none none es1).filter (fun q => pred q.1 q.2)) none = .ok r1
         ∧ unflatten ((flattenDict none none es2).filter (fun q => pred q.1 q.2)) none = .ok r2
         ∧ pyEq r1 r2 = true)
  ∧ (∀ (vals : List JValue) (es1 es2 : Entries),
       nodupKeysE es1 = true → wfEntries es1 = true →
       TPerm (.dict es1) (.dict es2) →
       ∃ r1 r2, filter_values (.dict es1) vals false = .ok r1
         ∧ filter_values (.dict es2) vals false = .ok r2
         ∧ pyEq r1 r2 = true)
  ∧ (∀ (keys : List JValue) (uw : Bool) (es1 es2 : Entries),
       nodupKeysE es1 = true → wfEntries es1 = true →
       TPerm (.dict es1) (.dict es2) →
       ∃ r1 r2, filter_keys (.dict es1) keys uw false = .ok r1
         ∧ filter_keys (.dict es2) keys uw false = .ok r2
         ∧ pyEq r1 r2 = true) := by
  have hwf2 : ∀ {es1 es2 : Entries}, nodupKeysE es1 = true → wfEntries es1 = true →
      TPerm (.dict es1) (.dict es2) →
      nodupKeysE es2 = true ∧ wfEntries es2 = true := by
    intro es1 es2 hnd hwf htp
    have h2 := TPerm_wf htp (by rw [wfKeys, Bool.and_eq_true]; exact ⟨hnd, hwf⟩)
    rw [wfKeys, Bool.and_eq_true] at h2
    exact h2
  have hmaster : ∀ (pred : Path → JValue → Bool) (es1 es2 : Entries),
      nodupKeysE es1 = true → wfEntries es1 = true →
      TPerm (.dict es1) (.dict es2) →
      ∃ r1 r2,
        unflatten ((flattenDict none none es1).filter (fun q => pred q.1 q.2)) none = .ok r1
        ∧ unflatten ((flattenDict none none es2).filter (fun q => pred q.1 q.2)) none = .ok r2
        ∧ pyEq r1 r2 = true := by
    intro pred es1 es2 hnd hwf htp
    obtain ⟨hnd2, hwf2'⟩ := hwf2 hnd hwf htp
    exact ⟨_, _, filter_pipeline_eq pred es1 hnd hwf, filter_pipeline_eq pred es2 hnd2 hwf2',
      filter_pipeline_perm pred htp hnd hwf⟩
  refine ⟨hmaster, ?_, ?_⟩
  · intro vals es1 es2 hnd hwf htp
    obtain ⟨hnd2, hwf2'⟩ := hwf2 hnd hwf htp
    obtain ⟨r1, r2, h1, h2, he⟩ :=
      hmaster (fun _ v => vals.any (fun w => pyEq v w)) es1 es2 hnd hwf htp
    refine ⟨r1, r2, ?_, ?_, he⟩
    · show (do
        let flatd ← flatten (.dict es1) none none
        let flatd := flatd.filter (fun p : Path × JValue => vals.any (fun w => pyEq p.2 w))
        unflatten flatd none) = .ok r1
      rw [flatten_dict_wf es1 hnd hwf]
      simpa using h1
    · show (do
        let flatd ← flatten (.dict es2) none none
        let flatd := flatd.filter (fun p : Path × JValue => vals.any (fun w => pyEq p.2 w))
        unflatten flatd none) = .ok r2
      rw [flatten_dict_wf es2 hnd2 hwf2']
      simpa using h2
  · intro keys uw es1 es2 hnd hwf htp
    obtain ⟨hnd2, hwf2'⟩ := hwf2 hnd hwf htp
    obtain ⟨r1, r2, h1, h2, he⟩ :=
      hmaster (fun path _ => keys.any (fun k => filterKeysIsIn uw k path)) es1 es2 hnd hwf htp
    refine ⟨r1, r2, ?_, ?_, he⟩
    · show (do
        let flatd ← flatten (.dict es1) none none
        let flatd := flatd.filter (fun p : Path × JValue => keys.any (fun k => filterKeysIsIn uw k p.1))
        unflatten flatd none) = .ok r1
      rw [flatten_dict_wf es1 hnd hwf]
      simpa using h1
    · show (do
        let flatd ← flatten (.dict es2) none none
        let flatd := flatd.filter (fun p : Path × JValue => keys.any (fun k => filterKeysIsIn uw k p.1))
        unflatten flatd none) = .ok r2
      rw [flatten_dict_wf es2 hnd2 hwf2']
      simpa using h2

/-- C7 counterexample: the claim as stated is false — `remove_keys` is
iteration-order dependent.  On `{'a': {'x': 1}, 'b': {'x': 2}}` with keys
`['a', 'b']` both flat paths contract to `('x',)` and the later branch
wins: the two iteration orders of `==`-equal inputs return `{'x': 2}`
and `{'x': 1}`, which are not `==`-equal. -/
theorem filter_determinism_counterexample :
    pyEq (.dict [(.ks "a", .dict [(.ks "x", .vnum 1)]), (.ks "b", .dict [(.ks "x", .vnum 2)])])
         (.dict [(.ks "b", .dict [(.ks "x", .vnum 2)]), (.ks "a", .dict [(.ks "x", .vnum 1)])])
      = true
  ∧ remove_keys
      (.dict [(.ks "a", .dict [(.ks "x", .vnum 1)]), (.ks "b", .dict [(.ks "x", .vnum 2)])])
      [.vstr "a", .vstr "b"] true false = .ok (.dict [(.ks "x", .vnum 2)])
  ∧ remove_keys
      (.dict [(.ks "b", .dict [(.ks "x", .vnum 2)]), (.ks "a", .dict [(.ks "x", .vnum 1)])])
      [.vstr "a", .vstr "b"] true false = .ok (.dict [(.ks "x", .vnum 1)])
  ∧ pyEq (.dict [(.ks "x", .vnum 2)]) (.dict [(.ks "x", .vnum 1)]) = false := by
  refine ⟨by decide, by decide, by decide, by decide⟩

/-- C7 witness: `filter_values` on the two iteration orders of
`{'a': 1, 'b': 2}` succeeds on both and returns `==`-equal results. -/
theorem filter_determinism_witness :
    ∃ r1 r2,
      filter_values (.dict [(.ks "a", .vnum 1), (.ks "b", .vnum 2)]) [.vnum 2] false = .ok r1
      ∧ filter_values (.dict [(.ks "b", .vnum 2), (.ks "a", .vnum 1)]) [.vnum 2] false = .ok r2
      ∧ pyEq r1 r2 = true :=
  filter_determinism.2.1 [.vnum 2]
    [(.ks "a", .vnum 1), (.ks "b", .vnum 2)]
    [(.ks "b", .vnum 2), (.ks "a", .vnum 1)]
    (by decide) (by decide)
    (.dict (TPermF_refl _) (List.Perm.swap _ _ _))

end JsonExt
